import Mathlib

/-!
# HR file to HDF5 converter: the parse pass of `main.c`

A shallow embedding of `src/main.c`.  The input stream is the list of characters not yet
read; the C library calls the program makes (`fgets`, `strtok`, `strtol`) are functions on
such lists.  Machine integers are mathematical integers reduced explicitly to their width.
Values of type `double` are kept abstract: every definition takes the arithmetic of
`double` as a parameter (`DoubleOps`), so the theorems hold for IEEE-754 as for any other
interpretation, and `fracOps` gives an executable interpretation by exact fractions.
-/

namespace HrConv

/-! ## Machine integers -/

/-- The value an `int` holds after a result `x` is reduced to 32 bits, two's complement. -/
def wrapInt32 (x : Int) : Int := (x + 2147483648) % 4294967296 - 2147483648

/-- The value an `unsigned int` holds after a result `x` is reduced modulo `2^32`. -/
def wrapUInt32 (x : Int) : Nat := (x % 4294967296).toNat

/-- The value an `unsigned long` holds after a result `x` is reduced modulo `2^64`. -/
def wrapUInt64 (x : Int) : Nat := (x % 18446744073709551616).toNat

/-- `LONG_MAX` of a 64-bit `long`. -/
def LONG_MAX : Int := 9223372036854775807

/-- `LONG_MIN` of a 64-bit `long`. -/
def LONG_MIN : Int := -9223372036854775808

/-- `#define MAX_BUFF_SIZE 1024`. -/
def MAX_BUFF_SIZE : Nat := 1024

/-! ## The C library calls on text -/

/-- The characters one `fgets` call with room for `n` characters moves into the buffer,
and the stream left behind: reading stops after a newline, at end of file, or when the
room is used up. -/
def fgetsTake : Nat → List Char → List Char × List Char
  | 0, s => ([], s)
  | _ + 1, [] => ([], [])
  | n + 1, c :: s =>
    if c = '\n' then ([c], s)
    else (c :: (fgetsTake n s).1, (fgetsTake n s).2)

/-- `fgets(buf, size, f)`: `none` is the null pointer returned at end of file (the buffer is
then left as it was), otherwise the new buffer contents and the stream left. -/
def fgets (size : Nat) (f : List Char) : Option (List Char × List Char) :=
  match f with
  | [] => none
  | _ :: _ => some (fgetsTake (size - 1) f)

/-- One `strtok` call on the text at the save pointer: leading delimiters are skipped, the
token runs up to the next delimiter, and the save pointer moves past that delimiter (which
the call overwrites by a terminator).  `none` is the null pointer: no token is left. -/
def strtok (delims : List Char) (s : List Char) : Option (List Char × List Char) :=
  match s.dropWhile (fun c => decide (c ∈ delims)) with
  | [] => none
  | c :: t =>
    some ((c :: t).takeWhile (fun d => !decide (d ∈ delims)),
          ((c :: t).dropWhile (fun d => !decide (d ∈ delims))).drop 1)

/-- The delimiters of every `strtok` call but the first: `" \t\n\r"`. -/
def restDelims : List Char := [' ', '\t', '\n', '\r']

/-- The calls `tok = strtok(nullptr, " \t\n\r")` of the token loop, until the null pointer. -/
def tokLoop : Nat → List Char → List (List Char)
  | 0, _ => []
  | fuel + 1, s =>
    match strtok restDelims s with
    | none => []
    | some (tok, rest) => tok :: tokLoop fuel rest

/-- The tokens visited by
`for (tok = strtok(s, " "); tok != nullptr; tok = strtok(nullptr, " \t\n\r"))`:
the first call splits on the space alone, the later ones on blanks, tabs and line ends.
Every later call consumes a character, so the length of the text bounds their number. -/
def tokens (s : List Char) : List (List Char) :=
  match strtok [' '] s with
  | none => []
  | some (tok, rest) => tok :: tokLoop rest.length rest

/-- The C string seen at the start of a buffer after the token loop has run over it: the
first `strtok` call put a terminator right after the first token. -/
def bufferAfterTokens (s : List Char) : List Char :=
  s.takeWhile (fun c => c = ' ') ++
    (s.dropWhile (fun c => c = ' ')).takeWhile (fun c => !decide (c = ' '))

/-- `isspace` in the C locale. -/
def isspace (c : Char) : Bool :=
  c = ' ' || c = '\t' || c = '\n' || c = Char.ofNat 11 || c = Char.ofNat 12 || c = '\r'

/-- `isdigit`. -/
def isdigit (c : Char) : Bool := decide (48 ≤ c.toNat) && decide (c.toNat ≤ 57)

/-- The number written by a string of decimal digits. -/
def digitsValue (ds : List Char) : Nat :=
  ds.foldl (fun acc c => 10 * acc + (c.toNat - 48)) 0

/-- What `strtol(nptr, &endptr, 10)` reports: the `long` returned, `endptr - nptr`, and
whether `errno` was set (to `ERANGE`). -/
structure StrtolResult where
  value : Int
  endOffset : Nat
  erange : Bool
  deriving DecidableEq, Repr

/-- `strtol(s, &endptr, 10)`: white space, an optional sign, decimal digits.  Without a
digit nothing is converted: the value is 0 and `endptr` is `s`.  A value outside `long` is
clamped and `errno` becomes `ERANGE`. -/
def strtol (s : List Char) : StrtolResult :=
  let ws := s.takeWhile isspace
  let s1 := s.dropWhile isspace
  let neg := s1.head? = some '-'
  let signLen := if s1.head? = some '-' ∨ s1.head? = some '+' then 1 else 0
  let ds := (s1.drop signLen).takeWhile isdigit
  if ds = [] then ⟨0, 0, false⟩
  else
    let v : Int := if neg then -(digitsValue ds : Int) else (digitsValue ds : Int)
    let e := ws.length + signLen + ds.length
    if v > LONG_MAX then ⟨LONG_MAX, e, true⟩
    else if v < LONG_MIN then ⟨LONG_MIN, e, true⟩
    else ⟨v, e, false⟩

/-! ## What the program does to the outside -/

/-- The observable actions of the program, in order.  A message is recorded by its format
string. -/
inductive Event where
  | out (fmt : String)
  | err (fmt : String)
  | fopen (path : List Char)
  | fclose
  | h5create (path : List Char)
  | h5write (name : String)
  | h5close
  deriving DecidableEq, Repr

/-- The outcome of `read_int_from_nextline_fstream`: the `int` returned, the stream left,
and what was printed. -/
structure ReadInt where
  result : Int
  rest : List Char
  log : List Event
  deriving DecidableEq, Repr

/-- `read_int_from_nextline_fstream`: one `fgets`, then `strtol` on the buffer.  The cast
`(int) numwann_tol` reduces the `long` to 32 bits. -/
def read_int_from_nextline_fstream (f : List Char) : ReadInt :=
  match fgets MAX_BUFF_SIZE f with
  | none =>
    ⟨-1, f, [Event.err "Error reading an integer from the data file. Please double check the hr file. \n"]⟩
  | some (buf, rest) =>
    if (strtol buf).erange then ⟨-1, rest, [Event.err "Error encountered in strtol.. \n"]⟩
    else
      ⟨wrapInt32 (strtol buf).value, rest,
        if (strtol buf).endOffset = 0 then [Event.err "Invalid input at line: %s \n"] else []⟩

/-! ## Arithmetic of `double` -/

/-- The operations on `double` that the program performs: `strtod(tok, nullptr)`, the
conversion of an `int` operand to `double`, the quotient `x / y`, the comparison `x != y`
(`ne`) and the cast `(int)x`.  As in IEEE-754 the values that do not differ form a symmetric
and transitive relation (a NaN differs from everything, itself included, so reflexivity is
not asked for). -/
structure DoubleOps (F : Type) where
  strtod : List Char → F
  ofInt : Int → F
  div : F → F → F
  ne : F → F → Bool
  toInt : F → Int
  ne_comm : ∀ a b, ne a b = ne b a
  eq_trans : ∀ a b c, ne a b = false → ne b c = false → ne a c = false

/-! ## Memory blocks -/

/-- An array object: the number of its cells and what each holds.  A cell read before it
was written holds whatever the block held when it was obtained. -/
structure Buf (α : Type) where
  size : Nat
  cell : Nat → α

/-- Reading `b[i]`; `none` when `i` is outside the object. -/
def Buf.read {α : Type} (b : Buf α) (i : Nat) : Option α :=
  if i < b.size then some (b.cell i) else none

/-- The assignment `b[i] = v`; `none` when `i` is outside the object. -/
def Buf.write {α : Type} (b : Buf α) (i : Nat) (v : α) : Option (Buf α) :=
  if i < b.size then some ⟨b.size, fun j => if j = i then v else b.cell j⟩ else none

/-- The cells of a block in order. -/
def Buf.toList {α : Type} (b : Buf α) : List α := (List.range b.size).map b.cell

/-- The assignments `b[i] = v0; b[i+1] = v1; ...` for a list of values. -/
def Buf.writeList {α : Type} : Buf α → Nat → List α → Option (Buf α)
  | b, _, [] => some b
  | b, i, v :: vs =>
    match b.write i v with
    | none => none
    | some b1 => Buf.writeList b1 (i + 1) vs

/-- `strtod_arr(s, vals)`: every token of `s` is converted by `strtod` and stored in the
next cell of `vals`, starting at `vals[0]`. -/
def strtod_arr {F : Type} (ops : DoubleOps F) (s : List Char) (vals : Buf F) : Option (Buf F) :=
  vals.writeList 0 ((tokens s).map ops.strtod)

/-! ## The degeneracy loader (lines 113-132) -/

/-- The lines the two `while (fgets(buffer, MAX_BUFF_SIZE, hrfp))` loops see: the results
of the successive `fgets` calls on a stream, up to the null pointer. -/
def fgetsLinesAux : Nat → List Char → List (List Char)
  | 0, _ => []
  | fuel + 1, f =>
    match fgets MAX_BUFF_SIZE f with
    | none => []
    | some (buf, rest) => buf :: fgetsLinesAux fuel rest

/-- All lines of a stream as `fgets` delivers them; each call consumes a character, so the
length of the stream bounds the number of calls. -/
def fgetsLines (f : List Char) : List (List Char) := fgetsLinesAux f.length f

/-- `const int num_lines_degeneracy_facts = (nrvecs / 15) + 1;`: C division truncates
towards zero, and for an `int` operand the sum stays far inside `int`. -/
def num_lines_degeneracy_facts (nrvecs : Int) : Int := Int.tdiv nrvecs 15 + 1

/-- The integer the loader stores for a token: `(int)strtol(tok, &endptr, 10)`. -/
def storedInt (tok : List Char) : Int := wrapInt32 (strtol tok).value

/-- The variables of the degeneracy loop: `stored` lists the values assigned to
`degeneracy_facts[0]`, `degeneracy_facts[1]`, ... so far (`counter` is its length),
`buffer` is the C string in the line buffer. -/
structure Loader where
  stored : List Int
  current_line : Int
  buffer : List Char
  deriving DecidableEq, Repr

/-- The number `counter` of integers appended so far. -/
def Loader.counter (st : Loader) : Nat := st.stored.length

/-- The degeneracy loop over the lines still to be read.  Each `fgets` overwrites the
buffer; the loop leaves by `break` with a fresh line in the buffer, or at end of file with
the buffer as the token loop left it.  Returns the lines not yet read as well. -/
def loaderLoop (num_lines : Int) : List (List Char) → Loader → Loader × List (List Char)
  | [], st => (st, [])
  | l :: ls, st =>
    if st.current_line ≥ num_lines then (⟨st.stored, st.current_line, l⟩, ls)
    else
      loaderLoop num_lines ls
        ⟨st.stored ++ (tokens l).map storedInt, st.current_line + 1, bufferAfterTokens l⟩

/-- The block `degeneracy_facts` after the loop: the stored values, then cells never
assigned.  `none` when more values were stored than the block has cells. -/
def degeneracyTable (cells : Nat) (fresh : Nat → Int) (stored : List Int) : Option (Buf Int) :=
  if stored.length ≤ cells then some ⟨cells, fun i => stored.getD i (fresh i)⟩ else none

/-! ## The Hamiltonian builder (lines 157-202) -/

/-- The addressing formula `rvecs_counter + num_wann * nrvecs * alpha + nrvecs * beta`,
read over the integers. -/
def hamIndex (num_wann nrvecs : Int) (r : Nat) (alpha beta : Int) : Int :=
  r + num_wann * nrvecs * alpha + nrvecs * beta

/-- The same expression as the machine evaluates it: the products are `int`, the sums are
`unsigned int` because `rvecs_counter` is. -/
def hamSlot (num_wann nrvecs : Int) (rvecs_counter : Nat) (alpha beta : Int) : Nat :=
  wrapUInt32
    (wrapUInt32 (rvecs_counter + wrapInt32 (wrapInt32 (num_wann * nrvecs) * alpha))
      + wrapInt32 (nrvecs * beta))

/-- The arrays and counters of the builder. -/
structure Builder (F : Type) where
  rvecs : Buf F
  reH : Buf F
  imH : Buf F
  vals : Buf F
  rvecs_counter3 : Nat
  rvecs_counter : Nat

/-- The test `rvecs[c3] != vals[0] || rvecs[c3 + 1] != vals[1] || rvecs[c3 + 2] != vals[2]`,
evaluated left to right. -/
def tripleDiffers {F : Type} (ops : DoubleOps F) (rvecs : Buf F) (c3 : Nat) (vals : Buf F) :
    Option Bool :=
  match rvecs.read c3 with
  | none => none
  | some a =>
    if ops.ne a (vals.cell 0) then some true
    else
      match rvecs.read (wrapUInt32 (c3 + 1)) with
      | none => none
      | some b =>
        if ops.ne b (vals.cell 1) then some true
        else
          match rvecs.read (wrapUInt32 (c3 + 2)) with
          | none => none
          | some c => some (ops.ne c (vals.cell 2))

/-- The block `rvecs_counter3 += 3; rvecs[...] = vals[...]; rvecs_counter++;` taken when
the triple differs. -/
def appendRvec {F : Type} (st : Builder F) : Option (Builder F) :=
  match st.rvecs.write (wrapUInt32 (st.rvecs_counter3 + 3)) (st.vals.cell 0) with
  | none => none
  | some r1 =>
    match r1.write (wrapUInt32 (wrapUInt32 (st.rvecs_counter3 + 3) + 1)) (st.vals.cell 1) with
    | none => none
    | some r2 =>
      match r2.write (wrapUInt32 (wrapUInt32 (st.rvecs_counter3 + 3) + 2)) (st.vals.cell 2) with
      | none => none
      | some r3 =>
        some ⟨r3, st.reH, st.imH, st.vals, wrapUInt32 (st.rvecs_counter3 + 3),
              wrapUInt32 (st.rvecs_counter + 1)⟩

/-- The update of the R vectors (lines 184-195). -/
def updateRvecs {F : Type} (ops : DoubleOps F) (st : Builder F) : Option (Builder F) :=
  match tripleDiffers ops st.rvecs st.rvecs_counter3 st.vals with
  | none => none
  | some true => appendRvec st
  | some false => some st

/-- The zero-based orbital index `(int)vals[k] - 1`. -/
def orbital {F : Type} (ops : DoubleOps F) (v : F) : Int := wrapInt32 (ops.toInt v - 1)

/-- The two assignments to `reH` and `imH` (lines 196-200). -/
def scatter {F : Type} (ops : DoubleOps F) (num_wann nrvecs : Int) (deg : Buf Int)
    (st : Builder F) : Option (Builder F) :=
  match deg.read st.rvecs_counter with
  | none => none
  | some d =>
    match st.reH.write
        (hamSlot num_wann nrvecs st.rvecs_counter (orbital ops (st.vals.cell 3))
          (orbital ops (st.vals.cell 4)))
        (ops.div (st.vals.cell 5) (ops.ofInt d)) with
    | none => none
    | some re =>
      match st.imH.write
          (hamSlot num_wann nrvecs st.rvecs_counter (orbital ops (st.vals.cell 3))
            (orbital ops (st.vals.cell 4)))
          (ops.div (st.vals.cell 6) (ops.ofInt d)) with
      | none => none
      | some im => some ⟨st.rvecs, re, im, st.vals, st.rvecs_counter3, st.rvecs_counter⟩

/-- One turn of the builder loop on the line just read: `strtod_arr`, the update of the
R vectors, the two stores. -/
def builderStep {F : Type} (ops : DoubleOps F) (num_wann nrvecs : Int) (deg : Buf Int)
    (st : Builder F) (line : List Char) : Option (Builder F) :=
  match strtod_arr ops line st.vals with
  | none => none
  | some vals =>
    match updateRvecs ops ⟨st.rvecs, st.reH, st.imH, vals, st.rvecs_counter3, st.rvecs_counter⟩ with
    | none => none
    | some st1 => scatter ops num_wann nrvecs deg st1

/-- The builder loop `while (fgets(buffer, MAX_BUFF_SIZE, hrfp))` over the lines left. -/
def builderLoop {F : Type} (ops : DoubleOps F) (num_wann nrvecs : Int) (deg : Buf Int) :
    List (List Char) → Builder F → Option (Builder F)
  | [], st => some st
  | l :: ls, st =>
    match builderStep ops num_wann nrvecs deg st l with
    | none => none
    | some st1 => builderLoop ops num_wann nrvecs deg ls st1

/-- The first data entry (lines 157-167): the line left in the buffer by the degeneracy
loop is converted, its triple goes to `rvecs[0..2]` and its amplitude to cell 0 of `reH`
and `imH`; then both counters start at 0. -/
def firstEntry {F : Type} (ops : DoubleOps F) (deg : Buf Int) (buffer : List Char)
    (rvecs reH imH vals : Buf F) : Option (Builder F) :=
  match strtod_arr ops buffer vals with
  | none => none
  | some v =>
    match rvecs.writeList 0 [v.cell 0, v.cell 1, v.cell 2] with
    | none => none
    | some rv =>
      match deg.read 0 with
      | none => none
      | some d =>
        match reH.write 0 (ops.div (v.cell 5) (ops.ofInt d)) with
        | none => none
        | some re =>
          match imH.write 0 (ops.div (v.cell 6) (ops.ofInt d)) with
          | none => none
          | some im => some ⟨rv, re, im, v, 0, 0⟩

/-- The builder as a whole: the first data entry from the buffer, then the loop. -/
def builder {F : Type} (ops : DoubleOps F) (num_wann nrvecs : Int) (deg : Buf Int)
    (buffer : List Char) (body : List (List Char)) (rvecs reH imH vals : Buf F) :
    Option (Builder F) :=
  match firstEntry ops deg buffer rvecs reH imH vals with
  | none => none
  | some st => builderLoop ops num_wann nrvecs deg body st

/-! ## The program -/

/-- What the run depends on besides its arguments: the files that can be opened for
reading, which requests `malloc` grants, whether the HDF5 calls succeed, and the contents
of storage the program reads before writing it (the stack arrays `buffer` and `vals`, the
blocks returned by `malloc`). -/
structure Env (F : Type) where
  files : List Char → Option (List Char)
  mallocOk : Nat → Bool
  h5Ok : Bool
  freshBuffer : List Char
  freshVals : Nat → F
  freshDeg : Nat → Int
  freshRvecs : Nat → F
  freshRe : Nat → F
  freshIm : Nat → F

/-- `malloc(bytes)` for an array of cells of `width` bytes: `none` is the null pointer. -/
def malloc {α : Type} (ok : Nat → Bool) (bytes width : Nat) (fresh : Nat → α) : Option (Buf α) :=
  if ok bytes then some ⟨bytes / width, fresh⟩ else none

/-- `const unsigned long n_doubles_ham = num_wann * num_wann * nrvecs;`: the product is
computed in `int` and then converted. -/
def n_doubles_ham (num_wann nrvecs : Int) : Nat :=
  wrapUInt64 (wrapInt32 (wrapInt32 (num_wann * num_wann) * nrvecs))

/-- `const unsigned long n_bytes_ham = n_doubles_ham * sizeof(double);`. -/
def n_bytes_ham (num_wann nrvecs : Int) : Nat :=
  wrapUInt64 ((n_doubles_ham num_wann nrvecs : Int) * 8)

/-- The request `malloc(nrvecs * sizeof(int))` for `degeneracy_facts`, in bytes. -/
def degBytes (nrvecs : Int) : Nat := wrapUInt64 (nrvecs * 4)

/-- The request `malloc(nrvecs * 3 * sizeof(double))` for `rvecs`, in bytes: `nrvecs * 3`
is an `int` product. -/
def rvecsBytes (nrvecs : Int) : Nat := wrapUInt64 (wrapInt32 (nrvecs * 3) * 8)

/-- How the parse pass (lines 96-202) ends. -/
inductive Parsed (F : Type) where
  | allocFailure
  | fault
  | done (num_wann nrvecs : Int) (st : Builder F)

/-- The parse pass with what it printed. -/
structure ParsePass (F : Type) where
  log : List Event
  result : Parsed F

/-- The messages of the header reader, in order. -/
def headerLog (r1 r2 : ReadInt) : List Event :=
  r1.log ++ [Event.out "--- Number of wannier orbitals: %i \n"] ++ r2.log ++
    [Event.out "--- Number of R vectors       : %i \n"]

/-- The stream after `do { c = fgetc(hrfp); } while (c != '\n' && c != EOF);`: the first
line is skipped. -/
def skipLine (f : List Char) : List Char :=
  (f.dropWhile (fun c => !decide (c = '\n'))).drop 1

/-- Lines 134-202 of `main`, with the block `degeneracy_facts` as the loader filled it: the
arrays are obtained and the builder fills them.  `fault` stands for an access outside an
object, after which the C program has no defined behaviour. -/
def fillArrays {F : Type} (ops : DoubleOps F) (env : Env F) (num_wann nrvecs : Int)
    (stored : List Int) (buffer : List Char) (body : List (List Char)) : ParsePass F :=
  let degCells :=
    match malloc env.mallocOk (degBytes nrvecs) 4 env.freshDeg with
    | none => 0
    | some b => b.size
  match degeneracyTable degCells env.freshDeg stored with
  | none => ⟨[], Parsed.fault⟩
  | some deg =>
    match malloc env.mallocOk (rvecsBytes nrvecs) 8 env.freshRvecs,
          malloc env.mallocOk (n_bytes_ham num_wann nrvecs) 8 env.freshRe,
          malloc env.mallocOk (n_bytes_ham num_wann nrvecs) 8 env.freshIm with
    | some rvecs, some reH, some imH =>
      match builder ops num_wann nrvecs deg buffer body rvecs reH imH ⟨7, env.freshVals⟩ with
      | none => ⟨[Event.out "--- Size of the model data in memory: %lu bytes \n"], Parsed.fault⟩
      | some st =>
        ⟨[Event.out "--- Size of the model data in memory: %lu bytes \n"],
          Parsed.done num_wann nrvecs st⟩
    | _, _, _ =>
      ⟨[Event.out "--- Size of the model data in memory: %lu bytes \n",
          Event.err "Memory Allocation Failure: Cannot allocate arrays for the real space model.\n",
          Event.fclose],
        Parsed.allocFailure⟩

/-- Lines 96-202 of `main` on the contents `f` of the opened file: the comment line is
skipped, the two header integers are read, the degeneracy loop runs over the lines that
follow, and the arrays are obtained and filled. -/
def parsePass {F : Type} (ops : DoubleOps F) (env : Env F) (f : List Char) : ParsePass F :=
  let r1 := read_int_from_nextline_fstream (skipLine f)
  let r2 := read_int_from_nextline_fstream r1.rest
  let loaded := loaderLoop (num_lines_degeneracy_facts r2.result) (fgetsLines r2.rest)
    ⟨[], 0, env.freshBuffer⟩
  let filled := fillArrays ops env r1.result r2.result loaded.1.stored loaded.1.buffer loaded.2
  ⟨headerLog r1 r2 ++ filled.log, filled.result⟩

/-- The five datasets handed to the HDF5 writer. -/
structure Datasets (F : Type) where
  reH : List F
  imH : List F
  rvecs : List F
  nw : Int
  nr : Int

/-- What the parse pass hands over: `dims` is `n_doubles_ham`, `dims_rvecs` is
`nrvecs * 3`. -/
def datasets {F : Type} (num_wann nrvecs : Int) (st : Builder F) : Datasets F :=
  ⟨(⟨n_doubles_ham num_wann nrvecs, st.reH.cell⟩ : Buf F).toList,
   (⟨n_doubles_ham num_wann nrvecs, st.imH.cell⟩ : Buf F).toList,
   (⟨wrapUInt64 (wrapInt32 (nrvecs * 3)), st.rvecs.cell⟩ : Buf F).toList,
   num_wann, nrvecs⟩

/-- A run of the program: what it did, its exit status (`none` when the run left defined
behaviour), and the datasets handed to the writer. -/
structure Outcome (F : Type) where
  log : List Event
  exit : Option Int
  written : Option (Datasets F)

/-- The calls that create the HDF5 file and write the five datasets (lines 209-263), and
the release of the resources. -/
def writerLog (h5Ok : Bool) (hdf5file : List Char) : List Event :=
  [Event.out "\n", Event.out "--- Creating HDF5 data file ---\n", Event.h5create hdf5file] ++
    (if h5Ok then [] else [Event.err "Could not open HDF5 file for writing: %s\n"]) ++
    [Event.h5write "/reH", Event.h5write "/imH", Event.h5write "/rvecs", Event.h5write "/nw",
      Event.h5write "/nr"] ++
    (if h5Ok then [Event.out "--- Done --- \n"]
      else [Event.err "Could not write the model array or metadata to HDF5 file: %s\n"]) ++
    [Event.fclose, Event.h5close]

/-- What `main` prints before it opens the input file, and the call that opens it. -/
def openingLog (hrfile : List Char) : List Event :=
  [Event.out "--- Name of the file containing the TB model data: %s \n",
   Event.out "--- Name of the HDF5 file                        : %s \n",
   Event.out "\n", Event.fopen hrfile]

/-- Function `main` on the argument vector `argv` (the program name first, so `argc` is the
length of `argv`). -/
def main {F : Type} (ops : DoubleOps F) (env : Env F) (argv : List (List Char)) : Outcome F :=
  if argv.length ≠ 3 then
    ⟨[Event.out "Usage: <Wannier hr file path>  <HDF5 file path>\n"], some 1, none⟩
  else
    match env.files (argv.getD 1 []) with
    | none =>
      ⟨openingLog (argv.getD 1 []) ++ [Event.err "Could not open file: %s\n"], some 1, none⟩
    | some f =>
      match (parsePass ops env f).result with
      | Parsed.allocFailure =>
        ⟨openingLog (argv.getD 1 []) ++
          [Event.out "--- successfully opened the hr data file\n", Event.out "\n"] ++
          (parsePass ops env f).log, some 1, none⟩
      | Parsed.fault =>
        ⟨openingLog (argv.getD 1 []) ++
          [Event.out "--- successfully opened the hr data file\n", Event.out "\n"] ++
          (parsePass ops env f).log, none, none⟩
      | Parsed.done num_wann nrvecs st =>
        ⟨openingLog (argv.getD 1 []) ++
          [Event.out "--- successfully opened the hr data file\n", Event.out "\n"] ++
          (parsePass ops env f).log ++
          [Event.out "--- Time taken to read the Hr file  : %f seconds\n"] ++
          writerLog env.h5Ok (argv.getD 2 []), some 0, some (datasets num_wann nrvecs st)⟩

/-! ## An executable interpretation of `double` -/

/-- An exact value `num / den` in lowest terms.  A denominator 0 marks the results that are
not finite: `1/0` and `-1/0` for the infinities, `0/0` for NaN. -/
structure Frac where
  num : Int
  den : Nat
  deriving DecidableEq, Repr

/-- The value `n / d` after cancelling the common factor. -/
def Frac.reduce (n : Int) (d : Nat) : Frac :=
  if d = 0 then ⟨Int.sign n, 0⟩
  else ⟨n / (Nat.gcd n.natAbs d : Int), d / Nat.gcd n.natAbs d⟩

/-- The quotient `x / y`. -/
def Frac.div (x y : Frac) : Frac :=
  Frac.reduce (if y.num = 0 then x.num * y.den else x.num * y.den * Int.sign y.num)
    (x.den * y.num.natAbs)

/-- The exponent part of a number (`e` or `E`, an optional sign, digits): the exponent and
whether it is negative.  Without a digit there is no exponent part. -/
def exponentPart (s : List Char) : Nat × Bool :=
  if s.head? = some 'e' ∨ s.head? = some 'E' then
    (digitsValue (((s.drop 1).drop
        (if (s.drop 1).head? = some '-' ∨ (s.drop 1).head? = some '+' then 1 else 0)).takeWhile
        isdigit),
      decide ((s.drop 1).head? = some '-'))
  else (0, false)

/-- The value `strtod` reads from decimal notation (white space, sign, digits, point,
digits, exponent), exactly; 0 when no number starts the text. -/
def Frac.strtod (s : List Char) : Frac :=
  let s1 := s.dropWhile isspace
  let s2 := s1.drop (if s1.head? = some '-' ∨ s1.head? = some '+' then 1 else 0)
  let ip := s2.takeWhile isdigit
  let s3 := s2.drop ip.length
  let fp := if s3.head? = some '.' then (s3.drop 1).takeWhile isdigit else []
  let s4 := if s3.head? = some '.' then (s3.drop 1).drop fp.length else s3
  let ex := exponentPart s4
  if ip = [] ∧ fp = [] then ⟨0, 1⟩
  else
    Frac.reduce
      ((if s1.head? = some '-' then -1 else 1) * (digitsValue (ip ++ fp) : Int) *
        (if ex.2 then 1 else (10 : Int) ^ ex.1))
      (10 ^ fp.length * (if ex.2 then 10 ^ ex.1 else 1))

/-- The comparison `x != y`: exact values differ when they are not the same, NaN differs
from everything. -/
def Frac.ne (x y : Frac) : Bool := !decide (x = y) || decide (x = ⟨0, 0⟩)

/-- The arithmetic of `double` on exact values.  It agrees with IEEE-754 wherever the
operands and the quotient are representable, as in the scenarios evaluated below. -/
def fracOps : DoubleOps Frac where
  strtod := Frac.strtod
  ofInt := fun d => ⟨d, 1⟩
  div := Frac.div
  ne := Frac.ne
  toInt := fun x => Int.tdiv x.num x.den
  ne_comm := by
    intro a b
    by_cases h : a = b
    · subst h; rfl
    · have h2 : ¬ b = a := fun e => h e.symm
      simp [Frac.ne, h, h2]
  eq_trans := by
    intro a b c h1 h2
    simp only [Frac.ne, Bool.or_eq_false_iff, Bool.not_eq_false, decide_eq_true_eq,
      decide_eq_false_iff_not] at h1 h2
    obtain ⟨e1, n1⟩ := h1
    obtain ⟨e2, _⟩ := h2
    have e3 : a = b := by simpa using e1
    have e4 : b = c := by simpa using e2
    subst e3 e4
    simp [Frac.ne, n1]

/-- An environment with one readable file, every allocation granted, and fresh storage
holding the given values. -/
def envOf {F : Type} (path contents : List Char) (junk : F) (junkInt : Int) : Env F where
  files := fun p => if p = path then some contents else none
  mallocOk := fun _ => true
  h5Ok := true
  freshBuffer := []
  freshVals := fun _ => junk
  freshDeg := fun _ => junkInt
  freshRvecs := fun _ => junk
  freshRe := fun _ => junk
  freshIm := fun _ => junk

/-- The row-major position of `(alpha, beta, r)` in a tensor of shape
`num_wann x num_wann x nrvecs`, as the specification writes it:
`(alpha * num_wann + beta) * nrvecs + r`. -/
def rowMajorIndex (num_wann nrvecs : Int) (r : Nat) (alpha beta : Int) : Int :=
  (alpha * num_wann + beta) * nrvecs + r

/-! ## Inputs of the scenarios -/

/-- The first record of the two-orbital scenario: orbital pair (1,1), amplitude (1,0). -/
def twoOrbitalFirst : List Char := String.toList "0 0 0 1 1 1.0 0.0\n"

/-- The other three records: the pairs (1,2), (2,1), (2,2) with amplitudes (0,0.5),
(0,-0.5), (1,0). -/
def twoOrbitalRest : List (List Char) :=
  [String.toList "0 0 0 1 2 0.0 0.5\n", String.toList "0 0 0 2 1 0.0 -0.5\n",
   String.toList "0 0 0 2 2 1.0 0.0\n"]

/-- The HR file of the two-orbital scenario: a comment line, `num_wann = 2`, `nrvecs = 1`,
the degeneracy line `1`, and four records for the R vector (0,0,0). -/
def twoOrbitalFile : List Char :=
  String.toList "two orbitals\n2\n1\n1\n" ++ twoOrbitalFirst ++ twoOrbitalRest.flatten

/-- The lines after the header of an HR file with 15 R vectors: the degeneracy block is one
line of 15 integers, the body starts right after it. -/
def fifteenLines : List (List Char) :=
  [String.toList "1 1 1 1 1 1 1 1 1 1 1 1 1 1 1\n",
   String.toList "0 0 0 1 1 1.0 0.0\n",
   String.toList "0 0 1 1 1 1.0 0.0\n"]

/-- An HR file with one orbital and 15 R vectors whose lines after the header are
`fifteenLines`. -/
def fifteenFile : List Char :=
  String.toList "fifteen\n1\n15\n" ++ fifteenLines.flatten

/-- The integer written by an optional sign and a string of decimal digits. -/
def signedValue (sign ds : List Char) : Int :=
  if sign = ['-'] then -(digitsValue ds : Int) else (digitsValue ds : Int)

/-! ## Vocabulary of the statements about the builder -/

/-- The `k`-th field of a record line, as `strtod_arr` converts it. -/
def field {F : Type} (ops : DoubleOps F) (l : List Char) (k : Nat) : F :=
  ops.strtod ((tokens l).getD k [])

/-- The orbital field `alpha` of a record as the builder reads it, `(int)vals[3]`. -/
def alphaOf {F : Type} (ops : DoubleOps F) (l : List Char) : Int := ops.toInt (field ops l 3)

/-- The orbital field `beta` of a record as the builder reads it, `(int)vals[4]`. -/
def betaOf {F : Type} (ops : DoubleOps F) (l : List Char) : Int := ops.toInt (field ops l 4)

/-- Whether the triple `(b0, b1, b2)` differs from `(a0, a1, a2)` under `!=`. -/
def tripleNeV {F : Type} (ops : DoubleOps F) (a0 a1 a2 b0 b1 b2 : F) : Bool :=
  ops.ne a0 b0 || ops.ne a1 b1 || ops.ne a2 b2

/-- Whether record `b` has another `(n1, n2, n3)` than record `a`. -/
def tripleNe {F : Type} (ops : DoubleOps F) (a b : List Char) : Bool :=
  tripleNeV ops (field ops a 0) (field ops a 1) (field ops a 2)
    (field ops b 0) (field ops b 1) (field ops b 2)

/-- The run index of record `l` when the record before it is `prev` with run index `r`. -/
def nextRun {F : Type} (ops : DoubleOps F) (r : Nat) (prev l : List Char) : Nat :=
  if tripleNe ops prev l then r + 1 else r

/-- The zero-based run index of every record of `body`, the record before `body` being
`prev` with run index `r`: a record whose triple differs from that of the record before it
starts a new run. -/
def runIndexFrom {F : Type} (ops : DoubleOps F) : Nat → List Char → List (List Char) → List Nat
  | _, _, [] => []
  | r, prev, l :: ls => nextRun ops r prev l :: runIndexFrom ops (nextRun ops r prev l) l ls

/-- The run index of every record of the body `first :: body`. -/
def runIndices {F : Type} (ops : DoubleOps F) (first : List Char) (body : List (List Char)) :
    List Nat :=
  0 :: runIndexFrom ops 0 first body

/-- The records of `body` that start a run, the record before `body` being `prev`. -/
def runHeads {F : Type} (ops : DoubleOps F) : List Char → List (List Char) → List (List Char)
  | _, [] => []
  | prev, l :: ls => if tripleNe ops prev l then l :: runHeads ops l ls else runHeads ops l ls

/-- The number of maximal runs of consecutive records with equal triple in `first :: body`. -/
def runCount {F : Type} (ops : DoubleOps F) (first : List Char) (body : List (List Char)) : Nat :=
  (runHeads ops first body).length + 1

/-- The triple `(n1, n2, n3)` of a record as three consecutive cells. -/
def tripleCells {F : Type} (ops : DoubleOps F) (l : List Char) : List F :=
  [field ops l 0, field ops l 1, field ops l 2]

/-- The block `b` after the assignment `b[i] = v`. -/
def Buf.set {α : Type} (b : Buf α) (i : Nat) (v : α) : Buf α :=
  ⟨b.size, fun j => if j = i then v else b.cell j⟩

/-- The invariant of the builder loop before a record is read, `prev` being the record
read last and `r` its run index: the counters stand at run `r`, the three cells of run `r`
lie inside `rvecs`, and they compare with any triple as the triple of `prev` does. -/
structure BuilderInv {F : Type} (ops : DoubleOps F) (st : Builder F) (r : Nat)
    (prev : List Char) : Prop where
  counter : st.rvecs_counter = r
  counter3 : st.rvecs_counter3 = 3 * r
  inside : 3 * r + 2 < st.rvecs.size
  vals7 : st.vals.size = 7
  same : ∀ b0 b1 b2 : F,
    tripleNeV ops (st.rvecs.cell (3 * r)) (st.rvecs.cell (3 * r + 1)) (st.rvecs.cell (3 * r + 2))
        b0 b1 b2 =
      tripleNeV ops (field ops prev 0) (field ops prev 1) (field ops prev 2) b0 b1 b2

/-- The state after the block that appends a triple to `rvecs`, when nothing wraps. -/
def appended {F : Type} (st : Builder F) (r : Nat) : Builder F :=
  ⟨((st.rvecs.set (3 * r + 3) (st.vals.cell 0)).set (3 * r + 4) (st.vals.cell 1)).set
      (3 * r + 5) (st.vals.cell 2),
    st.reH, st.imH, st.vals, 3 * r + 3, r + 1⟩

/-- The cell of `reH` and `imH` that the record in `vals` goes to. -/
def slotOf {F : Type} (ops : DoubleOps F) (num_wann nrvecs : Int) (st : Builder F) : Nat :=
  hamSlot num_wann nrvecs st.rvecs_counter (orbital ops (st.vals.cell 3))
    (orbital ops (st.vals.cell 4))

/-- The state after the two stores to `reH` and `imH`. -/
def scattered {F : Type} (ops : DoubleOps F) (num_wann nrvecs : Int) (deg : Buf Int)
    (st : Builder F) : Builder F :=
  ⟨st.rvecs,
    st.reH.set (slotOf ops num_wann nrvecs st)
      (ops.div (st.vals.cell 5) (ops.ofInt (deg.cell st.rvecs_counter))),
    st.imH.set (slotOf ops num_wann nrvecs st)
      (ops.div (st.vals.cell 6) (ops.ofInt (deg.cell st.rvecs_counter))),
    st.vals, st.rvecs_counter3, st.rvecs_counter⟩

/-- The state of the builder with the fields of a new record in `vals`. -/
def withVals {F : Type} (st : Builder F) (v : Buf F) : Builder F :=
  ⟨st.rvecs, st.reH, st.imH, v, st.rvecs_counter3, st.rvecs_counter⟩

/-- The cell of `reH` and `imH` a record goes to when its run index is `r`. -/
def slotAt {F : Type} (ops : DoubleOps F) (num_wann nrvecs : Int) (r : Nat) (l : List Char) :
    Nat :=
  hamSlot num_wann nrvecs r (orbital ops (field ops l 3)) (orbital ops (field ops l 4))

/-- The stores to `reH` (`k = 5`) or `imH` (`k = 6`) that the records of `body` ask for, in
input order, each as a slot and a value: the record goes to the slot of its run index and
orbital pair, and its amplitude is divided by the degeneracy factor of its run. -/
def writesFrom {F : Type} (ops : DoubleOps F) (num_wann nrvecs : Int) (deg : Buf Int) (k : Nat) :
    Nat → List Char → List (List Char) → List (Nat × F)
  | _, _, [] => []
  | r, prev, l :: ls =>
    (slotAt ops num_wann nrvecs (nextRun ops r prev l) l,
      ops.div (field ops l k) (ops.ofInt (deg.cell (nextRun ops r prev l)))) ::
      writesFrom ops num_wann nrvecs deg k (nextRun ops r prev l) l ls

/-- The value a sequence of stores leaves in slot `s`: that of the last store to `s`, if
there is one. -/
def lastWrite {F : Type} : List (Nat × F) → Nat → Option F
  | [], _ => none
  | w :: ws, s =>
    match lastWrite ws s with
    | some x => some x
    | none => if w.1 = s then some w.2 else none

/-- The first record of a small body: R vector (0,0,0), orbital pair (1,1). -/
def smallFirst : List Char := String.toList "0 0 0 1 1 1.0 0.0\n"

/-- Two more records: the pair (1,1) of R vector (0,0,0) again, then R vector (0,0,1). -/
def smallBody : List (List Char) :=
  [String.toList "0 0 0 1 1 3.0 0.5\n", String.toList "0 0 1 1 1 5.0 0.0\n"]

/-- The degeneracy factors 1 and 2. -/
def smallDeg : Buf Int := ⟨2, fun i => if i = 0 then 1 else 2⟩

/-- A block of `n` cells that all hold 9. -/
def junkBuf (n : Nat) : Buf Frac := ⟨n, fun _ => ⟨9, 1⟩⟩

/-- A record for the orbital pair (65537, 65537). -/
def wideRecord : List Char := String.toList "0 0 0 65537 65537 5.0 0.0\n"

/-- The value of a cell of `reH` or `imH` as the stores decide it: that of the last store of
the loop that went there, else that of the first data entry when the cell is cell 0. -/
def storedValue {F : Type} (o : Option F) (isFirst : Bool) (v : F) : Option F :=
  match o with
  | some y => some y
  | none => if isFirst then some v else none

/-! ## Vocabulary of the statements about the whole pass -/

/-- Whether an action is a message on the standard error stream. -/
def Event.isErr : Event → Bool
  | Event.err _ => true
  | _ => false

/-- The `int` that `main` keeps as `num_wann`: the result of the first call of the header
reader, after the comment line. -/
def headerNw (f : List Char) : Int := (read_int_from_nextline_fstream (skipLine f)).result

/-- The `int` that `main` keeps as `nrvecs`: the result of the second call of the header
reader. -/
def headerNr (f : List Char) : Int :=
  (read_int_from_nextline_fstream (read_int_from_nextline_fstream (skipLine f)).rest).result

/-- The lines that `fgets` delivers after the two header integers. -/
def linesAfterHeader (f : List Char) : List (List Char) :=
  fgetsLines
    (read_int_from_nextline_fstream (read_int_from_nextline_fstream (skipLine f)).rest).rest

/-- The state in which the degeneracy loop hands a file over to the builder, as the lemmas
about the pass use it: both header integers are positive, `num_wann * num_wann * nrvecs` and
`3 * nrvecs` stay inside `int`, the loop has stored the `nrvecs` integers `stored`, has left
the record `first` in the buffer and the records `body` unread, and every record has seven
fields with both orbital fields in `[1, num_wann]`. -/
structure HandedOver {F : Type} (ops : DoubleOps F) (f : List Char) (stored : List Int)
    (first : List Char) (body : List (List Char)) : Prop where
  nw_pos : 0 < headerNw f
  nr_pos : 0 < headerNr f
  ham_fits : headerNw f * headerNw f * headerNr f ≤ 2147483647
  rvecs_fits : 3 * headerNr f ≤ 2147483647
  loaded : (loaderLoop (num_lines_degeneracy_facts (headerNr f)) (linesAfterHeader f)
      ⟨[], 0, []⟩).1.stored = stored ∧
    (loaderLoop (num_lines_degeneracy_facts (headerNr f)) (linesAfterHeader f)
      ⟨[], 0, []⟩).1.buffer = first ∧
    (loaderLoop (num_lines_degeneracy_facts (headerNr f)) (linesAfterHeader f)
      ⟨[], 0, []⟩).2 = body
  table : (stored.length : Int) = headerNr f
  seven : ∀ l ∈ first :: body, (tokens l).length = 7
  orbitals : ∀ l ∈ first :: body, 1 ≤ alphaOf ops l ∧ alphaOf ops l ≤ headerNw f ∧
    1 ≤ betaOf ops l ∧ betaOf ops l ≤ headerNw f

/-- The integers the degeneracy loop stores when it tokenises the lines `degLines`. -/
def blockIntegers (degLines : List (List Char)) : List Int :=
  degLines.flatMap (fun l => (tokens l).map storedInt)

/-- An HR file of the standard layout with sizes that fit the `int` products: both header
integers are positive, `nrvecs` is not a multiple of 15, `num_wann * num_wann * nrvecs` and
`3 * nrvecs` stay inside `int`; the lines after the header are a degeneracy block `degLines`
of `ceil(nrvecs / 15)` lines that hold `nrvecs` integers in all, then the record `first` and
the records `body`; and every record has seven fields with both orbital fields in
`[1, num_wann]`. -/
structure WellFormedInput {F : Type} (ops : DoubleOps F) (f : List Char)
    (degLines : List (List Char)) (first : List Char) (body : List (List Char)) : Prop where
  nw_pos : 0 < headerNw f
  nr_pos : 0 < headerNr f
  not_fifteen : ¬ (15 : Int) ∣ headerNr f
  ham_fits : headerNw f * headerNw f * headerNr f ≤ 2147483647
  rvecs_fits : 3 * headerNr f ≤ 2147483647
  lines : linesAfterHeader f = degLines ++ first :: body
  block : (degLines.length : Int) = ⌈(headerNr f : ℚ) / 15⌉
  table : ((blockIntegers degLines).length : Int) = headerNr f
  seven : ∀ l ∈ first :: body, (tokens l).length = 7
  orbitals : ∀ l ∈ first :: body, 1 ≤ alphaOf ops l ∧ alphaOf ops l ≤ headerNw f ∧
    1 ≤ betaOf ops l ∧ betaOf ops l ≤ headerNw f

/-- An HR file with one orbital and one R vector whose degeneracy factor is 0. -/
def zeroDegFile : List Char := String.toList "zero\n1\n1\n0\n0 0 0 1 1 1.0 0.0\n"

/-- The degeneracy table as a block whose cells are the integers the loader stored. -/
def tableOf (stored : List Int) : Buf Int := ⟨stored.length, fun i => stored.getD i 0⟩

/-- An HR file with one orbital whose header announces two R vectors and whose body has a
single run: one record for the R vector (0,0,0). -/
def oneRunFile : List Char := String.toList "short\n1\n2\n1 1\n0 0 0 1 1 1.0 0.0\n"

/-- An HR file with one orbital whose header announces one R vector and whose body has two
runs: a record for (0,0,0) and a record for (0,0,1). -/
def twoRunFile : List Char :=
  String.toList "long\n1\n1\n1\n0 0 0 1 1 1.0 0.0\n0 0 1 1 1 2.0 0.0\n"

/-- The second record of `twoRunFile`. -/
def secondRun : List Char := String.toList "0 0 1 1 1 2.0 0.0\n"

/-- Every orbital pair of every R vector has a record: for each run index `r` below
`nrvecs` and each `(alpha, beta)` in `[1, num_wann]^2` some record of `first :: body` lies in
run `r` and carries the orbital fields `alpha` and `beta`. -/
def Covers {F : Type} (ops : DoubleOps F) (num_wann nrvecs : Int) (first : List Char)
    (body : List (List Char)) : Prop :=
  ∀ (r : Nat) (alpha beta : Int), (r : Int) < nrvecs → 1 ≤ alpha → alpha ≤ num_wann →
    1 ≤ beta → beta ≤ num_wann →
    ∃ i, i < (first :: body).length ∧ (runIndices ops first body).getD i 0 = r ∧
      alphaOf ops ((first :: body).getD i []) = alpha ∧
      betaOf ops ((first :: body).getD i []) = beta

/-- An HR file with two orbitals and one R vector that lists the orbital pair (1,1) only. -/
def sparseFile : List Char := String.toList "sparse\n2\n1\n1\n0 0 0 1 1 1.0 0.0\n"

/-- A first record for the orbital pair (1,2), with amplitude (5, 0). -/
def offDiagonalFirst : List Char := String.toList "0 0 0 1 2 5.0 0.0\n"

/-- A record for the orbital pair (32768, 1). -/
def midRecord : List Char := String.toList "0 0 0 32768 1 5.0 0.0\n"

/-- Fifteen records for one orbital, one for each of the R vectors (0,0,0) to (0,0,14). -/
def fifteenRecords : List (List Char) :=
  [String.toList "0 0 0 1 1 1.0 0.0\n",
   String.toList "0 0 1 1 1 1.0 0.0\n",
   String.toList "0 0 2 1 1 1.0 0.0\n",
   String.toList "0 0 3 1 1 1.0 0.0\n",
   String.toList "0 0 4 1 1 1.0 0.0\n",
   String.toList "0 0 5 1 1 1.0 0.0\n",
   String.toList "0 0 6 1 1 1.0 0.0\n",
   String.toList "0 0 7 1 1 1.0 0.0\n",
   String.toList "0 0 8 1 1 1.0 0.0\n",
   String.toList "0 0 9 1 1 1.0 0.0\n",
   String.toList "0 0 10 1 1 1.0 0.0\n",
   String.toList "0 0 11 1 1 1.0 0.0\n",
   String.toList "0 0 12 1 1 1.0 0.0\n",
   String.toList "0 0 13 1 1 1.0 0.0\n",
   String.toList "0 0 14 1 1 1.0 0.0\n"]

/-- An HR file of the standard layout with one orbital and 15 R vectors: the degeneracy block
is one line of 15 integers, and the body has one record for each R vector. -/
def fifteenRunsFile : List Char :=
  String.toList "runs\n1\n15\n1 1 1 1 1 1 1 1 1 1 1 1 1 1 1\n" ++ fifteenRecords.flatten

/-! # Theorems -/

/-! ## The loops over text do all their turns -/

/-- What `dropWhile` leaves is no longer than the text. -/
theorem dropWhile_length_le {α : Type} (p : α → Bool) (s : List α) :
    (s.dropWhile p).length ≤ s.length := by
  induction s with
  | nil => simp
  | cons c t ih =>
    simp only [List.dropWhile_cons]
    split
    · simp only [List.length_cons]; omega
    · exact le_refl _

/-- A `strtok` call that finds a token moves the save pointer forward. -/
theorem strtok_rest_lt (delims s tok rest : List Char)
    (h : strtok delims s = some (tok, rest)) : rest.length < s.length := by
  unfold strtok at h
  split at h
  · exact absurd h (by simp)
  · rename_i c t hd
    have hr : rest = ((c :: t).dropWhile (fun d => !decide (d ∈ delims))).drop 1 := by
      have := Option.some.inj h
      exact (congrArg Prod.snd this).symm
    have h1 := dropWhile_length_le (fun d => !decide (d ∈ delims)) (c :: t)
    have h2 := dropWhile_length_le (fun c => decide (c ∈ delims)) s
    rw [hd] at h2
    rw [hr, List.length_drop]
    simp only [List.length_cons] at h1 h2 ⊢
    omega

/-- The token loop never runs out of turns: with any bound that is at least the length of
the text it yields the same tokens. -/
theorem tokLoop_fuel : ∀ (fuel : Nat) (s : List Char), s.length ≤ fuel →
    tokLoop fuel s = tokLoop s.length s := by
  have key : ∀ (n : Nat) (s : List Char) (f1 f2 : Nat), s.length ≤ n → s.length ≤ f1 →
      s.length ≤ f2 → tokLoop f1 s = tokLoop f2 s := by
    intro n
    induction n with
    | zero =>
      intro s f1 f2 hn _ _
      have hs : s = [] := List.length_eq_zero.1 (by omega)
      subst hs
      cases f1 <;> cases f2 <;> simp [tokLoop, strtok]
    | succ n ih =>
      intro s f1 f2 hn h1 h2
      cases hs : strtok restDelims s with
      | none => cases f1 <;> cases f2 <;> simp [tokLoop, hs]
      | some tr =>
        obtain ⟨tok, rest⟩ := tr
        have hlt := strtok_rest_lt restDelims s tok rest hs
        cases f1 with
        | zero => omega
        | succ f1 =>
          cases f2 with
          | zero => omega
          | succ f2 =>
            simp only [tokLoop, hs]
            rw [ih rest f1 f2 (by omega) (by omega) (by omega)]
  intro fuel s h
  exact key s.length s fuel s.length (le_refl _) h (le_refl _)

/-- What one `fgets` call leaves of a stream that is not at its end is shorter than the
stream, whenever the buffer has room for a character. -/
theorem fgetsTake_rest_lt : ∀ (n : Nat) (s : List Char), 0 < n → s ≠ [] →
    (fgetsTake n s).2.length < s.length := by
  intro n
  induction n with
  | zero => intro s h; omega
  | succ n ih =>
    intro s _ hs
    cases s with
    | nil => exact absurd rfl hs
    | cons c t =>
      simp only [fgetsTake]
      split
      · simp
      · simp only [List.length_cons]
        cases n with
        | zero => simp [fgetsTake]
        | succ n =>
          cases t with
          | nil => simp [fgetsTake]
          | cons d u =>
            have := ih (d :: u) (by omega) (by simp)
            simp only [List.length_cons] at this ⊢
            omega

/-- The line loops never run out of turns: with any bound that is at least the length of
the stream `fgetsLinesAux` yields the same lines. -/
theorem fgetsLines_fuel : ∀ (fuel : Nat) (f : List Char), f.length ≤ fuel →
    fgetsLinesAux fuel f = fgetsLines f := by
  have key : ∀ (n : Nat) (f : List Char) (f1 f2 : Nat), f.length ≤ n → f.length ≤ f1 →
      f.length ≤ f2 → fgetsLinesAux f1 f = fgetsLinesAux f2 f := by
    intro n
    induction n with
    | zero =>
      intro f f1 f2 hn _ _
      have hs : f = [] := List.length_eq_zero.1 (by omega)
      subst hs
      cases f1 <;> cases f2 <;> simp [fgetsLinesAux, fgets]
    | succ n ih =>
      intro f f1 f2 hn h1 h2
      cases f with
      | nil => cases f1 <;> cases f2 <;> simp [fgetsLinesAux, fgets]
      | cons c t =>
        have hlt := fgetsTake_rest_lt (MAX_BUFF_SIZE - 1) (c :: t) (by decide) (by simp)
        cases f1 with
        | zero => simp at h1
        | succ f1 =>
          cases f2 with
          | zero => simp at h2
          | succ f2 =>
            simp only [fgetsLinesAux, fgets]
            rw [ih _ f1 f2 (by simp only [List.length_cons] at hlt hn; omega)
              (by simp only [List.length_cons] at hlt h1; omega)
              (by simp only [List.length_cons] at hlt h2; omega)]
  intro fuel f h
  exact key f.length f fuel f.length (le_refl _) h (le_refl _)

/-! ## The header reader and the usage check -/

/-- Everything `read_int_from_nextline_fstream` prints goes to standard error. -/
theorem read_int_log_err (f : List Char) :
    ∀ e ∈ (read_int_from_nextline_fstream f).log, ∃ m, e = Event.err m := by
  intro e he
  unfold read_int_from_nextline_fstream at he
  split at he
  · simp at he; exact ⟨_, he⟩
  · split at he
    · simp at he; exact ⟨_, he⟩
    · split at he
      · simp at he; exact ⟨_, he⟩
      · simp at he

/-- The parse pass never prints the usage message. -/
theorem parsePass_log_no_usage {F : Type} (ops : DoubleOps F) (env : Env F) (f : List Char) :
    Event.out "Usage: <Wannier hr file path>  <HDF5 file path>\n" ∉ (parsePass ops env f).log := by
  intro h
  have key : ∀ r1 r2 : ReadInt, (∀ e ∈ r1.log, ∃ m, e = Event.err m) →
      (∀ e ∈ r2.log, ∃ m, e = Event.err m) →
      Event.out "Usage: <Wannier hr file path>  <HDF5 file path>\n" ∉ headerLog r1 r2 := by
    intro r1 r2 h1 h2 hm
    simp only [headerLog, List.mem_append, List.mem_singleton] at hm
    rcases hm with ((hm | hm) | hm) | hm
    · obtain ⟨m, e⟩ := h1 _ hm; cases e
    · revert hm; decide
    · obtain ⟨m, e⟩ := h2 _ hm; cases e
    · revert hm; decide
  have hfill : ∀ (nw nr : Int) (stored : List Int) (buffer : List Char)
      (body : List (List Char)),
      Event.out "Usage: <Wannier hr file path>  <HDF5 file path>\n" ∉
        (fillArrays ops env nw nr stored buffer body).log := by
    intro nw nr stored buffer body
    unfold fillArrays
    simp only
    split
    · simp
    · split
      · split <;> simp
      · simp
  unfold parsePass at h
  simp only [List.mem_append] at h
  rcases h with h | h
  · exact key _ _ (read_int_log_err _) (read_int_log_err _) h
  · exact hfill _ _ _ _ _ h

/-- C10: when the argument count is not three (`argc != 3`), `main` prints the usage message
and nothing else, returns 1 and hands nothing to the writer: no file was opened.  With
exactly two positional arguments the usage message is never printed, and the first thing
`main` does is print the name of the input file. -/
theorem main_usage_check {F : Type} (ops : DoubleOps F) (env : Env F) (argv : List (List Char)) :
    (argv.length ≠ 3 →
      (main ops env argv).log = [Event.out "Usage: <Wannier hr file path>  <HDF5 file path>\n"] ∧
      (main ops env argv).exit = some 1 ∧ (main ops env argv).written.isNone = true ∧
      ∀ path, Event.fopen path ∉ (main ops env argv).log) ∧
    (argv.length = 3 →
      Event.out "Usage: <Wannier hr file path>  <HDF5 file path>\n" ∉ (main ops env argv).log ∧
      (main ops env argv).log.head? =
        some (Event.out "--- Name of the file containing the TB model data: %s \n")) := by
  constructor
  · intro h
    simp [main, h]
  · intro h
    have hp := parsePass_log_no_usage ops env
    unfold main
    rw [if_neg (by simp [h])]
    have ho : ∀ hrfile, Event.out "Usage: <Wannier hr file path>  <HDF5 file path>\n" ∉
        openingLog hrfile := by
      intro hrfile
      simp [openingLog]
    split
    · exact ⟨by simp [openingLog], rfl⟩
    · split
      · refine ⟨?_, rfl⟩
        simp only [List.mem_append, not_or]
        exact ⟨⟨ho _, by simp⟩, hp _⟩
      · refine ⟨?_, rfl⟩
        simp only [List.mem_append, not_or]
        exact ⟨⟨ho _, by simp⟩, hp _⟩
      · refine ⟨?_, rfl⟩
        simp only [List.mem_append, not_or]
        refine ⟨⟨⟨⟨ho _, by simp⟩, hp _⟩, by simp⟩, ?_⟩
        unfold writerLog
        cases env.h5Ok <;> simp

/-- C10, at concrete argument vectors: one positional argument gives the usage exit, two
positional arguments (naming a file that cannot be opened) do not. -/
theorem main_usage_check_witness :
    ([['p'], ['a']].length ≠ 3 ∧
      (main fracOps (envOf ['x'] [] ⟨0, 1⟩ 0) [['p'], ['a']]).exit = some 1) ∧
    ([['p'], ['a'], ['b']].length = 3 ∧
      Event.out "Usage: <Wannier hr file path>  <HDF5 file path>\n" ∉
        (main fracOps (envOf ['x'] [] ⟨0, 1⟩ 0) [['p'], ['a'], ['b']]).log) :=
  ⟨⟨by decide,
    ((main_usage_check fracOps (envOf ['x'] [] ⟨0, 1⟩ 0) [['p'], ['a']]).1 (by decide)).2.1⟩,
   ⟨by decide,
    ((main_usage_check fracOps (envOf ['x'] [] ⟨0, 1⟩ 0) [['p'], ['a'], ['b']]).2 (by decide)).1⟩⟩

/-- A prefix whose members all pass the test, followed by text whose first character fails
it, is exactly what `takeWhile` takes. -/
theorem takeWhile_append_stop {α : Type} (p : α → Bool) (l1 l2 : List α)
    (h1 : ∀ a ∈ l1, p a = true) (h2 : ∀ c, l2.head? = some c → p c = false) :
    (l1 ++ l2).takeWhile p = l1 := by
  rw [List.takeWhile_append_of_pos h1]
  cases l2 with
  | nil => simp
  | cons c t => simp [List.takeWhile_cons, h2 c rfl]

/-- The companion of `takeWhile_append_stop`: `dropWhile` leaves the rest. -/
theorem dropWhile_append_stop {α : Type} (p : α → Bool) (l1 l2 : List α)
    (h1 : ∀ a ∈ l1, p a = true) (h2 : ∀ c, l2.head? = some c → p c = false) :
    (l1 ++ l2).dropWhile p = l2 := by
  rw [List.dropWhile_append_of_pos h1]
  cases l2 with
  | nil => simp
  | cons c t => simp [List.dropWhile_cons, h2 c rfl]

/-- A line shorter than the room of the buffer is read whole, newline included. -/
theorem fgetsTake_line (l rest : List Char) (hnl : '\n' ∉ l) :
    ∀ n, l.length < n → fgetsTake n (l ++ '\n' :: rest) = (l ++ ['\n'], rest) := by
  induction l with
  | nil =>
    intro n hn
    obtain ⟨m, rfl⟩ : ∃ m, n = m + 1 := ⟨n - 1, by simp at hn; omega⟩
    simp [fgetsTake]
  | cons c t ih =>
    intro n hn
    obtain ⟨m, rfl⟩ : ∃ m, n = m + 1 := ⟨n - 1, by simp at hn; omega⟩
    have hc : c ≠ '\n' := fun e => hnl (by simp [e])
    have ht : '\n' ∉ t := fun e => hnl (by simp [e])
    have := ih ht m (by simpa using hn)
    simp [fgetsTake, hc, this]

/-- A last line without newline is read up to the end of the file. -/
theorem fgetsTake_eof (l : List Char) (hnl : '\n' ∉ l) :
    ∀ n, l.length ≤ n → fgetsTake n l = (l, []) := by
  induction l with
  | nil =>
    intro n _
    cases n <;> simp [fgetsTake]
  | cons c t ih =>
    intro n hn
    obtain ⟨m, rfl⟩ : ∃ m, n = m + 1 := ⟨n - 1, by simp at hn; omega⟩
    have hc : c ≠ '\n' := fun e => hnl (by simp [e])
    have ht : '\n' ∉ t := fun e => hnl (by simp [e])
    have := ih ht m (by simpa using hn)
    simp [fgetsTake, hc, this]

/-- On a stream that is not at its end `fgets` delivers what `fgetsTake` takes. -/
theorem fgets_of_ne_nil (size : Nat) (f : List Char) (h : f ≠ []) :
    fgets size f = some (fgetsTake (size - 1) f) := by
  cases f with
  | nil => exact absurd rfl h
  | cons c t => rfl

/-- A digit is neither white space nor a sign. -/
theorem isdigit_not_space (c : Char) (h : isdigit c = true) :
    isspace c = false ∧ c ≠ '-' ∧ c ≠ '+' := by
  refine ⟨?_, ?_, ?_⟩
  · simp only [isspace, Bool.or_eq_false_iff, decide_eq_false_iff_not]
    refine ⟨⟨⟨⟨⟨?_, ?_⟩, ?_⟩, ?_⟩, ?_⟩, ?_⟩ <;> (rintro rfl; revert h; decide)
  · rintro rfl; revert h; decide
  · rintro rfl; revert h; decide

/-- `strtol` on white space, an optional sign, digits, and a tail that does not go on with a
digit: the value is the number written, provided it fits a `long`, and `endptr` stands right
after the digits. -/
theorem strtol_leading_integer (ws sign ds tail : List Char)
    (hws : ∀ c ∈ ws, isspace c = true)
    (hsign : sign = [] ∨ sign = ['-'] ∨ sign = ['+'])
    (hds : ds ≠ []) (hdig : ∀ c ∈ ds, isdigit c = true)
    (htail : ∀ c, tail.head? = some c → isdigit c = false)
    (hlo : LONG_MIN ≤ signedValue sign ds) (hhi : signedValue sign ds ≤ LONG_MAX) :
    strtol (ws ++ sign ++ ds ++ tail) =
      ⟨signedValue sign ds, ws.length + sign.length + ds.length, false⟩ := by
  obtain ⟨d, dt, rfl⟩ : ∃ d dt, ds = d :: dt := by
    cases ds with
    | nil => exact absurd rfl hds
    | cons d dt => exact ⟨d, dt, rfl⟩
  have hd := isdigit_not_space d (hdig d (by simp))
  have hstop : ∀ c, (sign ++ (d :: dt) ++ tail).head? = some c → isspace c = false := by
    intro c hc
    rcases hsign with rfl | rfl | rfl
    · simp at hc; subst hc; exact hd.1
    · simp at hc; subst hc; decide
    · simp at hc; subst hc; decide
  have e1 : (ws ++ sign ++ (d :: dt) ++ tail).takeWhile isspace = ws := by
    rw [List.append_assoc, List.append_assoc, ← List.append_assoc sign]
    exact takeWhile_append_stop isspace ws _ hws hstop
  have e2 : (ws ++ sign ++ (d :: dt) ++ tail).dropWhile isspace = sign ++ (d :: dt) ++ tail := by
    rw [List.append_assoc, List.append_assoc, ← List.append_assoc sign]
    exact dropWhile_append_stop isspace ws _ hws hstop
  have e3 : ((d :: dt) ++ tail).takeWhile isdigit = d :: dt :=
    takeWhile_append_stop isdigit _ _ hdig htail
  have hlo1 : ¬ signedValue sign (d :: dt) < LONG_MIN := not_lt.2 hlo
  have hhi1 : ¬ signedValue sign (d :: dt) > LONG_MAX := not_lt.2 hhi
  have e4 : (d :: (dt ++ tail)).takeWhile isdigit = d :: dt := by simpa using e3
  have hc : ¬ ('+' = '-') := by decide
  unfold strtol
  simp only [e1, e2]
  rcases hsign with rfl | rfl | rfl
  · have h1 : ¬ (d = '-') := hd.2.1
    have h2 : ¬ (d = '+') := hd.2.2
    simp only [signedValue, reduceCtorEq, if_false] at hlo1 hhi1
    simp only [List.nil_append, List.cons_append, List.head?_cons, Option.some.injEq, h1, h2,
      or_self, if_false, List.drop_zero, e4, List.length_nil, Nat.add_zero, signedValue,
      reduceCtorEq, hlo1, hhi1]
  · simp only [signedValue, if_true] at hlo1 hhi1
    simp only [List.nil_append, List.cons_append, List.head?_cons, true_or, if_true,
      List.drop_succ_cons, List.drop_zero, e4, List.length_cons, List.length_nil, signedValue,
      reduceCtorEq, if_false, hlo1, hhi1, Nat.zero_add]
  · have hne : ¬ (['+'] = ['-']) := by decide
    simp only [signedValue, hne, if_false] at hlo1 hhi1
    simp only [List.nil_append, List.cons_append, List.head?_cons, Option.some.injEq, hc,
      or_true, if_true, List.drop_succ_cons, List.drop_zero, e4, List.length_cons,
      List.length_nil, signedValue, hne, reduceCtorEq, if_false, hlo1, hhi1, Nat.zero_add]

/-- A value inside `int` is its own reduction to 32 bits. -/
theorem wrapInt32_of_range (x : Int) (hlo : -2147483648 ≤ x) (hhi : x < 2147483648) :
    wrapInt32 x = x := by
  unfold wrapInt32
  rw [Int.emod_eq_of_lt (by omega) (by omega)]
  omega

/-- C8: on a line that holds optional white space, an optionally signed decimal integer `n`
with `-2^31 ≤ n < 2^31`, and then anything that does not continue the number, the line
being shorter than 1023 characters, `read_int_from_nextline_fstream` returns `n`, prints
nothing, and leaves the stream right after that line (after its newline, or at the end of
the file when the line is the last one and has no newline). -/
theorem read_int_leading_integer (ws sign ds trail rest : List Char)
    (hws : ∀ c ∈ ws, isspace c = true ∧ c ≠ '\n')
    (hsign : sign = [] ∨ sign = ['-'] ∨ sign = ['+'])
    (hds : ds ≠ []) (hdig : ∀ c ∈ ds, isdigit c = true)
    (htrail : ∀ c, trail.head? = some c → isdigit c = false)
    (hnl : '\n' ∉ trail)
    (hlen : (ws ++ sign ++ ds ++ trail).length < 1023)
    (hlo : -2147483648 ≤ signedValue sign ds) (hhi : signedValue sign ds < 2147483648) :
    read_int_from_nextline_fstream (ws ++ sign ++ ds ++ trail ++ '\n' :: rest) =
      ⟨signedValue sign ds, rest, []⟩ ∧
    read_int_from_nextline_fstream (ws ++ sign ++ ds ++ trail) =
      ⟨signedValue sign ds, [], []⟩ := by
  have hline : '\n' ∉ ws ++ sign ++ ds ++ trail := by
    simp only [List.mem_append, not_or]
    refine ⟨⟨⟨fun h => (hws _ h).2 rfl, ?_⟩, fun h => ?_⟩, hnl⟩
    · rcases hsign with rfl | rfl | rfl <;> simp
    · have := hdig _ h; revert this; decide
  have hne : ds.length ≠ 0 := fun h => hds (List.length_eq_zero.1 h)
  have hpos : ws.length + sign.length + ds.length ≠ 0 := by omega
  have htail1 : ∀ c, (trail ++ ['\n']).head? = some c → isdigit c = false := by
    intro c hc
    cases trail with
    | nil => simp at hc; subst hc; decide
    | cons t ts => exact htrail c (by simpa using hc)
  have hs1 := strtol_leading_integer ws sign ds (trail ++ ['\n']) (fun c h => (hws c h).1) hsign
    hds hdig htail1 (by unfold LONG_MIN; omega) (by unfold LONG_MAX; omega)
  have hs2 := strtol_leading_integer ws sign ds trail (fun c h => (hws c h).1) hsign
    hds hdig htrail (by unfold LONG_MIN; omega) (by unfold LONG_MAX; omega)
  constructor
  · have hf : fgets MAX_BUFF_SIZE (ws ++ sign ++ ds ++ trail ++ '\n' :: rest) =
        some (ws ++ sign ++ ds ++ trail ++ ['\n'], rest) := by
      rw [fgets_of_ne_nil _ _ (by simp), ← fgetsTake_line (ws ++ sign ++ ds ++ trail) rest hline
        1023 hlen]
      rfl
    unfold read_int_from_nextline_fstream
    rw [hf]
    simp only
    rw [List.append_assoc _ trail, hs1]
    simp [hpos, wrapInt32_of_range _ hlo hhi]
  · have hf : fgets MAX_BUFF_SIZE (ws ++ sign ++ ds ++ trail) =
        some (ws ++ sign ++ ds ++ trail, []) := by
      rw [fgets_of_ne_nil _ _ (by simp [hds]), ← fgetsTake_eof (ws ++ sign ++ ds ++ trail) hline
        1023 (le_of_lt hlen)]
      rfl
    unfold read_int_from_nextline_fstream
    rw [hf]
    simp only
    rw [hs2]
    simp [hpos, wrapInt32_of_range _ hlo hhi]

/-- C8, on the line `  -42 orbitals` followed by the line `7`. -/
theorem read_int_leading_integer_witness :
    read_int_from_nextline_fstream
        ([' ', ' '] ++ ['-'] ++ ['4', '2'] ++ [' ', 'o', 'r', 'b'] ++ '\n' :: ['7', '\n']) =
      ⟨-42, ['7', '\n'], []⟩ :=
  (read_int_leading_integer [' ', ' '] ['-'] ['4', '2'] [' ', 'o', 'r', 'b'] ['7', '\n']
    (by decide) (by decide) (by decide) (by decide) (by decide) (by decide) (by decide)
    (by decide) (by decide)).1

/-- C9: on a line whose leading token is not numeric the function prints the complaint about
invalid input and then returns 0, not the sentinel -1; only the end of input gives -1. -/
theorem read_int_non_numeric_returns_zero :
    read_int_from_nextline_fstream ['a', 'b', 'c', '\n', '7', '\n'] =
      ⟨0, ['7', '\n'], [Event.err "Invalid input at line: %s \n"]⟩ ∧
    (read_int_from_nextline_fstream []).result = -1 := by
  decide

/-! ## The degeneracy loader -/

/-- The loader tokenises the next `k` lines when `k` lines are missing to the count and at
least `k` lines are left. -/
theorem loaderLoop_take (n : Int) :
    ∀ (lines : List (List Char)) (st : Loader) (k : Nat),
      st.current_line + k = n → k ≤ lines.length →
      (loaderLoop n lines st).1.current_line = n ∧
      (loaderLoop n lines st).1.stored =
        st.stored ++ (lines.take k).flatMap (fun l => (tokens l).map storedInt) := by
  intro lines
  induction lines with
  | nil =>
    intro st k hk hlen
    have : k = 0 := by simpa using hlen
    subst this
    simp at hk
    simp [loaderLoop, hk]
  | cons l ls ih =>
    intro st k hk hlen
    unfold loaderLoop
    by_cases hge : st.current_line ≥ n
    · have : k = 0 := by omega
      subst this
      simp at hk
      simp [hge, hk]
    · rw [if_neg hge]
      obtain ⟨j, rfl⟩ : ∃ j, k = j + 1 := ⟨k - 1, by omega⟩
      have h1 := ih ⟨st.stored ++ (tokens l).map storedInt,
        st.current_line + 1, bufferAfterTokens l⟩ j (by simp; omega) (by simpa using hlen)
      refine ⟨h1.1, ?_⟩
      rw [h1.2]
      simp [List.take_succ_cons, List.flatMap_cons, List.append_assoc]

/-- When more than `k` lines are left, the loader tokenises `k` of them, leaves by `break`
with the next line untouched in the buffer, and the lines after that one are still to be
read. -/
theorem loaderLoop_handoff (n : Int) :
    ∀ (lines : List (List Char)) (st : Loader) (k : Nat),
      st.current_line + k = n → k < lines.length →
      loaderLoop n lines st =
        (⟨st.stored ++ (lines.take k).flatMap (fun l => (tokens l).map storedInt), n,
          lines.getD k []⟩, lines.drop (k + 1)) := by
  intro lines
  induction lines with
  | nil => intro st k _ hlen; simp at hlen
  | cons l ls ih =>
    intro st k hk hlen
    unfold loaderLoop
    by_cases hge : st.current_line ≥ n
    · have : k = 0 := by omega
      subst this
      simp at hk
      simp [hge, hk]
    · rw [if_neg hge]
      obtain ⟨j, rfl⟩ : ∃ j, k = j + 1 := ⟨k - 1, by omega⟩
      rw [ih ⟨st.stored ++ (tokens l).map storedInt, st.current_line + 1, bufferAfterTokens l⟩ j
        (by simp; omega) (by simpa using hlen)]
      simp [List.take_succ_cons, List.flatMap_cons, List.append_assoc]

/-- C7: with `nrvecs > 0` and at least `(nrvecs / 15) + 1` lines left, the loader tokenises
exactly the next `(nrvecs / 15) + 1` lines into the degeneracy array, truncating division.
That number is `ceil(nrvecs / 15)` when 15 does not divide `nrvecs`, and one more than
`ceil(nrvecs / 15)` when it does. -/
theorem loader_line_count (nrvecs : Int) (lines : List (List Char)) (buffer : List Char)
    (hpos : 0 < nrvecs) (henough : Int.tdiv nrvecs 15 + 1 ≤ lines.length) :
    (loaderLoop (num_lines_degeneracy_facts nrvecs) lines ⟨[], 0, buffer⟩).1.current_line =
      Int.tdiv nrvecs 15 + 1 ∧
    (loaderLoop (num_lines_degeneracy_facts nrvecs) lines ⟨[], 0, buffer⟩).1.stored =
      (lines.take (Int.tdiv nrvecs 15 + 1).toNat).flatMap (fun l => (tokens l).map storedInt) ∧
    (¬ (15 : Int) ∣ nrvecs → Int.tdiv nrvecs 15 + 1 = ⌈(nrvecs : ℚ) / 15⌉) ∧
    ((15 : Int) ∣ nrvecs → Int.tdiv nrvecs 15 + 1 = ⌈(nrvecs : ℚ) / 15⌉ + 1) := by
  have hdiv : Int.tdiv nrvecs 15 = nrvecs / 15 := Int.tdiv_eq_ediv (le_of_lt hpos) (by norm_num)
  have hq : 0 ≤ nrvecs / 15 := Int.ediv_nonneg (le_of_lt hpos) (by norm_num)
  have hk : ((Int.tdiv nrvecs 15 + 1).toNat : Int) = Int.tdiv nrvecs 15 + 1 :=
    Int.toNat_of_nonneg (by rw [hdiv]; omega)
  have h := loaderLoop_take (num_lines_degeneracy_facts nrvecs) lines ⟨[], 0, buffer⟩
    (Int.tdiv nrvecs 15 + 1).toNat (by simp [num_lines_degeneracy_facts, hk])
    (by
      have : ((Int.tdiv nrvecs 15 + 1).toNat : Int) ≤ (lines.length : Int) := by
        rw [hk]; exact henough
      exact_mod_cast this)
  refine ⟨by simpa [num_lines_degeneracy_facts] using h.1, by simpa using h.2, ?_, ?_⟩
  · intro hnd
    rw [hdiv]
    symm
    rw [Int.ceil_eq_iff]
    have hr : 0 < nrvecs % 15 := by
      have := Int.emod_nonneg nrvecs (by norm_num : (15 : Int) ≠ 0)
      rcases Nat.eq_zero_or_pos (nrvecs % 15).toNat with h0 | h0
      · exfalso; apply hnd; apply Int.dvd_of_emod_eq_zero; omega
      · omega
    have hlt : nrvecs % 15 < 15 := Int.emod_lt_of_pos nrvecs (by norm_num)
    have hdecomp : nrvecs = 15 * (nrvecs / 15) + nrvecs % 15 := (Int.ediv_add_emod nrvecs 15).symm
    constructor
    · rw [lt_div_iff₀ (by norm_num : (0 : ℚ) < 15)]
      have : (nrvecs / 15) * 15 < nrvecs := by omega
      have h2 : (((nrvecs / 15) * 15 : Int) : ℚ) < (nrvecs : ℚ) := by exact_mod_cast this
      push_cast at h2 ⊢
      linarith
    · rw [div_le_iff₀ (by norm_num : (0 : ℚ) < 15)]
      have : nrvecs ≤ (nrvecs / 15 + 1) * 15 := by omega
      have h2 : (nrvecs : ℚ) ≤ (((nrvecs / 15 + 1) * 15 : Int) : ℚ) := by exact_mod_cast this
      push_cast at h2 ⊢
      linarith
  · intro hd
    rw [hdiv]
    obtain ⟨q, rfl⟩ := hd
    have e1 : (15 * q) / 15 = q := Int.mul_ediv_cancel_left q (by norm_num)
    have e2 : (((15 * q : Int) : ℚ)) / 15 = (q : ℚ) := by push_cast; field_simp
    rw [e1, e2, Int.ceil_intCast]

/-- C7, at 15 R vectors and three lines left: two lines are tokenised. -/
theorem loader_line_count_witness :
    (loaderLoop (num_lines_degeneracy_facts 15)
        [['1', '\n'], ['2', ' ', '3', '\n'], ['4', '\n']] ⟨[], 0, []⟩).1.current_line
      = Int.tdiv 15 15 + 1 :=
  (loader_line_count 15 [['1', '\n'], ['2', ' ', '3', '\n'], ['4', '\n']] []
    (by decide) (by decide)).1

/-- C6: with `nrvecs = 15` the degeneracy block is one line of 15 integers, but the loader
tokenises `(15 / 15) + 1 = 2` lines: the 7 fields of the first body record are appended
too, `counter` ends at 22, and the stores 15 to 21 fall outside the 15 cells obtained for
`degeneracy_facts`, so the run has no defined outcome. -/
theorem loader_overreads_at_fifteen :
    (loaderLoop (num_lines_degeneracy_facts 15) fifteenLines ⟨[], 0, []⟩).1.counter = 22 ∧
    degBytes 15 / 4 = 15 ∧
    fgetsLines (fifteenFile.drop 13) = fifteenLines ∧
    (main fracOps (envOf ['i'] fifteenFile ⟨0, 1⟩ 0) [['p'], ['i'], ['o']]).exit = none := by
  decide

/-! ## The addressing formula -/

/-- A number `r + b * q` with `0 ≤ r < b` determines `r` and `q`. -/
theorem digits_unique (b r q r1 q1 : Int) (hr : 0 ≤ r) (hrb : r < b) (hr1 : 0 ≤ r1)
    (hr1b : r1 < b) (h : r + b * q = r1 + b * q1) : r = r1 ∧ q = q1 := by
  have hb : 0 < b := lt_of_le_of_lt hr hrb
  have e1 : (r + b * q) % b = r := by
    rw [Int.add_mul_emod_self_left]; exact Int.emod_eq_of_lt hr hrb
  have e2 : (r1 + b * q1) % b = r1 := by
    rw [Int.add_mul_emod_self_left]; exact Int.emod_eq_of_lt hr1 hr1b
  have hrr : r = r1 := by rw [← e1, ← e2, h]
  subst hrr
  have : b * q = b * q1 := by linarith
  exact ⟨rfl, (mul_right_inj' (ne_of_gt hb)).1 this⟩

/-- The addressing formula is the two-level positional number `r + nrvecs * (num_wann *
alpha + beta)`. -/
theorem hamIndex_nested (num_wann nrvecs : Int) (r : Nat) (alpha beta : Int) :
    hamIndex num_wann nrvecs r alpha beta = r + nrvecs * (beta + num_wann * alpha) := by
  unfold hamIndex; ring

/-- In range, the addressing formula stays inside `[0, num_wann * num_wann * nrvecs)`. -/
theorem hamIndex_range (num_wann nrvecs : Int) (r : Nat) (alpha beta : Int)
    (hr : (r : Int) < nrvecs) (ha : 0 ≤ alpha) (han : alpha < num_wann) (hb : 0 ≤ beta)
    (hbn : beta < num_wann) :
    0 ≤ hamIndex num_wann nrvecs r alpha beta ∧
      hamIndex num_wann nrvecs r alpha beta < num_wann * num_wann * nrvecs := by
  have hnr : 0 < nrvecs := lt_of_le_of_lt (Int.ofNat_nonneg r) hr
  have hnw : 0 < num_wann := lt_of_le_of_lt ha han
  have hm0 : 0 ≤ beta + num_wann * alpha := by positivity
  have hm1 : beta + num_wann * alpha + 1 ≤ num_wann * num_wann := by
    have : num_wann * alpha ≤ num_wann * (num_wann - 1) :=
      mul_le_mul_of_nonneg_left (by omega) (le_of_lt hnw)
    linarith
  rw [hamIndex_nested]
  constructor
  · have := mul_nonneg (le_of_lt hnr) hm0
    have : (0 : Int) ≤ r := Int.ofNat_nonneg r
    linarith
  · have h1 : nrvecs * (beta + num_wann * alpha + 1) ≤ nrvecs * (num_wann * num_wann) :=
      mul_le_mul_of_nonneg_left hm1 (le_of_lt hnr)
    nlinarith

/-- In range, the addressing formula is injective. -/
theorem hamIndex_injective (num_wann nrvecs : Int) (r r1 : Nat) (alpha beta alpha1 beta1 : Int)
    (hr : (r : Int) < nrvecs) (hb : 0 ≤ beta)
    (hbn : beta < num_wann) (hr1 : (r1 : Int) < nrvecs)
    (hb1 : 0 ≤ beta1) (hbn1 : beta1 < num_wann)
    (h : hamIndex num_wann nrvecs r alpha beta = hamIndex num_wann nrvecs r1 alpha1 beta1) :
    r = r1 ∧ alpha = alpha1 ∧ beta = beta1 := by
  rw [hamIndex_nested, hamIndex_nested] at h
  obtain ⟨e1, e2⟩ := digits_unique nrvecs r _ r1 _ (Int.ofNat_nonneg r) hr (Int.ofNat_nonneg r1) hr1 h
  obtain ⟨e3, e4⟩ := digits_unique num_wann beta alpha beta1 alpha1 hb hbn hb1 hbn1 e2
  exact ⟨by exact_mod_cast e1, e4, e3⟩

/-- Read over the integers, without the reduction to 32 bits, the addressing formula is a
bijection: for `num_wann > 0` and `nrvecs > 0`, restricted to `0 ≤ r < nrvecs` and
`0 ≤ alpha, beta < num_wann`, it is injective, and its image is exactly
`[0, num_wann * num_wann * nrvecs)`. -/
theorem hamIndex_bijection (num_wann nrvecs : Int) (hnw : 0 < num_wann) (hnr : 0 < nrvecs) :
    (∀ (r r1 : Nat) (alpha beta alpha1 beta1 : Int),
      (r : Int) < nrvecs → 0 ≤ alpha → alpha < num_wann → 0 ≤ beta → beta < num_wann →
      (r1 : Int) < nrvecs → 0 ≤ alpha1 → alpha1 < num_wann → 0 ≤ beta1 → beta1 < num_wann →
      hamIndex num_wann nrvecs r alpha beta = hamIndex num_wann nrvecs r1 alpha1 beta1 →
      r = r1 ∧ alpha = alpha1 ∧ beta = beta1) ∧
    (∀ n : Int,
      (0 ≤ n ∧ n < num_wann * num_wann * nrvecs) ↔
      ∃ (r : Nat) (alpha beta : Int),
        (r : Int) < nrvecs ∧ 0 ≤ alpha ∧ alpha < num_wann ∧ 0 ≤ beta ∧ beta < num_wann ∧
        hamIndex num_wann nrvecs r alpha beta = n) := by
  constructor
  · intro r r1 alpha beta alpha1 beta1 hr _ _ hb hbn hr1 _ _ hb1 hbn1 h
    exact hamIndex_injective num_wann nrvecs r r1 alpha beta alpha1 beta1 hr hb hbn hr1
      hb1 hbn1 h
  · intro n
    constructor
    · rintro ⟨h0, hlt⟩
      have hr0 : 0 ≤ n % nrvecs := Int.emod_nonneg n (ne_of_gt hnr)
      have hrl : n % nrvecs < nrvecs := Int.emod_lt_of_pos n hnr
      have hm0 : 0 ≤ n / nrvecs := Int.ediv_nonneg h0 (le_of_lt hnr)
      have hml : n / nrvecs < num_wann * num_wann :=
        Int.ediv_lt_of_lt_mul hnr hlt
      have hb0 : 0 ≤ n / nrvecs % num_wann := Int.emod_nonneg _ (ne_of_gt hnw)
      have hbl : n / nrvecs % num_wann < num_wann := Int.emod_lt_of_pos _ hnw
      have ha0 : 0 ≤ n / nrvecs / num_wann := Int.ediv_nonneg hm0 (le_of_lt hnw)
      have hal : n / nrvecs / num_wann < num_wann := Int.ediv_lt_of_lt_mul hnw hml
      refine ⟨(n % nrvecs).toNat, n / nrvecs / num_wann, n / nrvecs % num_wann, ?_, ha0, hal,
        hb0, hbl, ?_⟩
      · rw [Int.toNat_of_nonneg hr0]; exact hrl
      · rw [hamIndex_nested, Int.toNat_of_nonneg hr0, Int.emod_add_ediv, Int.emod_add_ediv]
    · rintro ⟨r, alpha, beta, hr, ha, han, hb, hbn, rfl⟩
      exact hamIndex_range num_wann nrvecs r alpha beta hr ha han hb hbn

/-- The exact formula for two orbitals and three R vectors: position 7 is the image of
`(r, alpha, beta) = (1, 1, 0)`. -/
theorem hamIndex_bijection_witness :
    (0 : Int) < 2 ∧ (0 : Int) < 3 ∧
    ∃ (r : Nat) (alpha beta : Int),
      (r : Int) < 3 ∧ 0 ≤ alpha ∧ alpha < 2 ∧ 0 ≤ beta ∧ beta < 2 ∧ hamIndex 2 3 r alpha beta = 7 :=
  ⟨by decide, by decide, ((hamIndex_bijection 2 3 (by decide) (by decide)).2 7).1 (by decide)⟩

/-- Read over the integers, without the reduction to 32 bits, the addressing formula
differs nowhere from the row-major position `(alpha * num_wann + beta) * nrvecs + r`. -/
theorem layout_differs_nowhere :
    ¬ ∃ (num_wann nrvecs : Int) (r : Nat) (alpha beta : Int),
      0 < num_wann ∧ 0 < nrvecs ∧ (r : Int) < nrvecs ∧ 0 ≤ alpha ∧ alpha < num_wann ∧
      0 ≤ beta ∧ beta < num_wann ∧
      hamIndex num_wann nrvecs r alpha beta ≠ rowMajorIndex num_wann nrvecs r alpha beta := by
  rintro ⟨num_wann, nrvecs, r, alpha, beta, _, _, _, _, _, _, _, h⟩
  apply h
  unfold hamIndex rowMajorIndex
  ring

/-- The exact value of the addressing formula is the row-major position of `(alpha, beta, r)`
in a tensor of shape `num_wann x num_wann x nrvecs`, `(alpha * num_wann + beta) * nrvecs + r`. -/
theorem layout_is_row_major (num_wann nrvecs : Int) (r : Nat) (alpha beta : Int) :
    hamIndex num_wann nrvecs r alpha beta = rowMajorIndex num_wann nrvecs r alpha beta := by
  unfold hamIndex rowMajorIndex
  ring

/-! ## Facts about memory blocks -/

theorem Buf.read_eq_some {α : Type} (b : Buf α) (i : Nat) (x : α) :
    b.read i = some x ↔ i < b.size ∧ b.cell i = x := by
  unfold Buf.read
  by_cases h : i < b.size <;> simp [h]

theorem Buf.read_of_lt {α : Type} (b : Buf α) (i : Nat) (h : i < b.size) :
    b.read i = some (b.cell i) := by
  simp [Buf.read, h]

theorem Buf.write_of_lt {α : Type} (b : Buf α) (i : Nat) (v : α) (h : i < b.size) :
    b.write i v = some (b.set i v) := by
  simp [Buf.write, Buf.set, h]

theorem Buf.write_of_not_lt {α : Type} (b : Buf α) (i : Nat) (v : α) (h : ¬ i < b.size) :
    b.write i v = none := by
  simp [Buf.write, h]

theorem Buf.write_eq_some {α : Type} (b b1 : Buf α) (i : Nat) (v : α) :
    b.write i v = some b1 ↔ i < b.size ∧ b1 = b.set i v := by
  unfold Buf.write Buf.set
  by_cases h : i < b.size
  · simp [h, eq_comm]
  · simp [h]

@[simp] theorem Buf.set_size {α : Type} (b : Buf α) (i : Nat) (v : α) :
    (b.set i v).size = b.size := rfl

theorem Buf.set_cell {α : Type} (b : Buf α) (i : Nat) (v : α) (j : Nat) :
    (b.set i v).cell j = if j = i then v else b.cell j := rfl

/-- Storing a list of values at consecutive cells succeeds exactly when they fit, keeps the
size, and changes the cells stored to and no other. -/
theorem Buf.writeList_spec {α : Type} (vs : List α) :
    ∀ (b : Buf α) (i : Nat),
      (i + vs.length ≤ b.size →
        ∃ b1, b.writeList i vs = some b1 ∧ b1.size = b.size ∧
          ∀ j, b1.cell j = if i ≤ j ∧ j < i + vs.length then vs.getD (j - i) (b.cell j)
            else b.cell j) ∧
      (vs ≠ [] → ¬ i + vs.length ≤ b.size → b.writeList i vs = none) := by
  induction vs with
  | nil =>
    intro b i
    refine ⟨fun _ => ⟨b, rfl, rfl, fun j => ?_⟩, fun h => absurd rfl h⟩
    simp
  | cons v vs ih =>
    intro b i
    constructor
    · intro hfit
      simp only [List.length_cons] at hfit
      have hi : i < b.size := by omega
      obtain ⟨b1, h1, h2, h3⟩ := (ih (b.set i v) (i + 1)).1 (by simp; omega)
      refine ⟨b1, ?_, by simpa using h2, fun j => ?_⟩
      · simp [Buf.writeList, Buf.write_of_lt b i v hi, h1]
      · rw [h3 j]
        simp only [List.length_cons, Buf.set_cell]
        by_cases hj : j = i
        · subst hj
          simp
        · by_cases hlo : i + 1 ≤ j
          · by_cases hhi : j < i + 1 + vs.length
            · have e : j - i = (j - (i + 1)) + 1 := by omega
              have c1 : i ≤ j ∧ j < i + (vs.length + 1) := ⟨by omega, by omega⟩
              simp [hlo, hhi, c1, e, hj]
            · have c1 : ¬ (i ≤ j ∧ j < i + (vs.length + 1)) := by omega
              simp [hhi, c1, hj]
          · have c1 : ¬ (i ≤ j ∧ j < i + (vs.length + 1)) := by omega
            simp [hlo, c1, hj]
    · intro _ hfit
      simp only [List.length_cons] at hfit
      by_cases hi : i < b.size
      · have hn : ¬ (i + 1) + vs.length ≤ (b.set i v).size := by simp; omega
        have hvs : vs ≠ [] := by
          rintro rfl
          simp at hfit
          omega
        simp [Buf.writeList, Buf.write_of_lt b i v hi, (ih (b.set i v) (i + 1)).2 hvs hn]
      · simp [Buf.writeList, Buf.write, hi]

/-- On a line of exactly seven tokens `strtod_arr` fills the seven cells of `vals` with the
fields of the line. -/
theorem strtod_arr_seven {F : Type} (ops : DoubleOps F) (l : List Char) (vals : Buf F)
    (h7 : (tokens l).length = 7) (hv : vals.size = 7) :
    ∃ v, strtod_arr ops l vals = some v ∧ v.size = 7 ∧ ∀ k, k < 7 → v.cell k = field ops l k := by
  obtain ⟨v, h1, h2, h3⟩ := (Buf.writeList_spec ((tokens l).map ops.strtod) vals 0).1
    (by simp [h7, hv])
  refine ⟨v, h1, by rw [h2, hv], fun k hk => ?_⟩
  rw [h3 k]
  simp [h7, hk, field, List.getD_eq_getElem?_getD, List.getElem?_map]

/-! ## One turn of the builder loop -/

/-- A natural number below `2^32` is its own reduction to `unsigned int`. -/
theorem wrapUInt32_of_lt (n : Nat) (h : n < 4294967296) : wrapUInt32 (n : Int) = n := by
  unfold wrapUInt32
  omega

/-- The comparison of the stored triple with `vals` reads three cells of `rvecs`; when they
lie inside the block it yields the disjunction of the three tests. -/
theorem tripleDiffers_eval {F : Type} (ops : DoubleOps F) (rvecs vals : Buf F) (c3 : Nat)
    (hin : c3 + 2 < rvecs.size) (hw : c3 + 2 < 4294967296) :
    tripleDiffers ops rvecs c3 vals =
      some (tripleNeV ops (rvecs.cell c3) (rvecs.cell (c3 + 1)) (rvecs.cell (c3 + 2))
        (vals.cell 0) (vals.cell 1) (vals.cell 2)) := by
  have e1 : wrapUInt32 ((c3 : Int) + 1) = c3 + 1 := by
    have := wrapUInt32_of_lt (c3 + 1) (by omega)
    simpa using this
  have e2 : wrapUInt32 ((c3 : Int) + 2) = c3 + 2 := by
    have := wrapUInt32_of_lt (c3 + 2) (by omega)
    simpa using this
  unfold tripleDiffers tripleNeV
  rw [Buf.read_of_lt rvecs c3 (by omega)]
  simp only [e1, e2]
  rw [Buf.read_of_lt rvecs (c3 + 1) (by omega), Buf.read_of_lt rvecs (c3 + 2) (by omega)]
  dsimp only
  by_cases h0 : ops.ne (rvecs.cell c3) (vals.cell 0) = true
  · simp [h0]
  · by_cases h1 : ops.ne (rvecs.cell (c3 + 1)) (vals.cell 1) = true
    · simp [h0, h1]
    · simp [h0, h1]

/-- The block that appends a triple stores to the three cells after those of run `r`: it
succeeds exactly when they lie inside `rvecs`. -/
theorem appendRvec_eval {F : Type} (st : Builder F) (r : Nat)
    (hc : st.rvecs_counter = r) (hc3 : st.rvecs_counter3 = 3 * r) (hw : 3 * r + 5 < 4294967296) :
    appendRvec st = if 3 * r + 5 < st.rvecs.size then some (appended st r) else none := by
  have e0 : wrapUInt32 ((st.rvecs_counter3 : Int) + 3) = 3 * r + 3 := by
    have := wrapUInt32_of_lt (3 * r + 3) (by omega)
    rw [hc3]; simpa using this
  have e1 : wrapUInt32 (((3 * r + 3 : Nat) : Int) + 1) = 3 * r + 4 := by
    have := wrapUInt32_of_lt (3 * r + 4) (by omega)
    simpa [add_assoc] using this
  have e2 : wrapUInt32 (((3 * r + 3 : Nat) : Int) + 2) = 3 * r + 5 := by
    have := wrapUInt32_of_lt (3 * r + 5) (by omega)
    simpa [add_assoc] using this
  have e3 : wrapUInt32 ((st.rvecs_counter : Int) + 1) = r + 1 := by
    have := wrapUInt32_of_lt (r + 1) (by omega)
    rw [hc]; simpa using this
  unfold appendRvec
  simp only [e0, e1, e2, e3]
  by_cases h : 3 * r + 5 < st.rvecs.size
  · rw [if_pos h, Buf.write_of_lt _ _ _ (by omega)]
    simp only
    rw [Buf.write_of_lt _ _ _ (by simp; omega)]
    simp only
    rw [Buf.write_of_lt _ _ _ (by simp; omega)]
    rfl
  · rw [if_neg h]
    by_cases h0 : 3 * r + 3 < st.rvecs.size
    · rw [Buf.write_of_lt _ _ _ h0]
      simp only
      by_cases h1 : 3 * r + 4 < st.rvecs.size
      · rw [Buf.write_of_lt _ _ _ (by simpa using h1)]
        simp only
        rw [Buf.write_of_not_lt _ _ _ (by simpa using h)]
      · rw [Buf.write_of_not_lt _ _ _ (by simpa using h1)]
    · rw [Buf.write_of_not_lt _ _ _ h0]

/-- The two stores succeed exactly when the degeneracy index and the slot lie inside their
blocks. -/
theorem scatter_eval {F : Type} (ops : DoubleOps F) (num_wann nrvecs : Int) (deg : Buf Int)
    (st : Builder F) :
    scatter ops num_wann nrvecs deg st =
      if st.rvecs_counter < deg.size ∧ slotOf ops num_wann nrvecs st < st.reH.size ∧
          slotOf ops num_wann nrvecs st < st.imH.size
      then some (scattered ops num_wann nrvecs deg st) else none := by
  unfold scatter scattered slotOf
  by_cases h1 : st.rvecs_counter < deg.size
  · rw [Buf.read_of_lt deg _ h1]
    simp only
    by_cases h2 : hamSlot num_wann nrvecs st.rvecs_counter (orbital ops (st.vals.cell 3))
        (orbital ops (st.vals.cell 4)) < st.reH.size
    · rw [Buf.write_of_lt _ _ _ h2]
      simp only
      by_cases h3 : hamSlot num_wann nrvecs st.rvecs_counter (orbital ops (st.vals.cell 3))
          (orbital ops (st.vals.cell 4)) < st.imH.size
      · rw [Buf.write_of_lt _ _ _ h3, if_pos ⟨h1, h2, h3⟩]
      · rw [Buf.write_of_not_lt _ _ _ h3, if_neg (fun h => h3 h.2.2)]
    · rw [Buf.write_of_not_lt _ _ _ h2, if_neg (fun h => h2 h.2.1)]
  · rw [if_neg (fun h => h1 h.1)]
    simp [Buf.read, h1]

/-- Values that do not differ from a third differ from the same values. -/
theorem ne_congr_left {F : Type} (ops : DoubleOps F) (a l b : F) (h : ops.ne a l = false) :
    ops.ne a b = ops.ne l b := by
  cases hlb : ops.ne l b with
  | false => exact ops.eq_trans a l b h hlb
  | true =>
    cases hab : ops.ne a b with
    | true => rfl
    | false =>
      have h1 : ops.ne l a = false := by rw [ops.ne_comm]; exact h
      have := ops.eq_trans l a b h1 hab
      rw [hlb] at this
      exact absurd this (by decide)

/-- One turn of the loop under the invariant, on a line of seven tokens: the new fields go
to `vals`, a differing triple is appended when its three cells lie inside `rvecs`, and the
two stores follow. -/
theorem builderStep_eval {F : Type} (ops : DoubleOps F) (num_wann nrvecs : Int) (deg : Buf Int)
    (st : Builder F) (r : Nat) (prev l : List Char) (hinv : BuilderInv ops st r prev)
    (h7 : (tokens l).length = 7) (hw2 : 3 * r + 2 < 4294967296)
    (hw5 : tripleNe ops prev l = true → 3 * r + 5 < 4294967296) :
    ∃ v : Buf F, v.size = 7 ∧ (∀ k, k < 7 → v.cell k = field ops l k) ∧
      builderStep ops num_wann nrvecs deg st l =
        if tripleNe ops prev l then
          (if 3 * r + 5 < st.rvecs.size then
            scatter ops num_wann nrvecs deg (appended (withVals st v) r)
          else none)
        else scatter ops num_wann nrvecs deg (withVals st v) := by
  obtain ⟨v, hv1, hv2, hv3⟩ := strtod_arr_seven ops l st.vals h7 hinv.vals7
  refine ⟨v, hv2, hv3, ?_⟩
  have hd : tripleDiffers ops st.rvecs st.rvecs_counter3 v = some (tripleNe ops prev l) := by
    rw [hinv.counter3, tripleDiffers_eval ops st.rvecs v (3 * r) hinv.inside (by omega),
      hinv.same, hv3 0 (by omega), hv3 1 (by omega), hv3 2 (by omega)]
    rfl
  unfold builderStep
  rw [hv1]
  simp only
  unfold updateRvecs
  simp only [hd]
  cases hne : tripleNe ops prev l with
  | true =>
    simp only [if_true]
    have := appendRvec_eval (withVals st v) r hinv.counter hinv.counter3 (hw5 hne)
    simp only [withVals] at this ⊢
    rw [this]
    by_cases hin : 3 * r + 5 < st.rvecs.size
    · simp [hin]
    · simp [hin]
  | false =>
    simp [withVals]

/-- What a turn of the loop that does not fault leaves behind: the invariant for the record
just read, the triple appended when it starts a run, and the two amplitudes stored at the
slot of the record. -/
theorem builderStep_some {F : Type} (ops : DoubleOps F) (num_wann nrvecs : Int) (deg : Buf Int)
    (st st1 : Builder F) (r : Nat) (prev l : List Char) (hinv : BuilderInv ops st r prev)
    (h7 : (tokens l).length = 7) (hw2 : 3 * r + 2 < 4294967296)
    (hw5 : tripleNe ops prev l = true → 3 * r + 5 < 4294967296)
    (hstep : builderStep ops num_wann nrvecs deg st l = some st1) :
    BuilderInv ops st1 (nextRun ops r prev l) l ∧
    st1.rvecs.size = st.rvecs.size ∧ st1.reH.size = st.reH.size ∧
    st1.imH.size = st.imH.size ∧
    (∀ j, st1.rvecs.cell j =
      if tripleNe ops prev l = true ∧ 3 * r + 3 ≤ j ∧ j < 3 * r + 6
      then (tripleCells ops l).getD (j - (3 * r + 3)) (st.rvecs.cell j) else st.rvecs.cell j) ∧
    nextRun ops r prev l < deg.size ∧
    slotAt ops num_wann nrvecs (nextRun ops r prev l) l < st.reH.size ∧
    slotAt ops num_wann nrvecs (nextRun ops r prev l) l < st.imH.size ∧
    (∀ s, st1.reH.cell s =
      if s = slotAt ops num_wann nrvecs (nextRun ops r prev l) l
      then ops.div (field ops l 5) (ops.ofInt (deg.cell (nextRun ops r prev l)))
      else st.reH.cell s) ∧
    (∀ s, st1.imH.cell s =
      if s = slotAt ops num_wann nrvecs (nextRun ops r prev l) l
      then ops.div (field ops l 6) (ops.ofInt (deg.cell (nextRun ops r prev l)))
      else st.imH.cell s) := by
  obtain ⟨v, hv2, hv3, he⟩ :=
    builderStep_eval ops num_wann nrvecs deg st r prev l hinv h7 hw2 hw5
  rw [he] at hstep
  have f0 := hv3 0 (by omega)
  have f1 := hv3 1 (by omega)
  have f2 := hv3 2 (by omega)
  have f3 := hv3 3 (by omega)
  have f4 := hv3 4 (by omega)
  have f5 := hv3 5 (by omega)
  have f6 := hv3 6 (by omega)
  cases hne : tripleNe ops prev l with
  | true =>
    rw [hne] at hstep
    simp only [if_true] at hstep
    by_cases hin : 3 * r + 5 < st.rvecs.size
    · rw [if_pos hin, scatter_eval] at hstep
      split at hstep
      · rename_i hc
        obtain ⟨hc1, hc2, hc3⟩ := hc
        have hst : st1 = scattered ops num_wann nrvecs deg (appended (withVals st v) r) :=
          (Option.some.inj hstep).symm
        have hnr : nextRun ops r prev l = r + 1 := by simp [nextRun, hne]
        simp only [slotOf, appended, withVals] at hc1 hc2 hc3
        rw [f3, f4] at hc2 hc3
        subst hst
        rw [hnr]
        refine ⟨⟨rfl, ?_, ?_, hv2, ?_⟩, rfl, rfl, rfl, ?_, hc1, hc2, hc3, ?_, ?_⟩
        · simp [scattered, appended, withVals]; omega
        · simp [scattered, appended, withVals]; omega
        · intro b0 b1 b2
          have e0 : 3 * (r + 1) = 3 * r + 3 := by omega
          have e1 : 3 * (r + 1) + 1 = 3 * r + 4 := by omega
          have e2 : 3 * (r + 1) + 2 = 3 * r + 5 := by omega
          simp only [scattered, appended, withVals, Buf.set_cell, e0, e1, e2]
          simp [f0, f1, f2]
        · intro j
          simp only [scattered, appended, withVals, Buf.set_cell, tripleCells, true_and]
          by_cases h5 : j = 3 * r + 5
          · subst h5
            have : 3 * r + 5 - (3 * r + 3) = 2 := by omega
            simp [this, f2]
          · by_cases h4 : j = 3 * r + 4
            · subst h4
              have : 3 * r + 4 - (3 * r + 3) = 1 := by omega
              simp [this, f1]
            · by_cases h3 : j = 3 * r + 3
              · subst h3
                simp [f0]
              · have : ¬ (3 * r + 3 ≤ j ∧ j < 3 * r + 6) := by omega
                simp [h5, h4, h3, this]
        · intro s
          simp [scattered, appended, withVals, Buf.set_cell, slotOf, slotAt, f3, f4, f5]
        · intro s
          simp [scattered, appended, withVals, Buf.set_cell, slotOf, slotAt, f3, f4, f6]
      · exact absurd hstep (by simp)
    · rw [if_neg hin] at hstep
      exact absurd hstep (by simp)
  | false =>
    rw [hne] at hstep
    simp only [Bool.false_eq_true, if_false] at hstep
    rw [scatter_eval] at hstep
    split at hstep
    · rename_i hc
      obtain ⟨hc1, hc2, hc3⟩ := hc
      have hst : st1 = scattered ops num_wann nrvecs deg (withVals st v) :=
        (Option.some.inj hstep).symm
      have hnr : nextRun ops r prev l = r := by simp [nextRun, hne]
      simp only [slotOf, withVals] at hc1 hc2 hc3
      rw [f3, f4, hinv.counter] at hc2 hc3
      rw [hinv.counter] at hc1
      subst hst
      rw [hnr]
      refine ⟨⟨hinv.counter, hinv.counter3, hinv.inside, hv2, ?_⟩, rfl, rfl, rfl, ?_, hc1, hc2,
        hc3, ?_, ?_⟩
      · intro b0 b1 b2
        simp only [scattered, withVals]
        have hsame := hinv.same (field ops l 0) (field ops l 1) (field ops l 2)
        have hz : tripleNeV ops (st.rvecs.cell (3 * r)) (st.rvecs.cell (3 * r + 1))
            (st.rvecs.cell (3 * r + 2)) (field ops l 0) (field ops l 1) (field ops l 2) = false := by
          rw [hsame]; exact hne
        simp only [tripleNeV, Bool.or_eq_false_iff] at hz
        obtain ⟨⟨z0, z1⟩, z2⟩ := hz
        simp only [tripleNeV]
        rw [ne_congr_left ops _ _ b0 z0, ne_congr_left ops _ _ b1 z1, ne_congr_left ops _ _ b2 z2]
      · intro j
        simp [scattered, withVals]
      · intro s
        simp [scattered, withVals, Buf.set_cell, slotOf, slotAt, f3, f4, f5, hinv.counter]
      · intro s
        simp [scattered, withVals, Buf.set_cell, slotOf, slotAt, f3, f4, f6, hinv.counter]
    · exact absurd hstep (by simp)

/-- A turn of the loop does not fault when the cells of the run of the record, its
degeneracy factor and its slot lie inside their blocks. -/
theorem builderStep_total {F : Type} (ops : DoubleOps F) (num_wann nrvecs : Int) (deg : Buf Int)
    (st : Builder F) (r : Nat) (prev l : List Char) (hinv : BuilderInv ops st r prev)
    (h7 : (tokens l).length = 7) (hw2 : 3 * r + 2 < 4294967296)
    (hw5 : tripleNe ops prev l = true → 3 * r + 5 < 4294967296)
    (hin : 3 * nextRun ops r prev l + 2 < st.rvecs.size)
    (hdeg : nextRun ops r prev l < deg.size)
    (hre : slotAt ops num_wann nrvecs (nextRun ops r prev l) l < st.reH.size)
    (him : slotAt ops num_wann nrvecs (nextRun ops r prev l) l < st.imH.size) :
    ∃ st1, builderStep ops num_wann nrvecs deg st l = some st1 := by
  obtain ⟨v, _, hv3, he⟩ :=
    builderStep_eval ops num_wann nrvecs deg st r prev l hinv h7 hw2 hw5
  have f3 := hv3 3 (by omega)
  have f4 := hv3 4 (by omega)
  rw [he]
  cases hne : tripleNe ops prev l with
  | true =>
    have hnr : nextRun ops r prev l = r + 1 := by simp [nextRun, hne]
    rw [hnr] at hin hdeg hre him
    simp only [if_true]
    rw [if_pos (by omega), scatter_eval, if_pos]
    · exact ⟨_, rfl⟩
    · simp only [slotOf, appended, withVals, Buf.set_size, f3, f4]
      exact ⟨hdeg, hre, him⟩
  | false =>
    have hnr : nextRun ops r prev l = r := by simp [nextRun, hne]
    rw [hnr] at hin hdeg hre him
    simp only [Bool.false_eq_true, if_false]
    rw [scatter_eval, if_pos]
    · exact ⟨_, rfl⟩
    · simp only [slotOf, withVals, f3, f4, hinv.counter]
      exact ⟨hdeg, hre, him⟩

/-! ## The builder loop -/

/-- The builder loop, when it does not fault, leaves the counter at the last run, has
appended the triple of every record that starts a run, and has put in every slot the
amplitude of the last record that goes there. -/
theorem builderLoop_spec {F : Type} (ops : DoubleOps F) (num_wann nrvecs : Int) (deg : Buf Int) :
    ∀ (body : List (List Char)) (st st1 : Builder F) (r : Nat) (prev : List Char),
      BuilderInv ops st r prev → (∀ l ∈ body, (tokens l).length = 7) →
      (st.rvecs.size + 3 ≤ 4294967296 ∨
        3 * (r + (runHeads ops prev body).length) + 2 < 4294967296) →
      builderLoop ops num_wann nrvecs deg body st = some st1 →
      st1.rvecs_counter = r + (runHeads ops prev body).length ∧
      3 * (r + (runHeads ops prev body).length) + 2 < st1.rvecs.size ∧
      st1.rvecs.size = st.rvecs.size ∧ st1.reH.size = st.reH.size ∧
      st1.imH.size = st.imH.size ∧
      (∀ j, st1.rvecs.cell j =
        if 3 * r + 3 ≤ j ∧ j < 3 * r + 3 + 3 * (runHeads ops prev body).length
        then ((runHeads ops prev body).flatMap (tripleCells ops)).getD (j - (3 * r + 3))
          (st.rvecs.cell j)
        else st.rvecs.cell j) ∧
      (∀ s, st1.reH.cell s =
        (lastWrite (writesFrom ops num_wann nrvecs deg 5 r prev body) s).getD (st.reH.cell s)) ∧
      (∀ s, st1.imH.cell s =
        (lastWrite (writesFrom ops num_wann nrvecs deg 6 r prev body) s).getD (st.imH.cell s)) := by
  intro body
  induction body with
  | nil =>
    intro st st1 r prev hinv _ _ hrun
    have : st1 = st := by simpa [builderLoop] using hrun.symm
    subst this
    refine ⟨by simpa [runHeads] using hinv.counter, by simpa [runHeads] using hinv.inside, rfl, rfl,
      rfl, fun j => by simp [runHeads], fun s => by simp [writesFrom, lastWrite],
      fun s => by simp [writesFrom, lastWrite]⟩
  | cons l ls ih =>
    intro st st2 r prev hinv h7 hW hrun
    have hw2 : 3 * r + 2 < 4294967296 := by
      rcases hW with h | h
      · have := hinv.inside; omega
      · omega
    have hw5 : tripleNe ops prev l = true → 3 * r + 5 < 4294967296 := by
      intro hne
      rcases hW with h | h
      · have := hinv.inside; omega
      · have : (runHeads ops prev (l :: ls)).length = (runHeads ops l ls).length + 1 := by
          simp [runHeads, hne]
        omega
    unfold builderLoop at hrun
    cases hstep : builderStep ops num_wann nrvecs deg st l with
    | none => rw [hstep] at hrun; exact absurd hrun (by simp)
    | some st1 =>
      rw [hstep] at hrun
      simp only at hrun
      obtain ⟨hinv1, hs1, hs2, hs3, hrv, _, _, _, hre, him⟩ :=
        builderStep_some ops num_wann nrvecs deg st st1 r prev l hinv
          (h7 l (by simp)) hw2 hw5 hstep
      have hheads : (runHeads ops prev (l :: ls)).length =
          (nextRun ops r prev l - r) + (runHeads ops l ls).length := by
        cases hne : tripleNe ops prev l with
        | true =>
          have e : r + 1 - r = 1 := by omega
          simp [runHeads, nextRun, hne, e, Nat.add_comm]
        | false => simp [runHeads, nextRun, hne]
      have hnext : r ≤ nextRun ops r prev l := by
        unfold nextRun; split <;> omega
      have hW1 : st1.rvecs.size + 3 ≤ 4294967296 ∨
          3 * (nextRun ops r prev l + (runHeads ops l ls).length) + 2 < 4294967296 := by
        rcases hW with h | h
        · left; rw [hs1]; exact h
        · right; rw [hheads] at h; omega
      obtain ⟨c1, c2, c3, c4, c5, c6, c7, c8⟩ :=
        ih st1 st2 (nextRun ops r prev l) l hinv1 (fun x hx => h7 x (by simp [hx])) hW1 hrun
      refine ⟨by rw [c1, hheads]; omega, by rw [hheads]; have := c2; omega,
        by rw [c3, hs1], by rw [c4, hs2], by rw [c5, hs3], ?_, ?_, ?_⟩
      · intro j
        rw [c6 j, hrv j]
        cases hne : tripleNe ops prev l with
        | true =>
          have hnr : nextRun ops r prev l = r + 1 := by simp [nextRun, hne]
          have hh : runHeads ops prev (l :: ls) = l :: runHeads ops l ls := by
            simp [runHeads, hne]
          rw [hnr, hh]
          simp only [List.flatMap_cons, List.length_cons, true_and]
          by_cases hlo : 3 * r + 3 ≤ j
          · by_cases hmid : j < 3 * r + 6
            · have a1 : ¬ (3 * (r + 1) + 3 ≤ j ∧
                  j < 3 * (r + 1) + 3 + 3 * (runHeads ops l ls).length) := by omega
              have a2 : 3 * r + 3 ≤ j ∧ j < 3 * r + 3 + 3 * ((runHeads ops l ls).length + 1) := by
                omega
              have a3 : j - (3 * r + 3) < (tripleCells ops l).length := by
                simp [tripleCells]; omega
              rw [if_neg a1, if_pos ⟨hlo, hmid⟩, if_pos a2,
                List.getD_eq_getElem?_getD, List.getD_eq_getElem?_getD,
                List.getElem?_append_left a3]
            · have a0 : ¬ (3 * r + 3 ≤ j ∧ j < 3 * r + 6) := by omega
              rw [if_neg a0]
              by_cases hhi : j < 3 * (r + 1) + 3 + 3 * (runHeads ops l ls).length
              · have a1 : 3 * (r + 1) + 3 ≤ j ∧
                    j < 3 * (r + 1) + 3 + 3 * (runHeads ops l ls).length := by omega
                have a2 : 3 * r + 3 ≤ j ∧
                    j < 3 * r + 3 + 3 * ((runHeads ops l ls).length + 1) := by omega
                have a3 : (tripleCells ops l).length ≤ j - (3 * r + 3) := by
                  simp [tripleCells]; omega
                have a4 : j - (3 * r + 3) - (tripleCells ops l).length = j - (3 * (r + 1) + 3) := by
                  simp [tripleCells]; omega
                rw [if_pos a1, if_pos a2, List.getD_eq_getElem?_getD, List.getD_eq_getElem?_getD,
                  List.getElem?_append_right a3, a4]
              · have a1 : ¬ (3 * (r + 1) + 3 ≤ j ∧
                    j < 3 * (r + 1) + 3 + 3 * (runHeads ops l ls).length) := by omega
                have a2 : ¬ (3 * r + 3 ≤ j ∧
                    j < 3 * r + 3 + 3 * ((runHeads ops l ls).length + 1)) := by omega
                rw [if_neg a1, if_neg a2]
          · have a0 : ¬ (3 * r + 3 ≤ j ∧ j < 3 * r + 6) := by omega
            have a1 : ¬ (3 * (r + 1) + 3 ≤ j ∧
                j < 3 * (r + 1) + 3 + 3 * (runHeads ops l ls).length) := by omega
            have a2 : ¬ (3 * r + 3 ≤ j ∧
                j < 3 * r + 3 + 3 * ((runHeads ops l ls).length + 1)) := by omega
            rw [if_neg a0, if_neg a1, if_neg a2]
        | false =>
          have hnr : nextRun ops r prev l = r := by simp [nextRun, hne]
          have hh : runHeads ops prev (l :: ls) = runHeads ops l ls := by
            simp [runHeads, hne]
          rw [hnr, hh]
          simp
      · intro s
        rw [c7 s, hre s]
        simp only [writesFrom, lastWrite]
        cases lastWrite (writesFrom ops num_wann nrvecs deg 5 (nextRun ops r prev l) l ls) s with
        | some x => simp
        | none =>
          by_cases hs : slotAt ops num_wann nrvecs (nextRun ops r prev l) l = s
          · simp [hs]
          · have hs1 : ¬ s = slotAt ops num_wann nrvecs (nextRun ops r prev l) l :=
              fun e => hs e.symm
            simp [hs, hs1]
      · intro s
        rw [c8 s, him s]
        simp only [writesFrom, lastWrite]
        cases lastWrite (writesFrom ops num_wann nrvecs deg 6 (nextRun ops r prev l) l ls) s with
        | some x => simp
        | none =>
          by_cases hs : slotAt ops num_wann nrvecs (nextRun ops r prev l) l = s
          · simp [hs]
          · have hs1 : ¬ s = slotAt ops num_wann nrvecs (nextRun ops r prev l) l :=
              fun e => hs e.symm
            simp [hs, hs1]

/-- The loop over two stretches of lines is the loop over the first followed by the loop
over the second. -/
theorem builderLoop_append {F : Type} (ops : DoubleOps F) (num_wann nrvecs : Int) (deg : Buf Int)
    (a b : List (List Char)) :
    ∀ st : Builder F, builderLoop ops num_wann nrvecs deg (a ++ b) st =
      match builderLoop ops num_wann nrvecs deg a st with
      | none => none
      | some s => builderLoop ops num_wann nrvecs deg b s := by
  induction a with
  | nil => intro st; simp [builderLoop]
  | cons l ls ih =>
    intro st
    simp only [List.cons_append, builderLoop]
    cases builderStep ops num_wann nrvecs deg st l with
    | none => rfl
    | some st1 => exact ih st1

/-! ## The first data entry -/

/-- The first data entry on a line of seven tokens: it succeeds exactly when `rvecs` has
three cells and `degeneracy_facts`, `reH`, `imH` have one, and then the triple of the line is
in cells 0 to 2 of `rvecs` and its amplitude, divided by the first degeneracy factor, in
cell 0 of `reH` and `imH`. -/
theorem firstEntry_eval {F : Type} (ops : DoubleOps F) (deg : Buf Int) (first : List Char)
    (rvecs reH imH vals : Buf F) (h7 : (tokens first).length = 7) (hvals : vals.size = 7) :
    (3 ≤ rvecs.size ∧ 0 < deg.size ∧ 0 < reH.size ∧ 0 < imH.size →
      ∃ st0, firstEntry ops deg first rvecs reH imH vals = some st0 ∧
        BuilderInv ops st0 0 first ∧
        st0.rvecs.size = rvecs.size ∧ st0.reH.size = reH.size ∧ st0.imH.size = imH.size ∧
        (∀ j, st0.rvecs.cell j =
          if j < 3 then (tripleCells ops first).getD j (rvecs.cell j) else rvecs.cell j) ∧
        (∀ s, st0.reH.cell s =
          if s = 0 then ops.div (field ops first 5) (ops.ofInt (deg.cell 0)) else reH.cell s) ∧
        (∀ s, st0.imH.cell s =
          if s = 0 then ops.div (field ops first 6) (ops.ofInt (deg.cell 0)) else imH.cell s)) ∧
    (¬ (3 ≤ rvecs.size ∧ 0 < deg.size ∧ 0 < reH.size ∧ 0 < imH.size) →
      firstEntry ops deg first rvecs reH imH vals = none) := by
  obtain ⟨v, hv1, hv2, hv3⟩ := strtod_arr_seven ops first vals h7 hvals
  have f0 := hv3 0 (by omega)
  have f1 := hv3 1 (by omega)
  have f2 := hv3 2 (by omega)
  have f5 := hv3 5 (by omega)
  have f6 := hv3 6 (by omega)
  have hspec := Buf.writeList_spec [v.cell 0, v.cell 1, v.cell 2] rvecs 0
  constructor
  · rintro ⟨h1, h2, h3, h4⟩
    obtain ⟨rv, hr1, hr2, hr3⟩ := hspec.1 (by simpa using h1)
    unfold firstEntry
    rw [hv1]
    simp only
    rw [hr1]
    simp only
    rw [Buf.read_of_lt deg 0 h2]
    simp only
    rw [Buf.write_of_lt reH 0 _ h3]
    simp only
    rw [Buf.write_of_lt imH 0 _ h4]
    refine ⟨_, rfl, ⟨rfl, rfl, by simp [hr2]; omega, hv2, ?_⟩, hr2, rfl, rfl, ?_, ?_, ?_⟩
    · intro b0 b1 b2
      simp only [hr3, f0, f1, f2]
      simp
    · intro j
      rw [hr3 j]
      simp [tripleCells, f0, f1, f2]
    · intro s
      simp [Buf.set_cell, f5]
    · intro s
      simp [Buf.set_cell, f6]
  · intro hn
    unfold firstEntry
    rw [hv1]
    simp only
    by_cases h1 : 3 ≤ rvecs.size
    · obtain ⟨rv, hr1, _, _⟩ := hspec.1 (by simpa using h1)
      rw [hr1]
      simp only
      by_cases h2 : 0 < deg.size
      · rw [Buf.read_of_lt deg 0 h2]
        simp only
        by_cases h3 : 0 < reH.size
        · rw [Buf.write_of_lt reH 0 _ h3]
          simp only
          have h4 : ¬ 0 < imH.size := fun h => hn ⟨h1, h2, h3, h⟩
          rw [Buf.write_of_not_lt imH 0 _ h4]
        · rw [Buf.write_of_not_lt reH 0 _ h3]
      · simp [Buf.read, h2]
    · rw [hspec.2 (by simp) (by simpa using h1)]

/-- Three cells per record in the flattened list of triples. -/
theorem flatMap_tripleCells_length {F : Type} (ops : DoubleOps F) (ls : List (List Char)) :
    (ls.flatMap (tripleCells ops)).length = 3 * ls.length := by
  induction ls with
  | nil => simp
  | cons l ls ih => simp [List.flatMap_cons, tripleCells, ih]; omega

/-- The size obtained for `rvecs` is below `2^31`, or `3 * nrvecs` is below `2^32`. -/
theorem rvecs_size_cases (nrvecs : Int) (h0 : 0 ≤ nrvecs) (h1 : nrvecs ≤ 2147483647) :
    rvecsBytes nrvecs / 8 + 3 ≤ 4294967296 ∨ 3 * nrvecs < 4294967296 := by
  by_cases hlt : 3 * nrvecs < 4294967296
  · exact Or.inr hlt
  · left
    have hw : wrapInt32 (nrvecs * 3) = nrvecs * 3 - 4294967296 := by
      unfold wrapInt32
      omega
    have hm : (nrvecs * 3 - 4294967296) * 8 % 18446744073709551616 =
        (nrvecs * 3 - 4294967296) * 8 := Int.emod_eq_of_lt (by omega) (by omega)
    unfold rvecsBytes wrapUInt64
    rw [hw, hm]
    omega

/-- A stretch of records has no more run starts than a longer stretch it begins. -/
theorem runHeads_length_prefix {F : Type} (ops : DoubleOps F) (a b : List (List Char)) :
    ∀ prev, (runHeads ops prev a).length ≤ (runHeads ops prev (a ++ b)).length := by
  induction a with
  | nil => intro prev; simp [runHeads]
  | cons l ls ih =>
    intro prev
    simp only [List.cons_append, runHeads]
    split
    · simpa using ih l
    · exact ih l

/-- The cells of a block, read through the list of its cells. -/
theorem Buf.toList_getElem {α : Type} (b : Buf α) (j : Nat) (h : j < b.toList.length) :
    b.toList[j] = b.cell j := by
  simp [Buf.toList]

/-- C5: when the builder has finished on a body whose number of maximal runs of consecutive
records with equal `(n1, n2, n3)` is `k ≤ nrvecs`, the first `k` triples of `rvecs` are the
triples of the records that start the runs, in input order, and the R-vector index used for
a record is the zero-based index of its run: after the record is processed `rvecs_counter`
is the number of runs up to and including it, less one.  A triple that comes back after
another one starts a new run, so it gets a new entry.  (`rvecs` is the block obtained for
`nrvecs` R vectors, `nrvecs` being an `int`.) -/
theorem rvecs_coalesced {F : Type} (ops : DoubleOps F) (num_wann nrvecs : Int) (deg : Buf Int)
    (first : List Char) (body : List (List Char)) (rvecs reH imH vals : Buf F) (st : Builder F)
    (hint : nrvecs ≤ 2147483647) (hsize : rvecs.size = rvecsBytes nrvecs / 8)
    (hvals : vals.size = 7) (h7 : ∀ l ∈ first :: body, (tokens l).length = 7)
    (hk : (runCount ops first body : Int) ≤ nrvecs)
    (hfin : builder ops num_wann nrvecs deg first body rvecs reH imH vals = some st) :
    st.rvecs.toList.take (3 * runCount ops first body) =
      (first :: runHeads ops first body).flatMap (tripleCells ops) ∧
    st.rvecs_counter + 1 = runCount ops first body ∧
    ∀ pre l post, body = pre ++ l :: post →
      ∃ st1, builder ops num_wann nrvecs deg first (pre ++ [l]) rvecs reH imH vals = some st1 ∧
        st1.rvecs_counter + 1 = runCount ops first (pre ++ [l]) := by
  have h7f : (tokens first).length = 7 := h7 first (by simp)
  have hfe := firstEntry_eval ops deg first rvecs reH imH vals h7f hvals
  unfold builder at hfin
  by_cases hc : 3 ≤ rvecs.size ∧ 0 < deg.size ∧ 0 < reH.size ∧ 0 < imH.size
  · obtain ⟨st0, he, hinv, hs1, _, _, hcell, _, _⟩ := hfe.1 hc
    rw [he] at hfin
    simp only at hfin
    have hk1 : ((runHeads ops first body).length : Int) + 1 ≤ nrvecs := by
      simpa [runCount] using hk
    have hWall : ∀ n : Nat, n ≤ (runHeads ops first body).length →
        st0.rvecs.size + 3 ≤ 4294967296 ∨ 3 * (0 + n) + 2 < 4294967296 := by
      intro n hn
      rcases rvecs_size_cases nrvecs (by omega) hint with h | h
      · left; rw [hs1, hsize]; exact h
      · right; omega
    obtain ⟨c1, c2, c3, _, _, c6, _, _⟩ :=
      builderLoop_spec ops num_wann nrvecs deg body st0 st 0 first hinv
        (fun l hl => h7 l (by simp [hl])) (hWall _ (le_refl _)) hfin
    refine ⟨?_, by simp [runCount, c1], ?_⟩
    · apply List.ext_getElem
      · simp only [List.length_take, Buf.toList, List.length_map, List.length_range,
          flatMap_tripleCells_length, List.length_cons, runCount]
        omega
      · intro j hj1 hj2
        have hj : j < 3 * runCount ops first body := by
          simp only [List.length_take] at hj1; omega
        rw [List.getElem_take, Buf.toList_getElem, c6 j, hcell j]
        simp only [List.flatMap_cons]
        by_cases h3 : j < 3
        · have a1 : ¬ (3 * 0 + 3 ≤ j ∧ j < 3 * 0 + 3 + 3 * (runHeads ops first body).length) := by
            omega
          have a2 : j < (tripleCells ops first).length := by simp [tripleCells]; omega
          rw [if_neg a1, if_pos h3, List.getD_eq_getElem _ _ a2, List.getElem_append_left a2]
        · have a1 : 3 * 0 + 3 ≤ j ∧ j < 3 * 0 + 3 + 3 * (runHeads ops first body).length := by
            simp only [runCount] at hj; omega
          have a2 : (tripleCells ops first).length ≤ j := by simp [tripleCells]; omega
          have a3 : j - (3 * 0 + 3) <
              ((runHeads ops first body).flatMap (tripleCells ops)).length := by
            rw [flatMap_tripleCells_length]; omega
          rw [if_pos a1, List.getD_eq_getElem _ _ a3, List.getElem_append_right a2]
          simp [tripleCells]
    · intro pre l post hbody
      have happ := builderLoop_append ops num_wann nrvecs deg (pre ++ [l]) post st0
      have hb : body = (pre ++ [l]) ++ post := by simp [hbody]
      rw [hb, happ] at hfin
      cases hpre : builderLoop ops num_wann nrvecs deg (pre ++ [l]) st0 with
      | none => rw [hpre] at hfin; exact absurd hfin (by simp)
      | some st1 =>
        have hlen : (runHeads ops first (pre ++ [l])).length ≤ (runHeads ops first body).length := by
          rw [hb]; exact runHeads_length_prefix ops (pre ++ [l]) post first
        obtain ⟨d1, _⟩ :=
          builderLoop_spec ops num_wann nrvecs deg (pre ++ [l]) st0 st1 0 first hinv
            (fun x hx => h7 x (by
              have : x ∈ body := by rw [hb]; exact List.mem_append_left _ hx
              simp [this])) (hWall _ hlen) hpre
        refine ⟨st1, ?_, by simp [runCount, d1]⟩
        unfold builder
        rw [he]
        exact hpre
  · rw [hfe.2 hc] at hfin
    exact absurd hfin (by simp)

/-! ## Machine arithmetic of the sizes and of the slot -/

/-- Reduction to `int` keeps the residue modulo `2^32`. -/
theorem wrapInt32_emod (x : Int) : wrapInt32 x % 4294967296 = x % 4294967296 := by
  unfold wrapInt32
  omega

/-- The slot computed by the machine is the addressing formula reduced modulo `2^32`. -/
theorem hamSlot_eq (num_wann nrvecs : Int) (r : Nat) (alpha beta : Int) :
    hamSlot num_wann nrvecs r alpha beta = wrapUInt32 (hamIndex num_wann nrvecs r alpha beta) := by
  have h1 : wrapInt32 (wrapInt32 (num_wann * nrvecs) * alpha) % 4294967296 =
      (num_wann * nrvecs * alpha) % 4294967296 := by
    rw [wrapInt32_emod, Int.mul_emod, wrapInt32_emod, ← Int.mul_emod]
  have h2 : wrapInt32 (nrvecs * beta) % 4294967296 = (nrvecs * beta) % 4294967296 :=
    wrapInt32_emod _
  unfold hamSlot hamIndex wrapUInt32
  congr 1
  rw [Int.toNat_of_nonneg (Int.emod_nonneg _ (by norm_num)), Int.emod_add_emod,
    Int.add_emod, Int.add_emod (r : Int), h1, h2, ← Int.add_emod (r : Int), ← Int.add_emod]

/-- A value inside `unsigned int` is its own reduction. -/
theorem wrapUInt32_of_range (x : Int) (h0 : 0 ≤ x) (h1 : x < 4294967296) :
    wrapUInt32 x = x.toNat := by
  unfold wrapUInt32
  rw [Int.emod_eq_of_lt h0 h1]

/-- Without overflow of the `int` product, `reH` and `imH` have
`num_wann * num_wann * nrvecs` cells. -/
theorem ham_cells_exact (num_wann nrvecs : Int) (hnw : 0 < num_wann) (hnr : 0 < nrvecs)
    (hham : num_wann * num_wann * nrvecs ≤ 2147483647) :
    n_doubles_ham num_wann nrvecs = (num_wann * num_wann * nrvecs).toNat ∧
    n_bytes_ham num_wann nrvecs / 8 = (num_wann * num_wann * nrvecs).toNat := by
  have hsq : 0 < num_wann * num_wann := mul_pos hnw hnw
  have hle : num_wann * num_wann ≤ num_wann * num_wann * nrvecs := by nlinarith
  have hp : 0 < num_wann * num_wann * nrvecs := mul_pos hsq hnr
  have e1 : wrapInt32 (num_wann * num_wann) = num_wann * num_wann :=
    wrapInt32_of_range _ (by omega) (by omega)
  have e2 : wrapInt32 (num_wann * num_wann * nrvecs) = num_wann * num_wann * nrvecs :=
    wrapInt32_of_range _ (by omega) (by omega)
  have e3 : n_doubles_ham num_wann nrvecs = (num_wann * num_wann * nrvecs).toNat := by
    unfold n_doubles_ham wrapUInt64
    rw [e1, e2, Int.emod_eq_of_lt (by omega) (by omega)]
  refine ⟨e3, ?_⟩
  unfold n_bytes_ham wrapUInt64
  rw [e3, Int.toNat_of_nonneg (le_of_lt hp)]
  generalize num_wann * num_wann * nrvecs = p at hp hham
  have e4 : p * 8 % 18446744073709551616 = p * 8 := Int.emod_eq_of_lt (by omega) (by omega)
  rw [e4]
  omega

/-- Without overflow of the `int` product `nrvecs * 3`, `rvecs` has `3 * nrvecs` cells. -/
theorem rvecs_cells_exact (nrvecs : Int) (hnr : 0 ≤ nrvecs) (hrv : 3 * nrvecs ≤ 2147483647) :
    rvecsBytes nrvecs / 8 = (3 * nrvecs).toNat := by
  have e1 : wrapInt32 (nrvecs * 3) = nrvecs * 3 := wrapInt32_of_range _ (by omega) (by omega)
  have e2 : nrvecs * 3 * 8 % 18446744073709551616 = nrvecs * 3 * 8 :=
    Int.emod_eq_of_lt (by omega) (by omega)
  unfold rvecsBytes wrapUInt64
  rw [e1, e2]
  omega

/-- The block `degeneracy_facts` has `nrvecs` cells. -/
theorem deg_cells_exact (nrvecs : Int) (hnr : 0 ≤ nrvecs) (hint : nrvecs ≤ 2147483647) :
    degBytes nrvecs / 4 = nrvecs.toNat := by
  have e2 : nrvecs * 4 % 18446744073709551616 = nrvecs * 4 :=
    Int.emod_eq_of_lt (by omega) (by omega)
  unfold degBytes wrapUInt64
  rw [e2]
  omega

/-- With orbital fields in `[1, num_wann]`, a run index below `nrvecs` and no overflow of
`num_wann * num_wann * nrvecs`, the slot computed by the machine is the exact value of the
addressing formula, and it lies inside `reH` and `imH`. -/
theorem slotAt_exact {F : Type} (ops : DoubleOps F) (num_wann nrvecs : Int) (r : Nat)
    (l : List Char) (hr : (r : Int) < nrvecs)
    (hham : num_wann * num_wann * nrvecs ≤ 2147483647)
    (ha1 : 1 ≤ alphaOf ops l) (ha2 : alphaOf ops l ≤ num_wann)
    (hb1 : 1 ≤ betaOf ops l) (hb2 : betaOf ops l ≤ num_wann) :
    slotAt ops num_wann nrvecs r l =
      (hamIndex num_wann nrvecs r (alphaOf ops l - 1) (betaOf ops l - 1)).toNat ∧
    (slotAt ops num_wann nrvecs r l : Int) < num_wann * num_wann * nrvecs := by
  have hnw : 0 < num_wann := by omega
  have hnw31 : num_wann ≤ 2147483647 := by
    have hnr : 1 ≤ nrvecs := by
      have := Int.ofNat_nonneg r
      omega
    have h1 : num_wann ≤ num_wann * num_wann := by nlinarith
    have h2 : num_wann * num_wann ≤ num_wann * num_wann * nrvecs := by nlinarith
    omega
  have hrange := hamIndex_range num_wann nrvecs r (alphaOf ops l - 1) (betaOf ops l - 1) hr
    (by omega) (by omega) (by omega) (by omega)
  have ea : orbital ops (field ops l 3) = alphaOf ops l - 1 := by
    unfold orbital
    exact wrapInt32_of_range _ (by unfold alphaOf at ha1; omega) (by unfold alphaOf at ha2; omega)
  have eb : orbital ops (field ops l 4) = betaOf ops l - 1 := by
    unfold orbital
    exact wrapInt32_of_range _ (by unfold betaOf at hb1; omega) (by unfold betaOf at hb2; omega)
  have e : slotAt ops num_wann nrvecs r l =
      (hamIndex num_wann nrvecs r (alphaOf ops l - 1) (betaOf ops l - 1)).toNat := by
    unfold slotAt
    rw [ea, eb, hamSlot_eq, wrapUInt32_of_range _ hrange.1 (by omega)]
  refine ⟨e, ?_⟩
  rw [e, Int.toNat_of_nonneg hrange.1]
  exact hrange.2

/-! ## Last write wins -/

/-- The run index of a record and the run starts after it add up to the run starts from the
record before it. -/
theorem runHeads_cons_length {F : Type} (ops : DoubleOps F) (r : Nat) (prev l : List Char)
    (ls : List (List Char)) :
    r + (runHeads ops prev (l :: ls)).length =
      nextRun ops r prev l + (runHeads ops l ls).length := by
  cases hne : tripleNe ops prev l with
  | true => simp [runHeads, nextRun, hne]; omega
  | false => simp [runHeads, nextRun, hne]

/-- The builder loop does not fault when the runs of the body fit under a bound `R`, `rvecs`
has three cells and `degeneracy_facts` one cell for each run index below `R`, and the slot
of every record lies inside `reH` and `imH` for every such run index. -/
theorem builderLoop_total {F : Type} (ops : DoubleOps F) (num_wann nrvecs : Int) (deg : Buf Int)
    (R : Nat) :
    ∀ (body : List (List Char)) (st : Builder F) (r : Nat) (prev : List Char),
      BuilderInv ops st r prev → (∀ l ∈ body, (tokens l).length = 7) →
      r + (runHeads ops prev body).length < R → 3 * R ≤ st.rvecs.size →
      3 * R ≤ 4294967296 → R ≤ deg.size →
      (∀ r1, r1 < R → ∀ l ∈ body,
        slotAt ops num_wann nrvecs r1 l < st.reH.size ∧
        slotAt ops num_wann nrvecs r1 l < st.imH.size) →
      ∃ st1, builderLoop ops num_wann nrvecs deg body st = some st1 := by
  intro body
  induction body with
  | nil => intro st r prev _ _ _ _ _ _ _; exact ⟨st, rfl⟩
  | cons l ls ih =>
    intro st r prev hinv h7 hruns hrv h32 hdeg hslot
    have hc := runHeads_cons_length ops r prev l ls
    have hnext : r ≤ nextRun ops r prev l := by unfold nextRun; split <;> omega
    have hw2 : 3 * r + 2 < 4294967296 := by omega
    have hw5 : tripleNe ops prev l = true → 3 * r + 5 < 4294967296 := by
      intro hne
      have : nextRun ops r prev l = r + 1 := by simp [nextRun, hne]
      omega
    have hs := hslot (nextRun ops r prev l) (by omega) l (by simp)
    obtain ⟨st1, hstep⟩ := builderStep_total ops num_wann nrvecs deg st r prev l hinv
      (h7 l (by simp)) hw2 hw5 (by omega) (by omega) hs.1 hs.2
    obtain ⟨hinv1, hs1, hs2, hs3, _⟩ :=
      builderStep_some ops num_wann nrvecs deg st st1 r prev l hinv (h7 l (by simp)) hw2 hw5 hstep
    obtain ⟨st2, hrun⟩ := ih st1 (nextRun ops r prev l) l hinv1
      (fun x hx => h7 x (by simp [hx])) (by omega) (by rw [hs1]; exact hrv) h32 hdeg
      (fun r1 hr1 x hx => by
        rw [hs2, hs3]
        exact hslot r1 hr1 x (by simp [hx]))
    exact ⟨st2, by unfold builderLoop; rw [hstep]; exact hrun⟩

/-- No run index exceeds the last one. -/
theorem runIndexFrom_getD_le {F : Type} (ops : DoubleOps F) :
    ∀ (body : List (List Char)) (r : Nat) (prev : List Char) (n : Nat),
      (runIndexFrom ops r prev body).getD n 0 ≤ r + (runHeads ops prev body).length := by
  intro body
  induction body with
  | nil => intro r prev n; simp [runIndexFrom]
  | cons l ls ih =>
    intro r prev n
    rw [runHeads_cons_length]
    cases n with
    | zero => simp [runIndexFrom]
    | succ n =>
      simp only [runIndexFrom, List.getD_cons_succ]
      exact ih (nextRun ops r prev l) l n

/-- The store a record asks for: the slot of its run index and orbital pair, and its
amplitude over the degeneracy factor of its run. -/
theorem writesFrom_getElem {F : Type} (ops : DoubleOps F) (num_wann nrvecs : Int)
    (deg : Buf Int) (k : Nat) :
    ∀ (body : List (List Char)) (r : Nat) (prev : List Char) (n : Nat), n < body.length →
      (writesFrom ops num_wann nrvecs deg k r prev body)[n]? =
        some (slotAt ops num_wann nrvecs ((runIndexFrom ops r prev body).getD n 0)
            (body.getD n []),
          ops.div (field ops (body.getD n []) k)
            (ops.ofInt (deg.cell ((runIndexFrom ops r prev body).getD n 0)))) := by
  intro body
  induction body with
  | nil => intro r prev n hn; simp at hn
  | cons l ls ih =>
    intro r prev n hn
    cases n with
    | zero => simp [writesFrom, runIndexFrom]
    | succ n =>
      simp only [writesFrom, runIndexFrom, List.getElem?_cons_succ, List.getD_cons_succ]
      exact ih (nextRun ops r prev l) l n (by simpa using hn)

/-- There are as many stores as records. -/
theorem writesFrom_length {F : Type} (ops : DoubleOps F) (num_wann nrvecs : Int)
    (deg : Buf Int) (k : Nat) :
    ∀ (body : List (List Char)) (r : Nat) (prev : List Char),
      (writesFrom ops num_wann nrvecs deg k r prev body).length = body.length := by
  intro body
  induction body with
  | nil => intro r prev; rfl
  | cons l ls ih => intro r prev; simp [writesFrom, ih]

/-- A slot no store goes to keeps no value of the stores. -/
theorem lastWrite_none {F : Type} (ws : List (Nat × F)) (s : Nat)
    (h : ∀ (j : Nat) (w : Nat × F), ws[j]? = some w → w.1 ≠ s) : lastWrite ws s = none := by
  induction ws with
  | nil => rfl
  | cons w ws ih =>
    have h0 : w.1 ≠ s := h 0 w (by simp)
    have h1 := ih (fun j x hx => h (j + 1) x (by simpa using hx))
    simp [lastWrite, h1, h0]

/-- The store at position `i` decides the slot it goes to when no later store goes there. -/
theorem lastWrite_last {F : Type} (ws : List (Nat × F)) :
    ∀ (i : Nat) (s : Nat) (v : F), ws[i]? = some (s, v) →
      (∀ (j : Nat) (w : Nat × F), i < j → ws[j]? = some w → w.1 ≠ s) →
      lastWrite ws s = some v := by
  induction ws with
  | nil => intro i s v h; simp at h
  | cons w ws ih =>
    intro i s v hi hlater
    cases i with
    | zero =>
      have hw : w = (s, v) := by simpa using hi
      have h1 := lastWrite_none ws s (fun j x hx => hlater (j + 1) x (by omega) (by simpa using hx))
      simp [lastWrite, h1, hw]
    | succ i =>
      have h1 := ih i s v (by simpa using hi)
        (fun j x hj hx => hlater (j + 1) x (by omega) (by simpa using hx))
      simp [lastWrite, h1]

/-- Under the conditions of `slotAt_exact`, records that go to the same slot have the same
run index and the same orbital pair. -/
theorem slotAt_injective {F : Type} (ops : DoubleOps F) (num_wann nrvecs : Int) (r r1 : Nat)
    (l l1 : List Char) (hr : (r : Int) < nrvecs) (hr1 : (r1 : Int) < nrvecs)
    (hham : num_wann * num_wann * nrvecs ≤ 2147483647)
    (hl : 1 ≤ alphaOf ops l ∧ alphaOf ops l ≤ num_wann ∧ 1 ≤ betaOf ops l ∧
      betaOf ops l ≤ num_wann)
    (hl1 : 1 ≤ alphaOf ops l1 ∧ alphaOf ops l1 ≤ num_wann ∧ 1 ≤ betaOf ops l1 ∧
      betaOf ops l1 ≤ num_wann)
    (h : slotAt ops num_wann nrvecs r l = slotAt ops num_wann nrvecs r1 l1) :
    r = r1 ∧ alphaOf ops l = alphaOf ops l1 ∧ betaOf ops l = betaOf ops l1 := by
  have e := (slotAt_exact ops num_wann nrvecs r l hr hham hl.1 hl.2.1 hl.2.2.1 hl.2.2.2).1
  have e1 := (slotAt_exact ops num_wann nrvecs r1 l1 hr1 hham hl1.1 hl1.2.1 hl1.2.2.1 hl1.2.2.2).1
  have g := hamIndex_range num_wann nrvecs r (alphaOf ops l - 1) (betaOf ops l - 1) hr
    (by omega) (by omega) (by omega) (by omega)
  have g1 := hamIndex_range num_wann nrvecs r1 (alphaOf ops l1 - 1) (betaOf ops l1 - 1) hr1
    (by omega) (by omega) (by omega) (by omega)
  rw [e, e1] at h
  have hidx : hamIndex num_wann nrvecs r (alphaOf ops l - 1) (betaOf ops l - 1) =
      hamIndex num_wann nrvecs r1 (alphaOf ops l1 - 1) (betaOf ops l1 - 1) := by
    have := congrArg (fun n : Nat => (n : Int)) h
    simp only [Int.toNat_of_nonneg g.1, Int.toNat_of_nonneg g1.1] at this
    exact this
  obtain ⟨a, b, c⟩ := hamIndex_injective num_wann nrvecs r r1 _ _ _ _ hr (by omega) (by omega)
    hr1 (by omega) (by omega) hidx
  exact ⟨a, by omega, by omega⟩

/-- The content of a slot after the first data entry and the loop, for the record at
position `i` of the body when no later record shares its run index and orbital pair. -/
theorem last_record_cell {F : Type} (ops : DoubleOps F) (num_wann nrvecs : Int) (deg : Buf Int)
    (first : List Char) (body : List (List Char)) (k : Nat) (before final : Nat → F)
    (hham : num_wann * num_wann * nrvecs ≤ 2147483647)
    (hfirst : alphaOf ops first = 1 ∧ betaOf ops first = 1)
    (hrange : ∀ l ∈ first :: body, 1 ≤ alphaOf ops l ∧ alphaOf ops l ≤ num_wann ∧
      1 ≤ betaOf ops l ∧ betaOf ops l ≤ num_wann)
    (hruns : (runCount ops first body : Int) ≤ nrvecs)
    (hfinal : ∀ s, final s =
      (lastWrite (writesFrom ops num_wann nrvecs deg k 0 first body) s).getD
        (if s = 0 then ops.div (field ops first k) (ops.ofInt (deg.cell 0)) else before s))
    (i : Nat) (hi : i < (first :: body).length)
    (hlast : ∀ j, i < j → j < (first :: body).length →
      ¬ ((runIndices ops first body).getD j 0 = (runIndices ops first body).getD i 0 ∧
        alphaOf ops ((first :: body).getD j []) = alphaOf ops ((first :: body).getD i []) ∧
        betaOf ops ((first :: body).getD j []) = betaOf ops ((first :: body).getD i []))) :
    final (hamIndex num_wann nrvecs ((runIndices ops first body).getD i 0)
        (alphaOf ops ((first :: body).getD i []) - 1)
        (betaOf ops ((first :: body).getD i []) - 1)).toNat =
      ops.div (field ops ((first :: body).getD i []) k)
        (ops.ofInt (deg.cell ((runIndices ops first body).getD i 0))) := by
  have hheads : ((runHeads ops first body).length : Int) + 1 ≤ nrvecs := by
    simpa [runCount] using hruns
  have hidx : ∀ n, (((runIndexFrom ops 0 first body).getD n 0 : Nat) : Int) < nrvecs := by
    intro n
    have := runIndexFrom_getD_le ops body 0 first n
    omega
  have hmem : ∀ n, n < body.length → body.getD n [] ∈ first :: body := by
    intro n hn
    rw [List.getD_eq_getElem _ _ hn]
    exact List.mem_cons_of_mem _ (List.getElem_mem hn)
  -- the store of the record at position `n` of the loop
  have hw : ∀ n, n < body.length →
      (writesFrom ops num_wann nrvecs deg k 0 first body)[n]? =
        some (slotAt ops num_wann nrvecs ((runIndexFrom ops 0 first body).getD n 0)
            (body.getD n []),
          ops.div (field ops (body.getD n []) k)
            (ops.ofInt (deg.cell ((runIndexFrom ops 0 first body).getD n 0)))) :=
    writesFrom_getElem ops num_wann nrvecs deg k body 0 first
  have hlen := writesFrom_length ops num_wann nrvecs deg k body 0 first
  have hbound : ∀ (j : Nat) (w : Nat × F),
      (writesFrom ops num_wann nrvecs deg k 0 first body)[j]? = some w → j < body.length := by
    intro j w hj
    have := (List.getElem?_eq_some_iff.1 hj).1
    omega
  cases i with
  | zero =>
    have hs0 : (hamIndex num_wann nrvecs ((runIndices ops first body).getD 0 0)
        (alphaOf ops ((first :: body).getD 0 []) - 1)
        (betaOf ops ((first :: body).getD 0 []) - 1)).toNat = 0 := by
      simp [runIndices, hfirst.1, hfirst.2, hamIndex]
    have hslot0 : slotAt ops num_wann nrvecs 0 first = 0 := by
      have := (slotAt_exact ops num_wann nrvecs 0 first (by simpa using (by omega : 0 < nrvecs))
        hham (by omega) (by have := (hrange first (by simp)).2.1; omega) (by omega)
        (by have := (hrange first (by simp)).2.2.2; omega)).1
      rw [this]
      simp [hfirst.1, hfirst.2, hamIndex]
    have hnone : lastWrite (writesFrom ops num_wann nrvecs deg k 0 first body) 0 = none := by
      apply lastWrite_none
      intro j w hj hw0
      have hjl := hbound j w hj
      rw [hw j hjl] at hj
      have hwe : w.1 = slotAt ops num_wann nrvecs ((runIndexFrom ops 0 first body).getD j 0)
          (body.getD j []) := by
        rw [← Option.some.inj hj]
      have hw1 : slotAt ops num_wann nrvecs ((runIndexFrom ops 0 first body).getD j 0)
          (body.getD j []) = slotAt ops num_wann nrvecs 0 first := by
        rw [← hwe, hslot0]; exact hw0
      obtain ⟨a, b, c⟩ := slotAt_injective ops num_wann nrvecs _ _ _ _ (hidx j)
        (by simpa using (by omega : 0 < nrvecs)) hham (hrange _ (hmem j hjl))
        (hrange first (by simp)) hw1
      apply hlast (j + 1) (by omega) (by simpa using hjl)
      simp only [runIndices, List.getD_cons_succ, List.getD_cons_zero]
      exact ⟨a, b, c⟩
    rw [hs0, hfinal 0, hnone]
    simp [runIndices]
  | succ n =>
    have hn : n < body.length := by simpa using hi
    have hri : (runIndices ops first body).getD (n + 1) 0 =
        (runIndexFrom ops 0 first body).getD n 0 := by
      simp [runIndices]
    have hli : (first :: body).getD (n + 1) [] = body.getD n [] := by simp
    rw [hri, hli]
    have hr := hrange _ (hmem n hn)
    have hse := (slotAt_exact ops num_wann nrvecs ((runIndexFrom ops 0 first body).getD n 0)
      (body.getD n []) (hidx n) hham hr.1 hr.2.1 hr.2.2.1 hr.2.2.2).1
    rw [← hse, hfinal]
    have hl := lastWrite_last (writesFrom ops num_wann nrvecs deg k 0 first body) n _ _ (hw n hn)
      (by
        intro j w hnj hj hw0
        have hjl := hbound j w hj
        rw [hw j hjl] at hj
        have hwe : w.1 = slotAt ops num_wann nrvecs ((runIndexFrom ops 0 first body).getD j 0)
            (body.getD j []) := by
          rw [← Option.some.inj hj]
        rw [hwe] at hw0
        obtain ⟨a, b, c⟩ := slotAt_injective ops num_wann nrvecs _ _ _ _ (hidx j) (hidx n) hham
          (hrange _ (hmem j hjl)) hr hw0
        apply hlast (j + 1) (by omega) (by simpa using hjl)
        simp only [runIndices, List.getD_cons_succ]
        exact ⟨a, b, c⟩)
    rw [hl]
    rfl

/-- With the `int` products of the sizes in range, orbital fields in `[1, num_wann]` and at
most `nrvecs` runs, the builder finishes; the triples of the records that start the runs
are in `rvecs`, and every cell of `reH` (`k = 5`) and `imH` (`k = 6`) holds the value of the
last store that went there: one of the loop, else that of the first data entry in cell 0,
else what the block held before. -/
theorem builder_run {F : Type} (ops : DoubleOps F) (num_wann nrvecs : Int)
    (deg : Buf Int) (first : List Char) (body : List (List Char)) (rvecs reH imH vals : Buf F)
    (hnw : 0 < num_wann) (hnr : 0 < nrvecs)
    (hham : num_wann * num_wann * nrvecs ≤ 2147483647) (hrv3 : 3 * nrvecs ≤ 2147483647)
    (hdeg : deg.size = degBytes nrvecs / 4) (hrvecs : rvecs.size = rvecsBytes nrvecs / 8)
    (hre : reH.size = n_bytes_ham num_wann nrvecs / 8)
    (him : imH.size = n_bytes_ham num_wann nrvecs / 8) (hvals : vals.size = 7)
    (h7 : ∀ l ∈ first :: body, (tokens l).length = 7)
    (hrange : ∀ l ∈ first :: body, 1 ≤ alphaOf ops l ∧ alphaOf ops l ≤ num_wann ∧
      1 ≤ betaOf ops l ∧ betaOf ops l ≤ num_wann)
    (hruns : (runCount ops first body : Int) ≤ nrvecs) :
    ∃ st, builder ops num_wann nrvecs deg first body rvecs reH imH vals = some st ∧
      st.rvecs.size = (3 * nrvecs).toNat ∧
      st.reH.size = (num_wann * num_wann * nrvecs).toNat ∧
      st.imH.size = (num_wann * num_wann * nrvecs).toNat ∧
      (∀ j, st.rvecs.cell j =
        ((first :: runHeads ops first body).flatMap (tripleCells ops)).getD j (rvecs.cell j)) ∧
      (∀ s, st.reH.cell s =
        (lastWrite (writesFrom ops num_wann nrvecs deg 5 0 first body) s).getD
          (if s = 0 then ops.div (field ops first 5) (ops.ofInt (deg.cell 0)) else reH.cell s)) ∧
      (∀ s, st.imH.cell s =
        (lastWrite (writesFrom ops num_wann nrvecs deg 6 0 first body) s).getD
          (if s = 0 then ops.div (field ops first 6) (ops.ofInt (deg.cell 0)) else imH.cell s)) := by
  have hRi : ((nrvecs.toNat : Nat) : Int) = nrvecs := Int.toNat_of_nonneg (le_of_lt hnr)
  have hP : 0 < num_wann * num_wann * nrvecs := mul_pos (mul_pos hnw hnw) hnr
  have hint : nrvecs ≤ 2147483647 := by omega
  have hdegS : deg.size = nrvecs.toNat := by
    rw [hdeg, deg_cells_exact nrvecs (le_of_lt hnr) hint]
  have hrvS : rvecs.size = (3 * nrvecs).toNat := by
    rw [hrvecs, rvecs_cells_exact nrvecs (le_of_lt hnr) hrv3]
  have hreS : reH.size = (num_wann * num_wann * nrvecs).toNat := by
    rw [hre, (ham_cells_exact num_wann nrvecs hnw hnr hham).2]
  have himS : imH.size = (num_wann * num_wann * nrvecs).toNat := by
    rw [him, (ham_cells_exact num_wann nrvecs hnw hnr hham).2]
  have hheads : (runHeads ops first body).length + 1 ≤ nrvecs.toNat := by
    have : ((runHeads ops first body).length : Int) + 1 ≤ nrvecs := by
      simpa [runCount] using hruns
    omega
  obtain ⟨st0, he, hinv, hs1, hs2, hs3, hc0rv, hc0re, hc0im⟩ :=
    (firstEntry_eval ops deg first rvecs reH imH vals (h7 first (by simp)) hvals).1
      ⟨by omega, by omega, by rw [hreS]; omega, by rw [himS]; omega⟩
  have hslot : ∀ r1, r1 < nrvecs.toNat → ∀ l ∈ first :: body,
      slotAt ops num_wann nrvecs r1 l < (num_wann * num_wann * nrvecs).toNat := by
    intro r1 hr1 l hl
    have hr := hrange l hl
    have := (slotAt_exact ops num_wann nrvecs r1 l (by omega) hham hr.1 hr.2.1 hr.2.2.1
      hr.2.2.2).2
    omega
  obtain ⟨st, hrun⟩ := builderLoop_total ops num_wann nrvecs deg nrvecs.toNat body st0 0 first
    hinv (fun l hl => h7 l (by simp [hl])) (by omega) (by rw [hs1, hrvS]; omega) (by omega)
    (by rw [hdegS])
    (fun r1 hr1 l hl => by
      rw [hs2, hs3, hreS, himS]
      exact ⟨hslot r1 hr1 l (by simp [hl]), hslot r1 hr1 l (by simp [hl])⟩)
  obtain ⟨_, _, c3, c4, c5, c6, c7, c8⟩ :=
    builderLoop_spec ops num_wann nrvecs deg body st0 st 0 first hinv
      (fun l hl => h7 l (by simp [hl])) (Or.inr (by omega)) hrun
  refine ⟨st, by unfold builder; rw [he]; exact hrun, by rw [c3, hs1, hrvS],
    by rw [c4, hs2, hreS], by rw [c5, hs3, himS], ?_, fun s => by rw [c7 s, hc0re s],
    fun s => by rw [c8 s, hc0im s]⟩
  intro j
  rw [c6 j, hc0rv j]
  simp only [List.flatMap_cons]
  have hl3 : (tripleCells ops first).length = 3 := by simp [tripleCells]
  by_cases h3 : j < 3
  · have a1 : ¬ (3 * 0 + 3 ≤ j ∧ j < 3 * 0 + 3 + 3 * (runHeads ops first body).length) := by
      omega
    rw [if_neg a1, if_pos h3, List.getD_eq_getElem?_getD, List.getD_eq_getElem?_getD,
      List.getElem?_append_left (by omega)]
  · rw [if_neg h3]
    rw [List.getD_eq_getElem?_getD _ j, List.getElem?_append_right (by omega), hl3]
    by_cases hhi : j < 3 * 0 + 3 + 3 * (runHeads ops first body).length
    · rw [if_pos ⟨by omega, hhi⟩, List.getD_eq_getElem?_getD]
    · have a1 : ¬ (3 * 0 + 3 ≤ j ∧ j < 3 * 0 + 3 + 3 * (runHeads ops first body).length) := by
        omega
      rw [if_neg a1, List.getElem?_eq_none (by rw [flatMap_tripleCells_length]; omega)]
      rfl

/-- C5, on three records of which the first two share their triple: the builder finishes,
`rvecs` starts with the two triples (0,0,0) and (0,0,1), and the last record has index 1. -/
theorem rvecs_coalesced_witness :
    ∃ st, builder fracOps 1 2 smallDeg smallFirst smallBody (junkBuf 6) (junkBuf 2) (junkBuf 2)
        (junkBuf 7) = some st ∧
      st.rvecs.toList.take (3 * runCount fracOps smallFirst smallBody) =
        (smallFirst :: runHeads fracOps smallFirst smallBody).flatMap (tripleCells fracOps) ∧
      st.rvecs_counter + 1 = runCount fracOps smallFirst smallBody := by
  have h : (builder fracOps 1 2 smallDeg smallFirst smallBody (junkBuf 6) (junkBuf 2) (junkBuf 2)
      (junkBuf 7)).isSome = true := by decide
  obtain ⟨st, hst⟩ := Option.isSome_iff_exists.1 h
  have hc := rvecs_coalesced fracOps 1 2 smallDeg smallFirst smallBody (junkBuf 6) (junkBuf 2)
    (junkBuf 2) (junkBuf 7) st (by decide) (by decide) (by decide) (by decide) (by decide) hst
  exact ⟨st, hst, hc.1, hc.2.1⟩

/-- C2, as stated, fails where an `int` product of the size computations overflows.
With `num_wann = 65537` and `nrvecs = 1` the product `num_wann * num_wann * nrvecs` wraps
and `reH` gets 131073 cells: the body (1,1), (65537,65537) meets every condition of the
claim and the builder finishes, but the amplitude of the second record is in cell 131072,
while the index the claim names, `0 + 65537 * 1 * 65536 + 1 * 65536 = 4295098368`, lies
outside `reH`.  With `num_wann = 1` and `nrvecs = 1431655766` the product `nrvecs * 3`
wraps to 2, `rvecs` gets two cells, and already the first data entry stores outside it: the
builder does not finish on a body of one record. -/
theorem last_write_fails_on_overflow :
    (n_bytes_ham 65537 1 / 8 = 131073 ∧
      runCount fracOps smallFirst [wideRecord] = 1 ∧
      alphaOf fracOps smallFirst = 1 ∧ betaOf fracOps smallFirst = 1 ∧
      alphaOf fracOps wideRecord = 65537 ∧ betaOf fracOps wideRecord = 65537 ∧
      (hamIndex 65537 1 0 65536 65536).toNat = 4295098368 ∧
      (builder fracOps 65537 1 ⟨degBytes 1 / 4, fun _ => 1⟩ smallFirst [wideRecord]
          (junkBuf (rvecsBytes 1 / 8)) (junkBuf (n_bytes_ham 65537 1 / 8))
          (junkBuf (n_bytes_ham 65537 1 / 8)) (junkBuf 7)).map
        (fun st => (st.reH.read 4295098368, st.reH.read 131072)) =
        some (none, some ⟨5, 1⟩)) ∧
    (rvecsBytes 1431655766 / 8 = 2 ∧ n_bytes_ham 1 1431655766 / 8 = 1431655766 ∧
      degBytes 1431655766 / 4 = 1431655766 ∧
      runCount fracOps smallFirst [] = 1 ∧
      (builder fracOps 1 1431655766 ⟨degBytes 1431655766 / 4, fun _ => 1⟩ smallFirst []
          (junkBuf (rvecsBytes 1431655766 / 8)) (junkBuf (n_bytes_ham 1 1431655766 / 8))
          (junkBuf (n_bytes_ham 1 1431655766 / 8)) (junkBuf 7)).isNone = true) := by
  decide

/-- C2, amended by the bounds `num_wann * num_wann * nrvecs ≤ 2^31 - 1` and
`3 * nrvecs ≤ 2^31 - 1` (the `int` products that size `reH`, `imH` and `rvecs` do not
overflow): for `num_wann > 0`, `nrvecs > 0`, a degeneracy table of `nrvecs` integers and a
body of seven-field records whose first record has `alpha = beta = 1`, whose records all
have `alpha, beta` in `[1, num_wann]` and which has at most `nrvecs` runs, the builder
finishes, and for every record that is the last one of its triple `(r, alpha, beta)` (`r`
its zero-based run index) `reH[r + num_wann*nrvecs*(alpha-1) + nrvecs*(beta-1)]` is its
real amplitude over `degeneracy[r]` and `imH` at the same index its imaginary amplitude over
`degeneracy[r]`.  The blocks are those obtained for `num_wann` and `nrvecs`; the quotient is
whatever the division yields, for a zero factor too. -/
theorem builder_last_write_wins {F : Type} (ops : DoubleOps F) (num_wann nrvecs : Int)
    (deg : Buf Int) (first : List Char) (body : List (List Char)) (rvecs reH imH vals : Buf F)
    (hnw : 0 < num_wann) (hnr : 0 < nrvecs)
    (hham : num_wann * num_wann * nrvecs ≤ 2147483647) (hrv3 : 3 * nrvecs ≤ 2147483647)
    (hdeg : deg.size = degBytes nrvecs / 4) (hrvecs : rvecs.size = rvecsBytes nrvecs / 8)
    (hre : reH.size = n_bytes_ham num_wann nrvecs / 8)
    (him : imH.size = n_bytes_ham num_wann nrvecs / 8) (hvals : vals.size = 7)
    (h7 : ∀ l ∈ first :: body, (tokens l).length = 7)
    (hfirst : alphaOf ops first = 1 ∧ betaOf ops first = 1)
    (hrange : ∀ l ∈ first :: body, 1 ≤ alphaOf ops l ∧ alphaOf ops l ≤ num_wann ∧
      1 ≤ betaOf ops l ∧ betaOf ops l ≤ num_wann)
    (hruns : (runCount ops first body : Int) ≤ nrvecs) :
    ∃ st, builder ops num_wann nrvecs deg first body rvecs reH imH vals = some st ∧
      ∀ i, i < (first :: body).length →
        (∀ j, i < j → j < (first :: body).length →
          ¬ ((runIndices ops first body).getD j 0 = (runIndices ops first body).getD i 0 ∧
            alphaOf ops ((first :: body).getD j []) = alphaOf ops ((first :: body).getD i []) ∧
            betaOf ops ((first :: body).getD j []) = betaOf ops ((first :: body).getD i []))) →
        st.reH.read (hamIndex num_wann nrvecs ((runIndices ops first body).getD i 0)
            (alphaOf ops ((first :: body).getD i []) - 1)
            (betaOf ops ((first :: body).getD i []) - 1)).toNat =
          some (ops.div (field ops ((first :: body).getD i []) 5)
            (ops.ofInt (deg.cell ((runIndices ops first body).getD i 0)))) ∧
        st.imH.read (hamIndex num_wann nrvecs ((runIndices ops first body).getD i 0)
            (alphaOf ops ((first :: body).getD i []) - 1)
            (betaOf ops ((first :: body).getD i []) - 1)).toNat =
          some (ops.div (field ops ((first :: body).getD i []) 6)
            (ops.ofInt (deg.cell ((runIndices ops first body).getD i 0)))) := by
  obtain ⟨st, hst, _, hsre, hsim, _, c7, c8⟩ := builder_run ops num_wann nrvecs deg first body
    rvecs reH imH vals hnw hnr hham hrv3 hdeg hrvecs hre him hvals h7 hrange hruns
  refine ⟨st, hst, ?_⟩
  intro i hi hlast
  have hheads : ((runHeads ops first body).length : Int) + 1 ≤ nrvecs := by
    simpa [runCount] using hruns
  have hmem : (first :: body).getD i [] ∈ first :: body := by
    rw [List.getD_eq_getElem _ _ hi]
    exact List.getElem_mem hi
  have hri : (((runIndices ops first body).getD i 0 : Nat) : Int) < nrvecs := by
    cases i with
    | zero => simp [runIndices]; omega
    | succ n =>
      have := runIndexFrom_getD_le ops body 0 first n
      simp only [runIndices, List.getD_cons_succ]
      omega
  have hin : (hamIndex num_wann nrvecs ((runIndices ops first body).getD i 0)
      (alphaOf ops ((first :: body).getD i []) - 1)
      (betaOf ops ((first :: body).getD i []) - 1)).toNat <
        (num_wann * num_wann * nrvecs).toNat := by
    have hr := hrange _ hmem
    have hx := slotAt_exact ops num_wann nrvecs _ _ hri hham hr.1 hr.2.1 hr.2.2.1 hr.2.2.2
    rw [← hx.1]
    have := hx.2
    omega
  constructor
  · rw [Buf.read_of_lt _ _ (by rw [hsre]; exact hin)]
    congr 1
    exact last_record_cell ops num_wann nrvecs deg first body 5 reH.cell st.reH.cell hham hfirst
      hrange hruns c7 i hi hlast
  · rw [Buf.read_of_lt _ _ (by rw [hsim]; exact hin)]
    congr 1
    exact last_record_cell ops num_wann nrvecs deg first body 6 imH.cell st.imH.cell hham hfirst
      hrange hruns c8 i hi hlast

/-- C2, amended, on the small body: its second record is the last one for R vector 0 and
the orbital pair (1,1), so cell 0 holds its amplitude (3, 0.5) over the factor 1. -/
theorem builder_last_write_wins_witness :
    ∃ st, builder fracOps 1 2 smallDeg smallFirst smallBody (junkBuf 6) (junkBuf 2) (junkBuf 2)
        (junkBuf 7) = some st ∧
      st.reH.read 0 = some ⟨3, 1⟩ ∧ st.imH.read 0 = some ⟨1, 2⟩ := by
  obtain ⟨st, hst, h⟩ := builder_last_write_wins fracOps 1 2 smallDeg smallFirst smallBody
    (junkBuf 6) (junkBuf 2) (junkBuf 2) (junkBuf 7) (by decide) (by decide) (by decide)
    (by decide) (by decide) (by decide) (by decide) (by decide) (by decide) (by decide)
    (by decide) (by decide) (by decide)
  have h1 := h 1 (by decide) (by
    intro j hj1 hj2
    have hj : j = 2 := by
      simp only [List.length_cons, smallBody, List.length_nil] at hj2
      omega
    subst hj
    decide)
  have e1 : (hamIndex 1 2 ((runIndices fracOps smallFirst smallBody).getD 1 0)
      (alphaOf fracOps ((smallFirst :: smallBody).getD 1 []) - 1)
      (betaOf fracOps ((smallFirst :: smallBody).getD 1 []) - 1)).toNat = 0 := by decide
  have e2 : fracOps.div (field fracOps ((smallFirst :: smallBody).getD 1 []) 5)
      (fracOps.ofInt (smallDeg.cell ((runIndices fracOps smallFirst smallBody).getD 1 0))) =
      ⟨3, 1⟩ := by decide
  have e3 : fracOps.div (field fracOps ((smallFirst :: smallBody).getD 1 []) 6)
      (fracOps.ofInt (smallDeg.cell ((runIndices fracOps smallFirst smallBody).getD 1 0))) =
      ⟨1, 2⟩ := by decide
  rw [e1, e2, e3] at h1
  exact ⟨st, hst, h1.1, h1.2⟩

/-! ## The two-orbital scenario -/

/-- When every allocation is granted, the loader stored no more integers than
`degeneracy_facts` has cells, and the builder finishes, lines 134-202 end normally with the
state the builder left. -/
theorem fillArrays_done {F : Type} (ops : DoubleOps F) (env : Env F) (num_wann nrvecs : Int)
    (stored : List Int) (buffer : List Char) (body : List (List Char)) (st : Builder F)
    (hmalloc : ∀ n, env.mallocOk n = true) (hfit : stored.length ≤ degBytes nrvecs / 4)
    (hb : builder ops num_wann nrvecs
        ⟨degBytes nrvecs / 4, fun i => stored.getD i (env.freshDeg i)⟩ buffer body
        ⟨rvecsBytes nrvecs / 8, env.freshRvecs⟩ ⟨n_bytes_ham num_wann nrvecs / 8, env.freshRe⟩
        ⟨n_bytes_ham num_wann nrvecs / 8, env.freshIm⟩ ⟨7, env.freshVals⟩ = some st) :
    (fillArrays ops env num_wann nrvecs stored buffer body).result =
      Parsed.done num_wann nrvecs st := by
  unfold fillArrays
  simp only [malloc, hmalloc, if_true, degeneracyTable, hfit, hb]

/-- The stores asked for depend on the degeneracy factors of the runs of the body only. -/
theorem writesFrom_congr {F : Type} (ops : DoubleOps F) (num_wann nrvecs : Int)
    (deg deg1 : Buf Int) (k : Nat) :
    ∀ (body : List (List Char)) (r : Nat) (prev : List Char),
      (∀ i, i ≤ r + (runHeads ops prev body).length → deg.cell i = deg1.cell i) →
      writesFrom ops num_wann nrvecs deg k r prev body =
        writesFrom ops num_wann nrvecs deg1 k r prev body := by
  intro body
  induction body with
  | nil => intro r prev _; rfl
  | cons l ls ih =>
    intro r prev h
    have hc := runHeads_cons_length ops r prev l ls
    simp only [writesFrom]
    rw [h (nextRun ops r prev l) (by omega),
      ih (nextRun ops r prev l) l (fun i hi => h i (by omega))]

/-- A cell whose last store, or else the first data entry, gave it the value `x` holds `x`,
whatever it held before. -/
theorem getD_of_last {F : Type} (o : Option F) (c : Prop) [Decidable c] (v d x : F)
    (h : storedValue o (decide c) v = some x) :
    o.getD (if c then v else d) = x := by
  cases o with
  | some y => simpa [storedValue] using h
  | none =>
    by_cases hc : c
    · simpa [storedValue, hc] using h
    · simp [storedValue, hc] at h

/-- C1: on the file with `num_wann = 2`, `nrvecs = 1`, the degeneracy line `1` and the four
records of R vector (0,0,0) for the orbital pairs (1,1), (1,2), (2,1), (2,2) with
amplitudes (1,0), (0,0.5), (0,-0.5), (1,0), `main` ends with status 0 and hands over
`reH = [1,0,0,1]`, `imH = [0,0.5,-0.5,0]`, `rvecs = [0,0,0]`, `nw = 2`, `nr = 1`, whatever
the storage it obtains held before, provided the allocations are granted. -/
theorem two_orbital_scenario (env : Env Frac) (prog path out : List Char)
    (hfile : env.files path = some twoOrbitalFile) (hmalloc : ∀ n, env.mallocOk n = true) :
    (main fracOps env [prog, path, out]).exit = some 0 ∧
    (main fracOps env [prog, path, out]).written.map
        (fun d => (d.reH, d.imH, d.rvecs, d.nw, d.nr)) =
      some ([⟨1, 1⟩, ⟨0, 1⟩, ⟨0, 1⟩, ⟨1, 1⟩], [⟨0, 1⟩, ⟨1, 2⟩, ⟨-1, 2⟩, ⟨0, 1⟩],
        [⟨0, 1⟩, ⟨0, 1⟩, ⟨0, 1⟩], 2, 1) := by
  -- the header and the degeneracy line
  have e1 : read_int_from_nextline_fstream (skipLine twoOrbitalFile) =
      ⟨2, String.toList "1\n1\n" ++ twoOrbitalFirst ++ twoOrbitalRest.flatten, []⟩ := by decide
  have e2 : read_int_from_nextline_fstream
      (String.toList "1\n1\n" ++ twoOrbitalFirst ++ twoOrbitalRest.flatten) =
      ⟨1, String.toList "1\n" ++ twoOrbitalFirst ++ twoOrbitalRest.flatten, []⟩ := by decide
  have e3 : fgetsLines (String.toList "1\n" ++ twoOrbitalFirst ++ twoOrbitalRest.flatten) =
      String.toList "1\n" :: twoOrbitalFirst :: twoOrbitalRest := by decide
  have e4 : loaderLoop (num_lines_degeneracy_facts 1)
      (String.toList "1\n" :: twoOrbitalFirst :: twoOrbitalRest) ⟨[], 0, env.freshBuffer⟩ =
      (⟨[1], 1, twoOrbitalFirst⟩, twoOrbitalRest) := by
    rw [loaderLoop_handoff _ _ _ 1
      (by show (0 : Int) + ((1 : Nat) : Int) = num_lines_degeneracy_facts 1; decide)
      (by decide)]
    have : ([] : List Int) ++ ((String.toList "1\n" :: twoOrbitalFirst :: twoOrbitalRest).take
        1).flatMap (fun l => (tokens l).map storedInt) = [1] := by decide
    rw [this]
    rfl
  -- the builder
  obtain ⟨st, hst, _, _, _, hrv, hre, him⟩ := builder_run fracOps 2 1
    ⟨degBytes 1 / 4, fun i => [1].getD i (env.freshDeg i)⟩ twoOrbitalFirst twoOrbitalRest
    ⟨rvecsBytes 1 / 8, env.freshRvecs⟩ ⟨n_bytes_ham 2 1 / 8, env.freshRe⟩
    ⟨n_bytes_ham 2 1 / 8, env.freshIm⟩ ⟨7, env.freshVals⟩ (by decide) (by decide) (by decide)
    (by decide) rfl rfl rfl rfl rfl (by decide) (by decide) (by decide)
  have hdone := fillArrays_done fracOps env 2 1 [1] twoOrbitalFirst twoOrbitalRest st hmalloc
    (by decide) hst
  have hres : (parsePass fracOps env twoOrbitalFile).result = Parsed.done 2 1 st := by
    unfold parsePass
    simp only [e1, e2, e3, e4]
    exact hdone
  -- the cells
  have hw5 : writesFrom fracOps 2 1 ⟨degBytes 1 / 4, fun i => [1].getD i (env.freshDeg i)⟩
      5 0 twoOrbitalFirst twoOrbitalRest =
      writesFrom fracOps 2 1 ⟨1, fun _ => 1⟩ 5 0 twoOrbitalFirst twoOrbitalRest := by
    apply writesFrom_congr
    intro i hi
    have h0 : (runHeads fracOps twoOrbitalFirst twoOrbitalRest).length = 0 := by decide
    have : i = 0 := by omega
    subst this
    rfl
  have hw6 : writesFrom fracOps 2 1 ⟨degBytes 1 / 4, fun i => [1].getD i (env.freshDeg i)⟩
      6 0 twoOrbitalFirst twoOrbitalRest =
      writesFrom fracOps 2 1 ⟨1, fun _ => 1⟩ 6 0 twoOrbitalFirst twoOrbitalRest := by
    apply writesFrom_congr
    intro i hi
    have h0 : (runHeads fracOps twoOrbitalFirst twoOrbitalRest).length = 0 := by decide
    have : i = 0 := by omega
    subst this
    rfl
  rw [hw5] at hre
  rw [hw6] at him
  have l5 : ∀ s, s < 4 →
      storedValue (lastWrite (writesFrom fracOps 2 1 ⟨1, fun _ => 1⟩ 5 0 twoOrbitalFirst
          twoOrbitalRest) s) (decide (s = 0))
        (fracOps.div (field fracOps twoOrbitalFirst 5) (fracOps.ofInt 1)) =
      some ([(⟨1, 1⟩ : Frac), ⟨0, 1⟩, ⟨0, 1⟩, ⟨1, 1⟩].getD s ⟨0, 0⟩) := by decide
  have l6 : ∀ s, s < 4 →
      storedValue (lastWrite (writesFrom fracOps 2 1 ⟨1, fun _ => 1⟩ 6 0 twoOrbitalFirst
          twoOrbitalRest) s) (decide (s = 0))
        (fracOps.div (field fracOps twoOrbitalFirst 6) (fracOps.ofInt 1)) =
      some ([(⟨0, 1⟩ : Frac), ⟨1, 2⟩, ⟨-1, 2⟩, ⟨0, 1⟩].getD s ⟨0, 0⟩) := by decide
  have lr : (twoOrbitalFirst :: runHeads fracOps twoOrbitalFirst twoOrbitalRest).flatMap
      (tripleCells fracOps) = [⟨0, 1⟩, ⟨0, 1⟩, ⟨0, 1⟩] := by decide
  have hd0 : (⟨degBytes 1 / 4, fun i => [1].getD i (env.freshDeg i)⟩ : Buf Int).cell 0 = 1 := rfl
  have cre : ∀ s, s < 4 →
      st.reH.cell s = [(⟨1, 1⟩ : Frac), ⟨0, 1⟩, ⟨0, 1⟩, ⟨1, 1⟩].getD s ⟨0, 0⟩ := by
    intro s hs
    rw [hre s, hd0]
    exact getD_of_last _ _ _ _ _ (l5 s hs)
  have cim : ∀ s, s < 4 →
      st.imH.cell s = [(⟨0, 1⟩ : Frac), ⟨1, 2⟩, ⟨-1, 2⟩, ⟨0, 1⟩].getD s ⟨0, 0⟩ := by
    intro s hs
    rw [him s, hd0]
    exact getD_of_last _ _ _ _ _ (l6 s hs)
  have crv : ∀ j, j < 3 → st.rvecs.cell j = (⟨0, 1⟩ : Frac) := by
    intro j hj
    rw [hrv j, lr]
    interval_cases j <;> rfl
  have hn : n_doubles_ham 2 1 = 4 := by decide
  have hd : wrapUInt64 (wrapInt32 (1 * 3)) = 3 := by decide
  have hdata : datasets 2 1 st =
      ⟨[⟨1, 1⟩, ⟨0, 1⟩, ⟨0, 1⟩, ⟨1, 1⟩], [⟨0, 1⟩, ⟨1, 2⟩, ⟨-1, 2⟩, ⟨0, 1⟩],
        [⟨0, 1⟩, ⟨0, 1⟩, ⟨0, 1⟩], 2, 1⟩ := by
    unfold datasets
    rw [hn, hd]
    simp only [Buf.toList, List.range_succ, List.range_zero, List.nil_append, List.cons_append,
      List.map_cons, List.map_nil]
    rw [cre 0 (by omega), cre 1 (by omega), cre 2 (by omega), cre 3 (by omega),
      cim 0 (by omega), cim 1 (by omega), cim 2 (by omega), cim 3 (by omega),
      crv 0 (by omega), crv 1 (by omega), crv 2 (by omega)]
    rfl
  have hpath : ([prog, path, out] : List (List Char)).getD 1 [] = path := rfl
  constructor
  · unfold main
    rw [if_neg (by simp), hpath, hfile]
    simp only [hres]
  · unfold main
    rw [if_neg (by simp), hpath, hfile]
    simp only [hres, hdata, Option.map_some']

/-- C1, with every allocation granted and the storage filled with 9 (7 for
`degeneracy_facts`) beforehand. -/
theorem two_orbital_scenario_witness :
    (main fracOps (envOf ['i', 'n'] twoOrbitalFile ⟨9, 1⟩ 7) [['p'], ['i', 'n'], ['o']]).exit
      = some 0 ∧
    (main fracOps (envOf ['i', 'n'] twoOrbitalFile ⟨9, 1⟩ 7)
        [['p'], ['i', 'n'], ['o']]).written.map
      (fun d => (d.reH, d.imH, d.rvecs, d.nw, d.nr)) =
      some ([⟨1, 1⟩, ⟨0, 1⟩, ⟨0, 1⟩, ⟨1, 1⟩], [⟨0, 1⟩, ⟨1, 2⟩, ⟨-1, 2⟩, ⟨0, 1⟩],
        [⟨0, 1⟩, ⟨0, 1⟩, ⟨0, 1⟩], 2, 1) :=
  two_orbital_scenario (envOf ['i', 'n'] twoOrbitalFile ⟨9, 1⟩ 7) ['p'] ['i', 'n'] ['o']
    (by decide) (fun _ => rfl)


/-! ## The pass as a whole -/

/-- When `strtol` converts nothing (`endptr == buf`) its value is 0. -/
theorem strtol_endOffset_zero (s : List Char) (h : (strtol s).endOffset = 0) :
    (strtol s).value = 0 := by
  unfold strtol at h ⊢
  simp only at h ⊢
  by_cases hd : ((s.dropWhile isspace).drop
      (if (s.dropWhile isspace).head? = some '-' ∨ (s.dropWhile isspace).head? = some '+'
        then 1 else 0)).takeWhile isdigit = []
  · rw [if_pos hd]
  · rw [if_neg hd] at h
    have hl := List.length_pos.2 hd
    have key : ∀ (c1 c2 : Prop) [Decidable c1] [Decidable c2] (a b c : Int) (e : Nat),
        (if c1 then (⟨a, e, true⟩ : StrtolResult) else if c2 then ⟨b, e, true⟩
          else ⟨c, e, false⟩).endOffset = e := by
      intro c1 c2 _ _ a b c e
      split_ifs <;> rfl
    rw [key] at h
    omega

/-- A header integer that is positive was read without a complaint. -/
theorem read_int_quiet (f : List Char) (h : 0 < (read_int_from_nextline_fstream f).result) :
    (read_int_from_nextline_fstream f).log = [] := by
  unfold read_int_from_nextline_fstream at h ⊢
  cases hf : fgets MAX_BUFF_SIZE f with
  | none => rw [hf] at h; simp at h
  | some p =>
    obtain ⟨buf, rest⟩ := p
    rw [hf] at h
    simp only at h ⊢
    by_cases he : (strtol buf).erange = true
    · rw [if_pos he] at h; simp at h
    · rw [if_neg he] at h ⊢
      simp only at h ⊢
      by_cases h0 : (strtol buf).endOffset = 0
      · rw [strtol_endOffset_zero buf h0] at h
        simp [wrapInt32] at h
      · rw [if_neg h0]

/-- The first `fgets` of the degeneracy loop overwrites the line buffer: when a line is
left to read, what the buffer held before does not matter. -/
theorem loaderLoop_buffer (n : Int) (lines : List (List Char)) (hl : lines ≠ [])
    (stored : List Int) (cl : Int) (b b1 : List Char) :
    loaderLoop n lines ⟨stored, cl, b⟩ = loaderLoop n lines ⟨stored, cl, b1⟩ := by
  cases lines with
  | nil => exact absurd rfl hl
  | cons l ls => simp only [loaderLoop]

/-- The parse pass in terms of the header integers and the lines after the header. -/
theorem parsePass_eq {F : Type} (ops : DoubleOps F) (env : Env F) (f : List Char) :
    parsePass ops env f =
      ⟨headerLog (read_int_from_nextline_fstream (skipLine f))
          (read_int_from_nextline_fstream (read_int_from_nextline_fstream (skipLine f)).rest) ++
        (fillArrays ops env (headerNw f) (headerNr f)
          (loaderLoop (num_lines_degeneracy_facts (headerNr f)) (linesAfterHeader f)
            ⟨[], 0, env.freshBuffer⟩).1.stored
          (loaderLoop (num_lines_degeneracy_facts (headerNr f)) (linesAfterHeader f)
            ⟨[], 0, env.freshBuffer⟩).1.buffer
          (loaderLoop (num_lines_degeneracy_facts (headerNr f)) (linesAfterHeader f)
            ⟨[], 0, env.freshBuffer⟩).2).log,
        (fillArrays ops env (headerNw f) (headerNr f)
          (loaderLoop (num_lines_degeneracy_facts (headerNr f)) (linesAfterHeader f)
            ⟨[], 0, env.freshBuffer⟩).1.stored
          (loaderLoop (num_lines_degeneracy_facts (headerNr f)) (linesAfterHeader f)
            ⟨[], 0, env.freshBuffer⟩).1.buffer
          (loaderLoop (num_lines_degeneracy_facts (headerNr f)) (linesAfterHeader f)
            ⟨[], 0, env.freshBuffer⟩).2).result⟩ := rfl

/-- On an input of the expected form the parse pass prints the two header lines and then
does what lines 134-202 do on the integers stored by the loader, the first record and the
other records. -/
theorem parsePass_of_input {F : Type} (ops : DoubleOps F) (env : Env F) (f : List Char)
    (stored : List Int) (first : List Char) (body : List (List Char))
    (hin : HandedOver ops f stored first body) :
    parsePass ops env f =
      ⟨[Event.out "--- Number of wannier orbitals: %i \n",
          Event.out "--- Number of R vectors       : %i \n"] ++
        (fillArrays ops env (headerNw f) (headerNr f) stored first body).log,
        (fillArrays ops env (headerNw f) (headerNr f) stored first body).result⟩ := by
  have hne : linesAfterHeader f ≠ [] := by
    intro h0
    have hb := hin.loaded.2.1
    rw [h0] at hb
    have h7 := hin.seven first (by simp)
    rw [← hb] at h7
    have e0 : (loaderLoop (num_lines_degeneracy_facts (headerNr f)) []
        ⟨[], 0, []⟩).1.buffer = [] := rfl
    rw [e0] at h7
    revert h7
    decide
  obtain ⟨l1, l2, l3⟩ := hin.loaded
  rw [parsePass_eq,
    loaderLoop_buffer _ _ hne [] 0 env.freshBuffer [], l1, l2, l3]
  have q1 : (read_int_from_nextline_fstream (skipLine f)).log = [] :=
    read_int_quiet _ hin.nw_pos
  have q2 : (read_int_from_nextline_fstream
      (read_int_from_nextline_fstream (skipLine f)).rest).log = [] :=
    read_int_quiet _ hin.nr_pos
  simp only [headerLog, q1, q2, List.nil_append, List.append_nil, List.singleton_append,
    List.cons_append]

/-- When every allocation is granted and the stored integers fit the table, lines 134-202
end normally with the state the builder left if the builder finishes. -/
theorem fillArrays_finished {F : Type} (ops : DoubleOps F) (env : Env F) (num_wann nrvecs : Int)
    (stored : List Int) (buffer : List Char) (body : List (List Char)) (st : Builder F)
    (hmalloc : ∀ n, env.mallocOk n = true) (hfit : stored.length ≤ degBytes nrvecs / 4)
    (hb : builder ops num_wann nrvecs
        ⟨degBytes nrvecs / 4, fun i => stored.getD i (env.freshDeg i)⟩ buffer body
        ⟨rvecsBytes nrvecs / 8, env.freshRvecs⟩ ⟨n_bytes_ham num_wann nrvecs / 8, env.freshRe⟩
        ⟨n_bytes_ham num_wann nrvecs / 8, env.freshIm⟩ ⟨7, env.freshVals⟩ = some st) :
    fillArrays ops env num_wann nrvecs stored buffer body =
      ⟨[Event.out "--- Size of the model data in memory: %lu bytes \n"],
        Parsed.done num_wann nrvecs st⟩ := by
  unfold fillArrays
  simp only [malloc, hmalloc, if_true, degeneracyTable, hfit, hb]

/-- Under the same conditions, when the builder makes an access outside an array, lines
134-202 leave defined behaviour, and nothing was reported. -/
theorem fillArrays_fault {F : Type} (ops : DoubleOps F) (env : Env F) (num_wann nrvecs : Int)
    (stored : List Int) (buffer : List Char) (body : List (List Char))
    (hmalloc : ∀ n, env.mallocOk n = true) (hfit : stored.length ≤ degBytes nrvecs / 4)
    (hb : builder ops num_wann nrvecs
        ⟨degBytes nrvecs / 4, fun i => stored.getD i (env.freshDeg i)⟩ buffer body
        ⟨rvecsBytes nrvecs / 8, env.freshRvecs⟩ ⟨n_bytes_ham num_wann nrvecs / 8, env.freshRe⟩
        ⟨n_bytes_ham num_wann nrvecs / 8, env.freshIm⟩ ⟨7, env.freshVals⟩ = none) :
    fillArrays ops env num_wann nrvecs stored buffer body =
      ⟨[Event.out "--- Size of the model data in memory: %lu bytes \n"], Parsed.fault⟩ := by
  unfold fillArrays
  simp only [malloc, hmalloc, if_true, degeneracyTable, hfit, hb]

/-- A parse pass that ends normally makes `main` write the datasets and return 0. -/
theorem main_of_done {F : Type} (ops : DoubleOps F) (env : Env F) (prog path out f : List Char)
    (num_wann nrvecs : Int) (st : Builder F) (hfile : env.files path = some f)
    (hres : (parsePass ops env f).result = Parsed.done num_wann nrvecs st) :
    (main ops env [prog, path, out]).exit = some 0 ∧
    (main ops env [prog, path, out]).written = some (datasets num_wann nrvecs st) := by
  have hpath : ([prog, path, out] : List (List Char)).getD 1 [] = path := rfl
  constructor
  · unfold main
    rw [if_neg (by simp), hpath, hfile]
    simp only [hres]
  · unfold main
    rw [if_neg (by simp), hpath, hfile]
    simp only [hres]

/-- A parse pass that makes an access outside an array leaves `main` without a defined
exit status, and nothing is written. -/
theorem main_of_fault {F : Type} (ops : DoubleOps F) (env : Env F) (prog path out f : List Char)
    (hfile : env.files path = some f)
    (hres : (parsePass ops env f).result = Parsed.fault) :
    (main ops env [prog, path, out]).exit = none ∧
    (main ops env [prog, path, out]).written = none := by
  have hpath : ([prog, path, out] : List (List Char)).getD 1 [] = path := rfl
  constructor
  · unfold main
    rw [if_neg (by simp), hpath, hfile]
    simp only [hres]
  · unfold main
    rw [if_neg (by simp), hpath, hfile]
    simp only [hres]

/-- For a positive `nrvecs` that is not a multiple of 15 the number of lines the loader
tokenises, `(nrvecs / 15) + 1`, is the ceiling of `nrvecs / 15`. -/
theorem num_lines_eq_ceil (nrvecs : Int) (hpos : 0 < nrvecs) (hnd : ¬ (15 : Int) ∣ nrvecs) :
    num_lines_degeneracy_facts nrvecs = ⌈(nrvecs : ℚ) / 15⌉ := by
  have hdiv : Int.tdiv nrvecs 15 = nrvecs / 15 :=
    Int.tdiv_eq_ediv (le_of_lt hpos) (by norm_num)
  unfold num_lines_degeneracy_facts
  rw [hdiv]
  symm
  rw [Int.ceil_eq_iff]
  have h0 := Int.emod_nonneg nrvecs (by norm_num : (15 : Int) ≠ 0)
  have hne : nrvecs % 15 ≠ 0 := fun h => hnd (Int.dvd_of_emod_eq_zero h)
  have hlt : nrvecs % 15 < 15 := Int.emod_lt_of_pos nrvecs (by norm_num)
  have hdecomp : nrvecs = 15 * (nrvecs / 15) + nrvecs % 15 := (Int.ediv_add_emod nrvecs 15).symm
  constructor
  · rw [lt_div_iff₀ (by norm_num : (0 : ℚ) < 15)]
    have : (nrvecs / 15) * 15 < nrvecs := by omega
    have h2 : (((nrvecs / 15) * 15 : Int) : ℚ) < (nrvecs : ℚ) := by exact_mod_cast this
    push_cast at h2 ⊢
    linarith
  · rw [div_le_iff₀ (by norm_num : (0 : ℚ) < 15)]
    have : nrvecs ≤ (nrvecs / 15 + 1) * 15 := by omega
    have h2 : (nrvecs : ℚ) ≤ (((nrvecs / 15 + 1) * 15 : Int) : ℚ) := by exact_mod_cast this
    push_cast at h2 ⊢
    linarith

/-- On the lines of a file of the standard layout the degeneracy loop stores the integers of
the block, and leaves by `break` with the first record in the buffer and the other records
unread, whatever the buffer held before. -/
theorem loaderLoop_block (nrvecs : Int) (degLines : List (List Char)) (first : List Char)
    (body : List (List Char)) (b : List Char) (hpos : 0 < nrvecs)
    (hnot : ¬ (15 : Int) ∣ nrvecs)
    (hblock : (degLines.length : Int) = ⌈(nrvecs : ℚ) / 15⌉) :
    loaderLoop (num_lines_degeneracy_facts nrvecs) (degLines ++ first :: body) ⟨[], 0, b⟩ =
      (⟨blockIntegers degLines, num_lines_degeneracy_facts nrvecs, first⟩, body) := by
  have hn := num_lines_eq_ceil nrvecs hpos hnot
  have t1 : (degLines ++ first :: body).take degLines.length = degLines :=
    List.take_left' rfl
  have t2 : (degLines ++ first :: body).getD degLines.length [] = first := by
    rw [List.getD_eq_getElem?_getD, List.getElem?_append_right (le_refl _)]
    simp
  have t3 : (degLines ++ first :: body).drop (degLines.length + 1) = body := by
    rw [List.drop_append]
    rfl
  rw [loaderLoop_handoff _ _ _ degLines.length
    (by show (0 : Int) + (degLines.length : Int) = _; rw [hn, hblock]; ring)
    (by simp), t1, t2, t3]
  rfl

/-- A file of the standard layout is handed over to the builder with the integers of its
degeneracy block stored. -/
theorem handedOver_of_input {F : Type} (ops : DoubleOps F) (f : List Char)
    (degLines : List (List Char)) (first : List Char) (body : List (List Char))
    (hwf : WellFormedInput ops f degLines first body) :
    HandedOver ops f (blockIntegers degLines) first body := by
  have hload := loaderLoop_block (headerNr f) degLines first body [] hwf.nr_pos
    hwf.not_fifteen hwf.block
  rw [← hwf.lines] at hload
  exact ⟨hwf.nw_pos, hwf.nr_pos, hwf.ham_fits, hwf.rvecs_fits,
    ⟨by rw [hload], by rw [hload], by rw [hload]⟩, hwf.table, hwf.seven, hwf.orbitals⟩

/-- The ceiling of `n / 15` is 1 for `0 < n ≤ 15`. -/
theorem ceil_fifteenth_small (n : Int) (h0 : 0 < n) (h1 : n ≤ 15) : ⌈(n : ℚ) / 15⌉ = 1 := by
  rw [Int.ceil_eq_iff]
  have a0 : (0 : ℚ) < (n : ℚ) := by exact_mod_cast h0
  have a1 : (n : ℚ) ≤ 15 := by exact_mod_cast h1
  constructor
  · rw [lt_div_iff₀ (by norm_num : (0 : ℚ) < 15)]
    push_cast
    linarith
  · rw [div_le_iff₀ (by norm_num : (0 : ℚ) < 15)]
    push_cast
    linarith

/-- On an input of the expected form with at most `nrvecs` runs, and with every allocation
granted, the parse pass ends normally after its three lines of output.  The cells of the
arrays it leaves are those of `builder_run`, with the degeneracy factors read from the
integers the loader stored. -/
theorem pass_run {F : Type} (ops : DoubleOps F) (env : Env F) (f : List Char)
    (stored : List Int) (first : List Char) (body : List (List Char))
    (hmalloc : ∀ n, env.mallocOk n = true) (hin : HandedOver ops f stored first body)
    (hruns : (runCount ops first body : Int) ≤ headerNr f) :
    ∃ st, parsePass ops env f =
        ⟨[Event.out "--- Number of wannier orbitals: %i \n",
          Event.out "--- Number of R vectors       : %i \n",
          Event.out "--- Size of the model data in memory: %lu bytes \n"],
          Parsed.done (headerNw f) (headerNr f) st⟩ ∧
      st.rvecs.size = (3 * headerNr f).toNat ∧
      st.reH.size = (headerNw f * headerNw f * headerNr f).toNat ∧
      st.imH.size = (headerNw f * headerNw f * headerNr f).toNat ∧
      (∀ j, st.rvecs.cell j =
        ((first :: runHeads ops first body).flatMap (tripleCells ops)).getD j
          (env.freshRvecs j)) ∧
      (∀ s, st.reH.cell s =
        (lastWrite (writesFrom ops (headerNw f) (headerNr f) (tableOf stored) 5 0 first body)
            s).getD
          (if s = 0 then ops.div (field ops first 5) (ops.ofInt ((tableOf stored).cell 0))
            else env.freshRe s)) ∧
      (∀ s, st.imH.cell s =
        (lastWrite (writesFrom ops (headerNw f) (headerNr f) (tableOf stored) 6 0 first body)
            s).getD
          (if s = 0 then ops.div (field ops first 6) (ops.ofInt ((tableOf stored).cell 0))
            else env.freshIm s)) := by
  have hnr := hin.nr_pos
  have htab := hin.table
  have hint : headerNr f ≤ 2147483647 := by have := hin.rvecs_fits; omega
  have hdegN : degBytes (headerNr f) / 4 = (headerNr f).toNat :=
    deg_cells_exact _ (le_of_lt hnr) hint
  have hfit : stored.length ≤ degBytes (headerNr f) / 4 := by rw [hdegN]; omega
  obtain ⟨st, hst, s1, s2, s3, c1, c2, c3⟩ := builder_run ops (headerNw f) (headerNr f)
    ⟨degBytes (headerNr f) / 4, fun i => stored.getD i (env.freshDeg i)⟩ first body
    ⟨rvecsBytes (headerNr f) / 8, env.freshRvecs⟩
    ⟨n_bytes_ham (headerNw f) (headerNr f) / 8, env.freshRe⟩
    ⟨n_bytes_ham (headerNw f) (headerNr f) / 8, env.freshIm⟩ ⟨7, env.freshVals⟩
    hin.nw_pos hnr hin.ham_fits hin.rvecs_fits rfl rfl rfl rfl rfl hin.seven hin.orbitals hruns
  have hheads : (runHeads ops first body).length + 1 ≤ stored.length := by
    have : ((runHeads ops first body).length : Int) + 1 ≤ headerNr f := by
      simpa [runCount] using hruns
    omega
  have hcell : ∀ i, i ≤ 0 + (runHeads ops first body).length →
      (⟨degBytes (headerNr f) / 4, fun i => stored.getD i (env.freshDeg i)⟩ : Buf Int).cell i =
        (tableOf stored).cell i := by
    intro i hi
    show stored.getD i (env.freshDeg i) = stored.getD i 0
    rw [List.getD_eq_getElem _ _ (by omega), List.getD_eq_getElem _ _ (by omega)]
  have w5 := writesFrom_congr ops (headerNw f) (headerNr f) _ (tableOf stored) 5 body 0 first
    hcell
  have w6 := writesFrom_congr ops (headerNw f) (headerNr f) _ (tableOf stored) 6 body 0 first
    hcell
  have h0 := hcell 0 (by omega)
  rw [w5, h0] at c2
  rw [w6, h0] at c3
  refine ⟨st, ?_, s1, s2, s3, c1, c2, c3⟩
  rw [parsePass_of_input ops env f stored first body hin,
    fillArrays_finished ops env _ _ stored first body st hmalloc hfit hst]
  rfl

/-- For a record of a body with orbital fields in `[1, num_wann]` and at most `nrvecs` runs:
its run index is below `nrvecs`, the cell the machine computes for it is the derived index,
and that index is below `num_wann * num_wann * nrvecs`. -/
theorem record_index_lt {F : Type} (ops : DoubleOps F) (num_wann nrvecs : Int)
    (first : List Char) (body : List (List Char))
    (hham : num_wann * num_wann * nrvecs ≤ 2147483647)
    (hrange : ∀ l ∈ first :: body, 1 ≤ alphaOf ops l ∧ alphaOf ops l ≤ num_wann ∧
      1 ≤ betaOf ops l ∧ betaOf ops l ≤ num_wann)
    (hruns : (runCount ops first body : Int) ≤ nrvecs)
    (i : Nat) (hi : i < (first :: body).length) :
    (((runIndices ops first body).getD i 0 : Nat) : Int) < nrvecs ∧
    slotAt ops num_wann nrvecs ((runIndices ops first body).getD i 0)
        ((first :: body).getD i []) =
      (hamIndex num_wann nrvecs ((runIndices ops first body).getD i 0)
        (alphaOf ops ((first :: body).getD i []) - 1)
        (betaOf ops ((first :: body).getD i []) - 1)).toNat ∧
    (hamIndex num_wann nrvecs ((runIndices ops first body).getD i 0)
        (alphaOf ops ((first :: body).getD i []) - 1)
        (betaOf ops ((first :: body).getD i []) - 1)).toNat <
      (num_wann * num_wann * nrvecs).toNat := by
  have hheads : ((runHeads ops first body).length : Int) + 1 ≤ nrvecs := by
    simpa [runCount] using hruns
  have hmem : (first :: body).getD i [] ∈ first :: body := by
    rw [List.getD_eq_getElem _ _ hi]
    exact List.getElem_mem hi
  have hri : (((runIndices ops first body).getD i 0 : Nat) : Int) < nrvecs := by
    cases i with
    | zero => simp [runIndices]; omega
    | succ n =>
      have := runIndexFrom_getD_le ops body 0 first n
      simp only [runIndices, List.getD_cons_succ]
      omega
  have hr := hrange _ hmem
  have hx := slotAt_exact ops num_wann nrvecs _ _ hri hham hr.1 hr.2.1 hr.2.2.1 hr.2.2.2
  refine ⟨hri, hx.1, ?_⟩
  rw [← hx.1]
  have := hx.2
  omega

/-- C11, as stated, fails: on the file with `num_wann = 1`, `nrvecs = 1`, the degeneracy
factor 0 and one record with amplitude (1, 0), `main` returns 0 without any message on the
error stream, and the datasets it writes hold `1.0 / 0` (an infinity) in `reH` and `0.0 / 0`
(a NaN) in `imH`. -/
theorem zero_degeneracy_not_rejected :
    (main fracOps (envOf ['i'] zeroDegFile ⟨9, 1⟩ 7) [['p'], ['i'], ['o']]).exit = some 0 ∧
    (main fracOps (envOf ['i'] zeroDegFile ⟨9, 1⟩ 7) [['p'], ['i'], ['o']]).written.map
      (fun d => (d.reH, d.imH)) = some ([⟨1, 0⟩], [⟨0, 0⟩]) ∧
    (main fracOps (envOf ['i'] zeroDegFile ⟨9, 1⟩ 7) [['p'], ['i'], ['o']]).log.all
      (fun e => !e.isErr) = true := by
  decide

/-- C11, amended to what the code does: a zero degeneracy factor is not rejected.  For every
HR file of the standard layout (`num_wann > 0`; `nrvecs > 0` and not a multiple of 15;
`num_wann * num_wann * nrvecs` and `3 * nrvecs` inside `int`; a degeneracy block of
`ceil(nrvecs / 15)` lines holding `nrvecs` integers in all; seven-field records with orbital
fields in `[1, num_wann]`, the first one for the pair (1,1); at most `nrvecs` runs), with the
allocations granted, and every record that is the last one of its triple `(r, alpha, beta)`
and whose R vector has the degeneracy factor 0, `main` returns 0, the parse pass prints
nothing on the error stream, and the datasets handed to the writer hold at the derived index
`r + num_wann*nrvecs*(alpha-1) + nrvecs*(beta-1)` the quotients `reAmplitude / 0` and
`imAmplitude / 0` as the division of `double` yields them. -/
theorem zero_degeneracy_divides {F : Type} (ops : DoubleOps F) (env : Env F)
    (prog path out f : List Char) (degLines : List (List Char)) (first : List Char)
    (body : List (List Char))
    (hfile : env.files path = some f) (hmalloc : ∀ n, env.mallocOk n = true)
    (hwf : WellFormedInput ops f degLines first body)
    (hfirst : alphaOf ops first = 1 ∧ betaOf ops first = 1)
    (hruns : (runCount ops first body : Int) ≤ headerNr f)
    (i : Nat) (hi : i < (first :: body).length)
    (hlast : ∀ j, i < j → j < (first :: body).length →
      ¬ ((runIndices ops first body).getD j 0 = (runIndices ops first body).getD i 0 ∧
        alphaOf ops ((first :: body).getD j []) = alphaOf ops ((first :: body).getD i []) ∧
        betaOf ops ((first :: body).getD j []) = betaOf ops ((first :: body).getD i [])))
    (hzero : (blockIntegers degLines)[(runIndices ops first body).getD i 0]? = some 0) :
    (main ops env [prog, path, out]).exit = some 0 ∧
    (∀ e ∈ (parsePass ops env f).log, e.isErr = false) ∧
    ∃ st, (main ops env [prog, path, out]).written =
        some (datasets (headerNw f) (headerNr f) st) ∧
      st.reH.read (hamIndex (headerNw f) (headerNr f) ((runIndices ops first body).getD i 0)
          (alphaOf ops ((first :: body).getD i []) - 1)
          (betaOf ops ((first :: body).getD i []) - 1)).toNat =
        some (ops.div (field ops ((first :: body).getD i []) 5) (ops.ofInt 0)) ∧
      st.imH.read (hamIndex (headerNw f) (headerNr f) ((runIndices ops first body).getD i 0)
          (alphaOf ops ((first :: body).getD i []) - 1)
          (betaOf ops ((first :: body).getD i []) - 1)).toNat =
        some (ops.div (field ops ((first :: body).getD i []) 6) (ops.ofInt 0)) := by
  have hin := handedOver_of_input ops f degLines first body hwf
  obtain ⟨st, hpass, _, s2, s3, _, c2, c3⟩ := pass_run ops env f (blockIntegers degLines) first
    body hmalloc hin hruns
  have hres : (parsePass ops env f).result = Parsed.done (headerNw f) (headerNr f) st := by
    rw [hpass]
  obtain ⟨m1, m2⟩ := main_of_done ops env prog path out f _ _ st hfile hres
  obtain ⟨_, _, hlt⟩ := record_index_lt ops (headerNw f) (headerNr f) first body hin.ham_fits
    hin.orbitals hruns i hi
  have hd : (tableOf (blockIntegers degLines)).cell ((runIndices ops first body).getD i 0) =
      0 := by
    show (blockIntegers degLines).getD _ 0 = 0
    rw [List.getD_eq_getElem?_getD, hzero]
    rfl
  refine ⟨m1, ?_, st, m2, ?_, ?_⟩
  · intro e he
    rw [hpass] at he
    simp only [List.mem_cons, List.mem_singleton, List.not_mem_nil, or_false] at he
    rcases he with h | h | h <;> rw [h] <;> rfl
  · rw [Buf.read_of_lt _ _ (by rw [s2]; exact hlt)]
    congr 1
    rw [← hd]
    exact last_record_cell ops (headerNw f) (headerNr f) (tableOf (blockIntegers degLines))
      first body 5 env.freshRe st.reH.cell hin.ham_fits hfirst hin.orbitals hruns c2 i hi hlast
  · rw [Buf.read_of_lt _ _ (by rw [s3]; exact hlt)]
    congr 1
    rw [← hd]
    exact last_record_cell ops (headerNw f) (headerNr f) (tableOf (blockIntegers degLines))
      first body 6 env.freshIm st.imH.cell hin.ham_fits hfirst hin.orbitals hruns c3 i hi hlast

/-- C11, amended, on the file with the degeneracy factor 0: `main` returns 0 and cell 0 of
`reH` and `imH` holds `1.0 / 0` and `0.0 / 0`. -/
theorem zero_degeneracy_divides_witness :
    (main fracOps (envOf ['i'] zeroDegFile ⟨9, 1⟩ 7) [['p'], ['i'], ['o']]).exit = some 0 ∧
    ∃ st, (main fracOps (envOf ['i'] zeroDegFile ⟨9, 1⟩ 7) [['p'], ['i'], ['o']]).written =
        some (datasets 1 1 st) ∧
      st.reH.read 0 = some ⟨1, 0⟩ ∧ st.imH.read 0 = some ⟨0, 0⟩ := by
  have e0 : headerNw zeroDegFile = 1 := by decide
  have e00 : headerNr zeroDegFile = 1 := by decide
  have hwf : WellFormedInput fracOps zeroDegFile [String.toList "0\n"] smallFirst [] :=
    ⟨by decide, by decide, by decide, by decide, by decide, by decide,
      by rw [e00]; exact (ceil_fifteenth_small 1 (by decide) (by decide)).symm,
      by decide, by decide, by decide⟩
  obtain ⟨h1, _, st, h2, h3, h4⟩ := zero_degeneracy_divides fracOps
    (envOf ['i'] zeroDegFile ⟨9, 1⟩ 7) ['p'] ['i'] ['o'] zeroDegFile [String.toList "0\n"]
    smallFirst [] (by decide) (fun _ => rfl) hwf (by decide) (by decide) 0 (by decide)
    (by intro j hj1 hj2; simp at hj2; omega) (by decide)
  have e1 : (hamIndex 1 1 ((runIndices fracOps smallFirst []).getD 0 0)
      (alphaOf fracOps ((smallFirst :: []).getD 0 []) - 1)
      (betaOf fracOps ((smallFirst :: []).getD 0 []) - 1)).toNat = 0 := by decide
  have e2 : fracOps.div (field fracOps ((smallFirst :: []).getD 0 []) 5) (fracOps.ofInt 0) =
      ⟨1, 0⟩ := by decide
  have e3 : fracOps.div (field fracOps ((smallFirst :: []).getD 0 []) 6) (fracOps.ofInt 0) =
      ⟨0, 0⟩ := by decide
  rw [e0, e00] at h2 h3 h4
  rw [e1, e2] at h3
  rw [e1, e3] at h4
  exact ⟨h1, st, h2, h3, h4⟩

/-- A builder that finishes met at most `nrvecs` runs: the triple of every run went into
`rvecs`, which has `3 * nrvecs` cells. -/
theorem builder_some_runs {F : Type} (ops : DoubleOps F) (num_wann nrvecs : Int)
    (deg : Buf Int) (first : List Char) (body : List (List Char)) (rvecs reH imH vals : Buf F)
    (st : Builder F) (hnr : 0 ≤ nrvecs) (hrv3 : 3 * nrvecs ≤ 2147483647)
    (hrvecs : rvecs.size = rvecsBytes nrvecs / 8) (hvals : vals.size = 7)
    (h7 : ∀ l ∈ first :: body, (tokens l).length = 7)
    (hb : builder ops num_wann nrvecs deg first body rvecs reH imH vals = some st) :
    (runCount ops first body : Int) ≤ nrvecs := by
  have hrvS : rvecs.size = (3 * nrvecs).toNat := by
    rw [hrvecs, rvecs_cells_exact nrvecs hnr hrv3]
  have hev := firstEntry_eval ops deg first rvecs reH imH vals (h7 first (by simp)) hvals
  unfold builder at hb
  by_cases hc : 3 ≤ rvecs.size ∧ 0 < deg.size ∧ 0 < reH.size ∧ 0 < imH.size
  · obtain ⟨st0, he, hinv, hs1, _⟩ := hev.1 hc
    clear hev
    rw [he] at hb
    obtain ⟨_, c2, c3, _⟩ := builderLoop_spec ops num_wann nrvecs deg body st0 st 0 first hinv
      (fun l hl => h7 l (by simp [hl])) (Or.inl (by rw [hs1, hrvS]; omega)) hb
    rw [c3, hs1, hrvS] at c2
    simp only [runCount, Nat.cast_add, Nat.cast_one]
    omega
  · rw [hev.2 hc] at hb
    simp at hb

/-- C12, as stated, fails: the run count is never compared with `nrvecs`.  On the file whose
header says `nrvecs = 2` and whose body has one run, `main` returns 0 with no message on the
error stream and writes `rvecs` with the three cells of the missing run as they were
obtained (here 9).  On the file whose header says `nrvecs = 1` and whose body has two runs,
the second triple is stored past the end of `rvecs`: the run has no defined exit status, and
nothing was reported either. -/
theorem run_count_mismatch_accepted :
    (headerNr oneRunFile = 2 ∧ runCount fracOps smallFirst [] = 1 ∧
      (main fracOps (envOf ['i'] oneRunFile ⟨9, 1⟩ 7) [['p'], ['i'], ['o']]).exit = some 0 ∧
      (main fracOps (envOf ['i'] oneRunFile ⟨9, 1⟩ 7) [['p'], ['i'], ['o']]).written.map
        (fun d => d.rvecs) = some [⟨0, 1⟩, ⟨0, 1⟩, ⟨0, 1⟩, ⟨9, 1⟩, ⟨9, 1⟩, ⟨9, 1⟩] ∧
      (main fracOps (envOf ['i'] oneRunFile ⟨9, 1⟩ 7) [['p'], ['i'], ['o']]).log.all
        (fun e => !e.isErr) = true) ∧
    (headerNr twoRunFile = 1 ∧ runCount fracOps smallFirst [secondRun] = 2 ∧
      (main fracOps (envOf ['i'] twoRunFile ⟨9, 1⟩ 7) [['p'], ['i'], ['o']]).exit = none ∧
      (main fracOps (envOf ['i'] twoRunFile ⟨9, 1⟩ 7) [['p'], ['i'], ['o']]).log.all
        (fun e => !e.isErr) = true) := by
  decide

/-- C12, amended to what the code does: the number of runs is not checked against `nrvecs`.
For every HR file of the standard layout (`num_wann > 0`; `nrvecs > 0` and not a multiple of
15; `num_wann * num_wann * nrvecs` and `3 * nrvecs` inside `int`; a degeneracy block of
`ceil(nrvecs / 15)` lines holding `nrvecs` integers in all; seven-field records with orbital
fields in `[1, num_wann]`), with every allocation granted:
when the body has fewer runs than `nrvecs`, `main` returns 0, the parse pass prints nothing
on the error stream, the arrays are handed to the writer, and the cells of `rvecs` after
those of the runs met hold what the block held when it was obtained; when the body has more
runs than `nrvecs`, the builder makes a store outside `rvecs`, after which the run has no
defined behaviour, and nothing was reported before. -/
theorem run_count_not_checked {F : Type} (ops : DoubleOps F) (env : Env F)
    (prog path out f : List Char) (degLines : List (List Char)) (first : List Char)
    (body : List (List Char))
    (hfile : env.files path = some f) (hmalloc : ∀ n, env.mallocOk n = true)
    (hwf : WellFormedInput ops f degLines first body) :
    ((runCount ops first body : Int) < headerNr f →
      (main ops env [prog, path, out]).exit = some 0 ∧
      (∀ e ∈ (parsePass ops env f).log, e.isErr = false) ∧
      ∃ st, (parsePass ops env f).result = Parsed.done (headerNw f) (headerNr f) st ∧
        (main ops env [prog, path, out]).written =
          some (datasets (headerNw f) (headerNr f) st) ∧
        ∀ j, 3 * runCount ops first body ≤ j → st.rvecs.cell j = env.freshRvecs j) ∧
    (headerNr f < (runCount ops first body : Int) →
      (parsePass ops env f).result = Parsed.fault ∧
      (∀ e ∈ (parsePass ops env f).log, e.isErr = false) ∧
      (main ops env [prog, path, out]).exit = none ∧
      (main ops env [prog, path, out]).written = none) := by
  have hin := handedOver_of_input ops f degLines first body hwf
  have hnr := hin.nr_pos
  have htab := hin.table
  constructor
  · intro hlt
    obtain ⟨st, hpass, _, _, _, c1, _, _⟩ := pass_run ops env f (blockIntegers degLines) first body hmalloc
      hin
      (le_of_lt hlt)
    have hres : (parsePass ops env f).result = Parsed.done (headerNw f) (headerNr f) st := by
      rw [hpass]
    obtain ⟨m1, m2⟩ := main_of_done ops env prog path out f _ _ st hfile hres
    refine ⟨m1, ?_, st, hres, m2, ?_⟩
    · intro e he
      rw [hpass] at he
      simp only [List.mem_cons, List.mem_singleton, List.not_mem_nil, or_false] at he
      rcases he with h | h | h <;> rw [h] <;> rfl
    · intro j hj
      rw [c1 j, List.getD_eq_getElem?_getD, List.getElem?_eq_none]
      · rfl
      · rw [flatMap_tripleCells_length]
        simp only [runCount, List.length_cons] at hj ⊢
        omega
  · intro hgt
    have hint : headerNr f ≤ 2147483647 := by have := hin.rvecs_fits; omega
    have hdegN : degBytes (headerNr f) / 4 = (headerNr f).toNat :=
      deg_cells_exact _ (le_of_lt hnr) hint
    have hfit : (blockIntegers degLines).length ≤ degBytes (headerNr f) / 4 := by rw [hdegN]; omega
    have hb : builder ops (headerNw f) (headerNr f)
        ⟨degBytes (headerNr f) / 4, fun i => (blockIntegers degLines).getD i (env.freshDeg i)⟩ first body
        ⟨rvecsBytes (headerNr f) / 8, env.freshRvecs⟩
        ⟨n_bytes_ham (headerNw f) (headerNr f) / 8, env.freshRe⟩
        ⟨n_bytes_ham (headerNw f) (headerNr f) / 8, env.freshIm⟩ ⟨7, env.freshVals⟩ = none := by
      cases hb : builder ops (headerNw f) (headerNr f)
        ⟨degBytes (headerNr f) / 4, fun i => (blockIntegers degLines).getD i (env.freshDeg i)⟩ first body
        ⟨rvecsBytes (headerNr f) / 8, env.freshRvecs⟩
        ⟨n_bytes_ham (headerNw f) (headerNr f) / 8, env.freshRe⟩
        ⟨n_bytes_ham (headerNw f) (headerNr f) / 8, env.freshIm⟩ ⟨7, env.freshVals⟩ with
      | none => rfl
      | some st =>
        have := builder_some_runs ops _ _ _ first body _ _ _ _ st (le_of_lt hnr) hin.rvecs_fits
          rfl rfl hin.seven hb
        omega
    have hpass : parsePass ops env f =
        ⟨[Event.out "--- Number of wannier orbitals: %i \n",
          Event.out "--- Number of R vectors       : %i \n",
          Event.out "--- Size of the model data in memory: %lu bytes \n"], Parsed.fault⟩ := by
      rw [parsePass_of_input ops env f (blockIntegers degLines) first body hin,
        fillArrays_fault ops env _ _ (blockIntegers degLines) first body hmalloc hfit hb]
      rfl
    have hres : (parsePass ops env f).result = Parsed.fault := by rw [hpass]
    obtain ⟨m1, m2⟩ := main_of_fault ops env prog path out f hfile hres
    refine ⟨hres, ?_, m1, m2⟩
    intro e he
    rw [hpass] at he
    simp only [List.mem_cons, List.mem_singleton, List.not_mem_nil, or_false] at he
    rcases he with h | h | h <;> rw [h] <;> rfl

/-- C12, amended, on the two files: the one with a run too few is converted with status 0,
the one with a run too many leaves defined behaviour. -/
theorem run_count_not_checked_witness :
    (main fracOps (envOf ['i'] oneRunFile ⟨9, 1⟩ 7) [['p'], ['i'], ['o']]).exit = some 0 ∧
    (main fracOps (envOf ['i'] twoRunFile ⟨9, 1⟩ 7) [['p'], ['i'], ['o']]).exit = none :=
  ⟨((run_count_not_checked fracOps (envOf ['i'] oneRunFile ⟨9, 1⟩ 7) ['p'] ['i'] ['o']
      oneRunFile [String.toList "1 1\n"] smallFirst [] (by decide) (fun _ => rfl)
      ⟨by decide, by decide, by decide, by decide, by decide, by decide,
        by
          rw [show headerNr oneRunFile = 2 from by decide]
          exact (ceil_fifteenth_small 2 (by decide) (by decide)).symm,
        by decide, by decide, by decide⟩).1 (by decide)).1,
   ((run_count_not_checked fracOps (envOf ['i'] twoRunFile ⟨9, 1⟩ 7) ['p'] ['i'] ['o']
      twoRunFile [String.toList "1\n"] smallFirst [secondRun] (by decide) (fun _ => rfl)
      ⟨by decide, by decide, by decide, by decide, by decide, by decide,
        by
          rw [show headerNr twoRunFile = 1 from by decide]
          exact (ceil_fifteenth_small 1 (by decide) (by decide)).symm,
        by decide, by decide, by decide⟩).2 (by decide)).2.2.1⟩

/-! ## Full population -/

/-- Every position below `num_wann * num_wann * nrvecs` is the derived index of a triple
in range. -/
theorem hamIndex_onto (num_wann nrvecs : Int) (hnw : 0 < num_wann) (hnr : 0 < nrvecs)
    (n : Int) (h0 : 0 ≤ n) (hlt : n < num_wann * num_wann * nrvecs) :
    ∃ (r : Nat) (alpha beta : Int),
      (r : Int) < nrvecs ∧ 0 ≤ alpha ∧ alpha < num_wann ∧ 0 ≤ beta ∧ beta < num_wann ∧
      hamIndex num_wann nrvecs r alpha beta = n := by
  have hr0 : 0 ≤ n % nrvecs := Int.emod_nonneg n (ne_of_gt hnr)
  have hq0 : 0 ≤ n / nrvecs := Int.ediv_nonneg h0 (le_of_lt hnr)
  have hql : n / nrvecs < num_wann * num_wann := Int.ediv_lt_of_lt_mul hnr hlt
  refine ⟨(n % nrvecs).toNat, n / nrvecs / num_wann, n / nrvecs % num_wann, ?_,
    Int.ediv_nonneg hq0 (le_of_lt hnw), Int.ediv_lt_of_lt_mul hnw hql,
    Int.emod_nonneg _ (ne_of_gt hnw), Int.emod_lt_of_pos _ hnw, ?_⟩
  · rw [Int.toNat_of_nonneg hr0]
    exact Int.emod_lt_of_pos n hnr
  · rw [hamIndex_nested, Int.toNat_of_nonneg hr0, Int.emod_add_ediv, Int.emod_add_ediv]

/-- A slot that some store of the sequence went to holds the value of a store. -/
theorem lastWrite_isSome {F : Type} (s : Nat) :
    ∀ (ws : List (Nat × F)) (n : Nat) (w : Nat × F), ws[n]? = some w → w.1 = s →
      ∃ v, lastWrite ws s = some v := by
  intro ws
  induction ws with
  | nil => intro n w h; simp at h
  | cons a t ih =>
    intro n w h hw
    cases hl : lastWrite t s with
    | some x => exact ⟨x, by simp only [lastWrite, hl]⟩
    | none =>
      cases n with
      | zero =>
        simp only [List.getElem?_cons_zero, Option.some.injEq] at h
        subst h
        exact ⟨a.2, by simp only [lastWrite, hl, hw, if_true]⟩
      | succ m =>
        simp only [List.getElem?_cons_succ] at h
        obtain ⟨v, hv⟩ := ih m w h hw
        rw [hl] at hv
        simp at hv

/-- The value found in a slot was put there by a store of the sequence. -/
theorem lastWrite_mem {F : Type} (s : Nat) (v : F) :
    ∀ ws : List (Nat × F), lastWrite ws s = some v → ∃ n : Nat, ws[n]? = some (s, v) := by
  intro ws
  induction ws with
  | nil => intro h; simp [lastWrite] at h
  | cons a t ih =>
    intro h
    cases hl : lastWrite t s with
    | some x =>
      simp only [lastWrite, hl, Option.some.injEq] at h
      subst h
      obtain ⟨n, hn⟩ := ih hl
      exact ⟨n + 1, by simpa using hn⟩
    | none =>
      simp only [lastWrite, hl] at h
      by_cases ha : a.1 = s
      · rw [if_pos ha] at h
        simp only [Option.some.injEq] at h
        refine ⟨0, ?_⟩
        simp only [List.getElem?_cons_zero, Option.some.injEq]
        exact Prod.ext ha h
      · rw [if_neg ha] at h
        simp at h

/-- When every orbital pair of every R vector has a record and the first record is the one
for the pair (1,1), every cell of `reH` (`k = 5`) or `imH` (`k = 6`) below
`num_wann * num_wann * nrvecs` other than cell 0 is the target of a store of the loop. -/
theorem slot_written {F : Type} (ops : DoubleOps F) (num_wann nrvecs : Int) (deg : Buf Int)
    (first : List Char) (body : List (List Char)) (k : Nat)
    (hnw : 0 < num_wann) (hnr : 0 < nrvecs)
    (hham : num_wann * num_wann * nrvecs ≤ 2147483647)
    (hfirst : alphaOf ops first = 1 ∧ betaOf ops first = 1)
    (hrange : ∀ l ∈ first :: body, 1 ≤ alphaOf ops l ∧ alphaOf ops l ≤ num_wann ∧
      1 ≤ betaOf ops l ∧ betaOf ops l ≤ num_wann)
    (hruns : (runCount ops first body : Int) ≤ nrvecs)
    (hcov : Covers ops num_wann nrvecs first body)
    (s : Nat) (hs : s < (num_wann * num_wann * nrvecs).toNat) (hne : s ≠ 0) :
    ∃ v, lastWrite (writesFrom ops num_wann nrvecs deg k 0 first body) s = some v := by
  have hsi : (s : Int) < num_wann * num_wann * nrvecs := by omega
  obtain ⟨r, a, b, hr, ha0, hal, hb0, hbl, hab⟩ :=
    hamIndex_onto num_wann nrvecs hnw hnr (s : Int) (by omega) hsi
  obtain ⟨i, hi, hrun, hai, hbi⟩ := hcov r (a + 1) (b + 1) hr (by omega) (by omega)
    (by omega) (by omega)
  obtain ⟨_, e1, _⟩ := record_index_lt ops num_wann nrvecs first body hham hrange hruns i hi
  rw [hrun, hai, hbi, add_sub_cancel_right, add_sub_cancel_right, hab] at e1
  cases i with
  | zero =>
    simp only [runIndices, List.getD_cons_zero] at hrun hai hbi
    have ha : a = 0 := by have := hfirst.1; omega
    have hb : b = 0 := by have := hfirst.2; omega
    rw [← hrun, ha, hb] at hab
    simp [hamIndex] at hab
    omega
  | succ n =>
    have hnl : n < body.length := by simp only [List.length_cons] at hi; omega
    have hw := writesFrom_getElem ops num_wann nrvecs deg k body 0 first n hnl
    simp only [runIndices, List.getD_cons_succ] at hrun e1
    rw [hrun, e1] at hw
    exact lastWrite_isSome s _ n _ hw (by simp)

/-- Under the same conditions the final value of every cell below
`num_wann * num_wann * nrvecs` comes from a record whose derived index the cell is: it does
not depend on what the cell held before (`d`). -/
theorem cell_written {F : Type} (ops : DoubleOps F) (num_wann nrvecs : Int) (deg : Buf Int)
    (first : List Char) (body : List (List Char)) (k : Nat)
    (hnw : 0 < num_wann) (hnr : 0 < nrvecs)
    (hham : num_wann * num_wann * nrvecs ≤ 2147483647)
    (hfirst : alphaOf ops first = 1 ∧ betaOf ops first = 1)
    (hrange : ∀ l ∈ first :: body, 1 ≤ alphaOf ops l ∧ alphaOf ops l ≤ num_wann ∧
      1 ≤ betaOf ops l ∧ betaOf ops l ≤ num_wann)
    (hruns : (runCount ops first body : Int) ≤ nrvecs)
    (hcov : Covers ops num_wann nrvecs first body)
    (s : Nat) (hs : s < (num_wann * num_wann * nrvecs).toNat) (d : F) :
    ∃ i, i < (first :: body).length ∧
      (hamIndex num_wann nrvecs ((runIndices ops first body).getD i 0)
        (alphaOf ops ((first :: body).getD i []) - 1)
        (betaOf ops ((first :: body).getD i []) - 1)).toNat = s ∧
      (lastWrite (writesFrom ops num_wann nrvecs deg k 0 first body) s).getD
          (if s = 0 then ops.div (field ops first k) (ops.ofInt (deg.cell 0)) else d) =
        ops.div (field ops ((first :: body).getD i []) k)
          (ops.ofInt (deg.cell ((runIndices ops first body).getD i 0))) := by
  have hzero : (hamIndex num_wann nrvecs 0 (1 - 1) (1 - 1)).toNat = 0 := by
    simp [hamIndex]
  cases hl : lastWrite (writesFrom ops num_wann nrvecs deg k 0 first body) s with
  | some v =>
    obtain ⟨n, hn⟩ := lastWrite_mem s v _ hl
    have hnl : n < body.length := by
      have h1 : n < (writesFrom ops num_wann nrvecs deg k 0 first body).length := by
        by_contra hc
        rw [List.getElem?_eq_none (by omega)] at hn
        simp at hn
      rwa [writesFrom_length] at h1
    rw [writesFrom_getElem ops num_wann nrvecs deg k body 0 first n hnl] at hn
    simp only [Option.some.injEq, Prod.mk.injEq] at hn
    obtain ⟨_, e1, _⟩ := record_index_lt ops num_wann nrvecs first body hham hrange hruns
      (n + 1) (by simp only [List.length_cons]; omega)
    simp only [runIndices, List.getD_cons_succ] at e1
    refine ⟨n + 1, by simp only [List.length_cons]; omega, ?_, ?_⟩
    · simp only [runIndices, List.getD_cons_succ]
      rw [← e1]
      exact hn.1
    · simp only [runIndices, List.getD_cons_succ, Option.getD_some]
      exact hn.2.symm
  | none =>
    have hs0 : s = 0 := by
      by_contra hne
      obtain ⟨v, hv⟩ := slot_written ops num_wann nrvecs deg first body k hnw hnr hham hfirst
        hrange hruns hcov s hs hne
      rw [hl] at hv
      simp at hv
    subst hs0
    refine ⟨0, by simp, ?_, ?_⟩
    · simp only [runIndices, List.getD_cons_zero, hfirst.1, hfirst.2]
      exact hzero
    · simp only [runIndices, List.getD_cons_zero, Option.getD_none, if_true]

/-- Under the same conditions the final value of a cell is the same whatever the cell held
before. -/
theorem cell_fresh_irrelevant {F : Type} (ops : DoubleOps F) (num_wann nrvecs : Int)
    (deg : Buf Int) (first : List Char) (body : List (List Char)) (k : Nat)
    (hnw : 0 < num_wann) (hnr : 0 < nrvecs)
    (hham : num_wann * num_wann * nrvecs ≤ 2147483647)
    (hfirst : alphaOf ops first = 1 ∧ betaOf ops first = 1)
    (hrange : ∀ l ∈ first :: body, 1 ≤ alphaOf ops l ∧ alphaOf ops l ≤ num_wann ∧
      1 ≤ betaOf ops l ∧ betaOf ops l ≤ num_wann)
    (hruns : (runCount ops first body : Int) ≤ nrvecs)
    (hcov : Covers ops num_wann nrvecs first body)
    (s : Nat) (hs : s < (num_wann * num_wann * nrvecs).toNat) (v d d1 : F) :
    (lastWrite (writesFrom ops num_wann nrvecs deg k 0 first body) s).getD
        (if s = 0 then v else d) =
      (lastWrite (writesFrom ops num_wann nrvecs deg k 0 first body) s).getD
        (if s = 0 then v else d1) := by
  by_cases h0 : s = 0
  · rw [if_pos h0, if_pos h0]
  · obtain ⟨x, hx⟩ := slot_written ops num_wann nrvecs deg first body k hnw hnr hham hfirst
      hrange hruns hcov s hs h0
    rw [hx]
    rfl

/-- Blocks of the same size whose cells agree have the same contents. -/
theorem Buf.toList_congr {α : Type} (b b1 : Buf α) (hsize : b.size = b1.size)
    (hcell : ∀ s, s < b.size → b.cell s = b1.cell s) : b.toList = b1.toList := by
  unfold Buf.toList
  rw [← hsize]
  apply List.map_congr_left
  intro s hs
  exact hcell s (List.mem_range.1 hs)

/-- The dimension `nrvecs * 3` of the dataset `/rvecs` when the `int` product is in range. -/
theorem rvecs_dims_exact (nrvecs : Int) (hnr : 0 ≤ nrvecs) (hrv : 3 * nrvecs ≤ 2147483647) :
    wrapUInt64 (wrapInt32 (nrvecs * 3)) = (3 * nrvecs).toNat := by
  rw [wrapInt32_of_range _ (by omega) (by omega)]
  unfold wrapUInt64
  rw [Int.emod_eq_of_lt (by omega) (by omega), mul_comm]

/-! ## Two runs on the same input -/

/-- C13, as stated, fails: on the file with two orbitals and one R vector that lists the
pair (1,1) only, the cells 1 to 3 of `reH` are never stored to, and the dataset written
holds there what the block held when it was obtained: 9 in one run, 8 in another. -/
theorem conversion_depends_on_fresh_storage :
    (main fracOps (envOf ['i'] sparseFile ⟨9, 1⟩ 7) [['p'], ['i'], ['o']]).written.map
      (fun d => d.reH) = some [⟨1, 1⟩, ⟨9, 1⟩, ⟨9, 1⟩, ⟨9, 1⟩] ∧
    (main fracOps (envOf ['i'] sparseFile ⟨8, 1⟩ 7) [['p'], ['i'], ['o']]).written.map
      (fun d => d.reH) = some [⟨1, 1⟩, ⟨8, 1⟩, ⟨8, 1⟩, ⟨8, 1⟩] := by
  decide

/-- C13, amended by the conditions of full population: for every HR file of the standard
layout (`num_wann > 0`; `nrvecs > 0` and not a multiple of 15; `num_wann * num_wann * nrvecs`
and `3 * nrvecs` inside `int`; a degeneracy block of `ceil(nrvecs / 15)` lines holding
`nrvecs` integers in all; seven-field records with orbital fields in `[1, num_wann]`) whose
body has exactly `nrvecs` runs, starts with the record for
the pair (1,1) and has a record for every orbital pair of every run, two runs of the parse
pass in environments that grant the allocations end normally with the same contents of
`reH`, `imH` and `rvecs`, and `main` hands the same datasets to the writer, whatever the
storage obtained in either run held before. -/
theorem conversion_idempotent {F : Type} (ops : DoubleOps F) (env1 env2 : Env F)
    (prog path out f : List Char) (degLines : List (List Char)) (first : List Char)
    (body : List (List Char))
    (hfile1 : env1.files path = some f) (hfile2 : env2.files path = some f)
    (hmalloc1 : ∀ n, env1.mallocOk n = true) (hmalloc2 : ∀ n, env2.mallocOk n = true)
    (hwf : WellFormedInput ops f degLines first body)
    (hfirst : alphaOf ops first = 1 ∧ betaOf ops first = 1)
    (hruns : (runCount ops first body : Int) = headerNr f)
    (hcov : Covers ops (headerNw f) (headerNr f) first body) :
    ∃ st1 st2,
      (parsePass ops env1 f).result = Parsed.done (headerNw f) (headerNr f) st1 ∧
      (parsePass ops env2 f).result = Parsed.done (headerNw f) (headerNr f) st2 ∧
      st1.reH.toList = st2.reH.toList ∧ st1.imH.toList = st2.imH.toList ∧
      st1.rvecs.toList = st2.rvecs.toList ∧
      (main ops env1 [prog, path, out]).written =
        some (datasets (headerNw f) (headerNr f) st1) ∧
      (main ops env1 [prog, path, out]).written = (main ops env2 [prog, path, out]).written := by
  have hin := handedOver_of_input ops f degLines first body hwf
  have hle : (runCount ops first body : Int) ≤ headerNr f := le_of_eq hruns
  obtain ⟨st1, hp1, r1, a1, b1, c1, d1, e1⟩ := pass_run ops env1 f (blockIntegers degLines) first
    body hmalloc1
    hin hle
  obtain ⟨st2, hp2, r2, a2, b2, c2, d2, e2⟩ := pass_run ops env2 f (blockIntegers degLines) first
    body hmalloc2
    hin hle
  have hres1 : (parsePass ops env1 f).result = Parsed.done (headerNw f) (headerNr f) st1 := by
    rw [hp1]
  have hres2 : (parsePass ops env2 f).result = Parsed.done (headerNw f) (headerNr f) st2 := by
    rw [hp2]
  have hre : ∀ s, s < (headerNw f * headerNw f * headerNr f).toNat →
      st1.reH.cell s = st2.reH.cell s := by
    intro s hs
    rw [d1 s, d2 s]
    exact cell_fresh_irrelevant ops _ _ _ first body 5 hin.nw_pos hin.nr_pos hin.ham_fits
      hfirst hin.orbitals hle hcov s hs _ _ _
  have him : ∀ s, s < (headerNw f * headerNw f * headerNr f).toNat →
      st1.imH.cell s = st2.imH.cell s := by
    intro s hs
    rw [e1 s, e2 s]
    exact cell_fresh_irrelevant ops _ _ _ first body 6 hin.nw_pos hin.nr_pos hin.ham_fits
      hfirst hin.orbitals hle hcov s hs _ _ _
  have hlen : ((first :: runHeads ops first body).flatMap (tripleCells ops)).length =
      (3 * headerNr f).toNat := by
    rw [flatMap_tripleCells_length]
    simp only [runCount, Nat.cast_add, Nat.cast_one] at hruns
    simp only [List.length_cons]
    omega
  have hrv : ∀ j, j < (3 * headerNr f).toNat → st1.rvecs.cell j = st2.rvecs.cell j := by
    intro j hj
    rw [c1 j, c2 j, List.getD_eq_getElem _ _ (by rw [hlen]; exact hj),
      List.getD_eq_getElem _ _ (by rw [hlen]; exact hj)]
  have hN := (ham_cells_exact (headerNw f) (headerNr f) hin.nw_pos hin.nr_pos hin.ham_fits).1
  have hR := rvecs_dims_exact (headerNr f) (le_of_lt hin.nr_pos) hin.rvecs_fits
  have hdata : datasets (headerNw f) (headerNr f) st1 = datasets (headerNw f) (headerNr f) st2 := by
    unfold datasets
    rw [Buf.toList_congr ⟨n_doubles_ham (headerNw f) (headerNr f), st1.reH.cell⟩
        ⟨n_doubles_ham (headerNw f) (headerNr f), st2.reH.cell⟩ rfl
        (fun s hs => hre s (by rw [← hN]; exact hs)),
      Buf.toList_congr ⟨n_doubles_ham (headerNw f) (headerNr f), st1.imH.cell⟩
        ⟨n_doubles_ham (headerNw f) (headerNr f), st2.imH.cell⟩ rfl
        (fun s hs => him s (by rw [← hN]; exact hs)),
      Buf.toList_congr ⟨wrapUInt64 (wrapInt32 (headerNr f * 3)), st1.rvecs.cell⟩
        ⟨wrapUInt64 (wrapInt32 (headerNr f * 3)), st2.rvecs.cell⟩ rfl
        (fun s hs => hrv s (by rw [← hR]; exact hs))]
  obtain ⟨_, m1⟩ := main_of_done ops env1 prog path out f _ _ st1 hfile1 hres1
  obtain ⟨_, m2⟩ := main_of_done ops env2 prog path out f _ _ st2 hfile2 hres2
  refine ⟨st1, st2, hres1, hres2,
    Buf.toList_congr _ _ (by rw [a1, a2]) (fun s hs => hre s (by rw [← a1]; exact hs)),
    Buf.toList_congr _ _ (by rw [b1, b2]) (fun s hs => him s (by rw [← b1]; exact hs)),
    Buf.toList_congr _ _ (by rw [r1, r2]) (fun s hs => hrv s (by rw [← r1]; exact hs)),
    m1, ?_⟩
  rw [m1, m2, hdata]

/-- The four records of the two-orbital scenario cover both orbitals of its one R vector. -/
theorem twoOrbital_covers : Covers fracOps 2 1 twoOrbitalFirst twoOrbitalRest := by
  intro r alpha beta hr ha1 ha2 hb1 hb2
  have hr0 : r = 0 := by omega
  subst hr0
  interval_cases alpha <;> interval_cases beta
  · exact ⟨0, by decide, by decide, by decide, by decide⟩
  · exact ⟨1, by decide, by decide, by decide, by decide⟩
  · exact ⟨2, by decide, by decide, by decide, by decide⟩
  · exact ⟨3, by decide, by decide, by decide, by decide⟩

/-- C13, amended, on the file of the two-orbital scenario: a run whose storage held 9
(7 in `degeneracy_facts`) and a run whose storage held 8 (3 in `degeneracy_facts`) write the
same datasets. -/
theorem conversion_idempotent_witness :
    (main fracOps (envOf ['i'] twoOrbitalFile ⟨9, 1⟩ 7) [['p'], ['i'], ['o']]).written =
      (main fracOps (envOf ['i'] twoOrbitalFile ⟨8, 1⟩ 3) [['p'], ['i'], ['o']]).written := by
  have e0 : headerNw twoOrbitalFile = 2 := by decide
  have e1 : headerNr twoOrbitalFile = 1 := by decide
  have hin : WellFormedInput fracOps twoOrbitalFile [String.toList "1\n"] twoOrbitalFirst
      twoOrbitalRest :=
    ⟨by decide, by decide, by decide, by decide, by decide, by decide,
      by rw [e1]; exact (ceil_fifteenth_small 1 (by decide) (by decide)).symm,
      by decide, by decide, by decide⟩
  obtain ⟨_, _, _, _, _, _, _, _, h⟩ := conversion_idempotent fracOps
    (envOf ['i'] twoOrbitalFile ⟨9, 1⟩ 7) (envOf ['i'] twoOrbitalFile ⟨8, 1⟩ 3) ['p'] ['i'] ['o']
    twoOrbitalFile [String.toList "1\n"] twoOrbitalFirst twoOrbitalRest (by decide) (by decide)
    (fun _ => rfl)
    (fun _ => rfl) hin (by decide) (by decide) (by rw [e0, e1]; exact twoOrbital_covers)
  exact h

/-! ## Where the first record goes -/

/-- C14, as stated, fails for a first record that is not the one of the orbital pair (1,1).
With `num_wann = 2`, `nrvecs = 1` and the first record `0 0 0 1 2 5.0 0.0` the derived index
is `0 + 2*1*0 + 1*1 = 1`, but the first data entry puts the amplitude into cell 0: after it
`reH[1]` still holds what the block held before (9) and `reH[0]` holds 5.  With
`num_wann = 1` and `nrvecs = 1431655766` the `int` product `nrvecs * 3` wraps to 2 and the
first data entry already stores outside `rvecs`. -/
theorem first_record_misses_derived_index :
    (alphaOf fracOps offDiagonalFirst = 1 ∧ betaOf fracOps offDiagonalFirst = 2 ∧
      (hamIndex 2 1 0 (1 - 1) (2 - 1)).toNat = 1 ∧
      (firstEntry fracOps ⟨degBytes 1 / 4, fun _ => 1⟩ offDiagonalFirst
          (junkBuf (rvecsBytes 1 / 8)) (junkBuf (n_bytes_ham 2 1 / 8))
          (junkBuf (n_bytes_ham 2 1 / 8)) (junkBuf 7)).map
        (fun st => (st.reH.read 1, st.reH.read 0)) = some (some ⟨9, 1⟩, some ⟨5, 1⟩)) ∧
    (firstEntry fracOps ⟨degBytes 1431655766 / 4, fun _ => 1⟩ smallFirst
        (junkBuf (rvecsBytes 1431655766 / 8)) (junkBuf (n_bytes_ham 1 1431655766 / 8))
        (junkBuf (n_bytes_ham 1 1431655766 / 8)) (junkBuf 7)).isNone = true := by
  decide

/-- C14, amended to what the code does: the first record goes to cell 0.  For
`num_wann > 0`, `nrvecs > 0` with `num_wann * num_wann * nrvecs ≤ 2^31 - 1` and
`3 * nrvecs ≤ 2^31 - 1`, the blocks obtained for these sizes, and a first record of seven
fields with `alpha, beta` in `[1, num_wann]`: after the first data entry `rvecs[0..2]` is
`(n1, n2, n3)`, `reH[0]` is `re / degeneracy[0]` and `imH[0]` is `im / degeneracy[0]`, every
other cell of `reH` and `imH` is as before, and cell 0 is the derived index
`0 + num_wann*nrvecs*(alpha-1) + nrvecs*(beta-1)` exactly when `alpha = beta = 1`. -/
theorem first_record_goes_to_cell_zero {F : Type} (ops : DoubleOps F) (num_wann nrvecs : Int)
    (deg : Buf Int) (first : List Char) (rvecs reH imH vals : Buf F)
    (hnw : 0 < num_wann) (hnr : 0 < nrvecs)
    (hham : num_wann * num_wann * nrvecs ≤ 2147483647) (hrv3 : 3 * nrvecs ≤ 2147483647)
    (hdeg : deg.size = degBytes nrvecs / 4) (hrvecs : rvecs.size = rvecsBytes nrvecs / 8)
    (hre : reH.size = n_bytes_ham num_wann nrvecs / 8)
    (him : imH.size = n_bytes_ham num_wann nrvecs / 8) (hvals : vals.size = 7)
    (h7 : (tokens first).length = 7)
    (ha : 1 ≤ alphaOf ops first ∧ alphaOf ops first ≤ num_wann)
    (hb : 1 ≤ betaOf ops first ∧ betaOf ops first ≤ num_wann) :
    ∃ st, firstEntry ops deg first rvecs reH imH vals = some st ∧
      st.rvecs.read 0 = some (field ops first 0) ∧
      st.rvecs.read 1 = some (field ops first 1) ∧
      st.rvecs.read 2 = some (field ops first 2) ∧
      st.reH.read 0 = some (ops.div (field ops first 5) (ops.ofInt (deg.cell 0))) ∧
      st.imH.read 0 = some (ops.div (field ops first 6) (ops.ofInt (deg.cell 0))) ∧
      (∀ s, s ≠ 0 → st.reH.cell s = reH.cell s ∧ st.imH.cell s = imH.cell s) ∧
      ((hamIndex num_wann nrvecs 0 (alphaOf ops first - 1) (betaOf ops first - 1)).toNat = 0 ↔
        alphaOf ops first = 1 ∧ betaOf ops first = 1) := by
  have hP : 0 < num_wann * num_wann * nrvecs := mul_pos (mul_pos hnw hnw) hnr
  have hint : nrvecs ≤ 2147483647 := by omega
  have hdegS : deg.size = nrvecs.toNat := by
    rw [hdeg, deg_cells_exact nrvecs (le_of_lt hnr) hint]
  have hrvS : rvecs.size = (3 * nrvecs).toNat := by
    rw [hrvecs, rvecs_cells_exact nrvecs (le_of_lt hnr) hrv3]
  have hreS : reH.size = (num_wann * num_wann * nrvecs).toNat := by
    rw [hre, (ham_cells_exact num_wann nrvecs hnw hnr hham).2]
  have himS : imH.size = (num_wann * num_wann * nrvecs).toNat := by
    rw [him, (ham_cells_exact num_wann nrvecs hnw hnr hham).2]
  obtain ⟨st, he, _, hs1, hs2, hs3, hc0rv, hc0re, hc0im⟩ :=
    (firstEntry_eval ops deg first rvecs reH imH vals h7 hvals).1
      ⟨by omega, by omega, by rw [hreS]; omega, by rw [himS]; omega⟩
  refine ⟨st, he, ?_, ?_, ?_, ?_, ?_, ?_, ?_⟩
  · rw [Buf.read_of_lt _ _ (by rw [hs1, hrvS]; omega), hc0rv 0]
    rfl
  · rw [Buf.read_of_lt _ _ (by rw [hs1, hrvS]; omega), hc0rv 1]
    rfl
  · rw [Buf.read_of_lt _ _ (by rw [hs1, hrvS]; omega), hc0rv 2]
    rfl
  · rw [Buf.read_of_lt _ _ (by rw [hs2, hreS]; omega), hc0re 0, if_pos rfl]
  · rw [Buf.read_of_lt _ _ (by rw [hs3, himS]; omega), hc0im 0, if_pos rfl]
  · intro s hs
    rw [hc0re s, hc0im s, if_neg hs, if_neg hs]
    exact ⟨rfl, rfl⟩
  · have hrange := hamIndex_range num_wann nrvecs 0 (alphaOf ops first - 1)
      (betaOf ops first - 1) (by simpa using hnr) (by omega) (by omega) (by omega) (by omega)
    have hz : hamIndex num_wann nrvecs 0 0 0 = 0 := by simp [hamIndex]
    constructor
    · intro h0
      have h1 : hamIndex num_wann nrvecs 0 (alphaOf ops first - 1) (betaOf ops first - 1) =
          hamIndex num_wann nrvecs 0 0 0 := by
        rw [hz]
        omega
      have := hamIndex_injective num_wann nrvecs 0 0 _ _ _ _ (by simpa using hnr) (by omega)
        (by omega) (by simpa using hnr) (le_refl 0) hnw h1
      omega
    · rintro ⟨e1, e2⟩
      rw [e1, e2, sub_self, hz]
      rfl

/-- C14, amended, on the first record for the pair (1,2): its amplitude 5 is in `reH[0]`. -/
theorem first_record_goes_to_cell_zero_witness :
    ∃ st, firstEntry fracOps smallDeg offDiagonalFirst (junkBuf 6) (junkBuf 8) (junkBuf 8)
        (junkBuf 7) = some st ∧ st.reH.read 0 = some ⟨5, 1⟩ := by
  obtain ⟨st, h1, _, _, _, h5, _⟩ := first_record_goes_to_cell_zero fracOps 2 2 smallDeg
    offDiagonalFirst (junkBuf 6) (junkBuf 8) (junkBuf 8) (junkBuf 7) (by decide) (by decide)
    (by decide) (by decide) (by decide) (by decide) (by decide) (by decide) (by decide)
    (by decide) (by decide) (by decide)
  have e : fracOps.div (field fracOps offDiagonalFirst 5) (fracOps.ofInt (smallDeg.cell 0)) =
      ⟨5, 1⟩ := by decide
  rw [e] at h5
  exact ⟨st, h1, h5⟩

/-! ## The hand-off from the loader to the builder -/

/-- The builder loop is the left fold of its turn over the lines: each line is handled
once, in the order of the input, and the first access outside an array ends the run. -/
theorem builderLoop_foldlM {F : Type} (ops : DoubleOps F) (num_wann nrvecs : Int)
    (deg : Buf Int) :
    ∀ (body : List (List Char)) (st : Builder F),
      builderLoop ops num_wann nrvecs deg body st =
        body.foldlM (builderStep ops num_wann nrvecs deg) st := by
  intro body
  induction body with
  | nil => intro st; rfl
  | cons l ls ih =>
    intro st
    rw [List.foldlM_cons]
    simp only [builderLoop]
    cases builderStep ops num_wann nrvecs deg st l with
    | none => rfl
    | some st1 => exact ih st1

/-- C15: for a header with `nrvecs > 0` not a multiple of 15 and lines after the header that
are a degeneracy block of `ceil(nrvecs / 15)` lines followed by the record `first` and the
records `body`, the degeneracy loop tokenises the lines of the block and no other line, and
leaves by `break` with `first` in the buffer and `body` unread; the parse pass is then what
lines 134-202 do on `first` and `body`; and the builder handles `first` in the first data
entry and then the lines of `body` one by one in the order of the input (a left fold of the
turn of the loop), so no body line is skipped, taken as degeneracy data or read twice. -/
theorem loader_hands_over_first_record {F : Type} (ops : DoubleOps F) (env : Env F)
    (f : List Char) (degLines : List (List Char)) (first : List Char) (body : List (List Char))
    (hpos : 0 < headerNr f) (hnot : ¬ (15 : Int) ∣ headerNr f)
    (hlines : linesAfterHeader f = degLines ++ first :: body)
    (hblock : (degLines.length : Int) = ⌈(headerNr f : ℚ) / 15⌉) :
    loaderLoop (num_lines_degeneracy_facts (headerNr f)) (linesAfterHeader f)
        ⟨[], 0, env.freshBuffer⟩ =
      (⟨degLines.flatMap (fun l => (tokens l).map storedInt), ⌈(headerNr f : ℚ) / 15⌉, first⟩,
        body) ∧
    (parsePass ops env f).result =
      (fillArrays ops env (headerNw f) (headerNr f)
        (degLines.flatMap (fun l => (tokens l).map storedInt)) first body).result ∧
    ∀ (deg : Buf Int) (rvecs reH imH vals : Buf F),
      builder ops (headerNw f) (headerNr f) deg first body rvecs reH imH vals =
        (firstEntry ops deg first rvecs reH imH vals).bind
          (fun st => body.foldlM (builderStep ops (headerNw f) (headerNr f) deg) st) := by
  have hn := num_lines_eq_ceil (headerNr f) hpos hnot
  have hload : loaderLoop (num_lines_degeneracy_facts (headerNr f)) (linesAfterHeader f)
      ⟨[], 0, env.freshBuffer⟩ =
      (⟨degLines.flatMap (fun l => (tokens l).map storedInt), ⌈(headerNr f : ℚ) / 15⌉, first⟩,
        body) := by
    have t1 : (degLines ++ first :: body).take degLines.length = degLines :=
      List.take_left' rfl
    have t2 : (degLines ++ first :: body).getD degLines.length [] = first := by
      rw [List.getD_eq_getElem?_getD, List.getElem?_append_right (le_refl _)]
      simp
    have t3 : (degLines ++ first :: body).drop (degLines.length + 1) = body := by
      rw [List.drop_append]
      rfl
    rw [loaderLoop_handoff _ _ _ degLines.length
      (by show (0 : Int) + (degLines.length : Int) = _; rw [hn, hblock]; ring)
      (by rw [hlines]; simp), hlines, hn, t1, t2, t3]
    rfl
  refine ⟨hload, ?_, ?_⟩
  · rw [parsePass_eq, hload]
  · intro deg rvecs reH imH vals
    unfold builder
    cases firstEntry ops deg first rvecs reH imH vals with
    | none => rfl
    | some st => exact builderLoop_foldlM ops _ _ deg body st

/-- C15, on the file of the two-orbital scenario (`nrvecs = 1`, one degeneracy line): the
loop leaves with the first record in the buffer and the other three records unread. -/
theorem loader_hands_over_first_record_witness :
    loaderLoop (num_lines_degeneracy_facts (headerNr twoOrbitalFile))
        (linesAfterHeader twoOrbitalFile) ⟨[], 0, []⟩ =
      (⟨[String.toList "1\n"].flatMap (fun l => (tokens l).map storedInt),
        ⌈(headerNr twoOrbitalFile : ℚ) / 15⌉, twoOrbitalFirst⟩, twoOrbitalRest) := by
  have e1 : headerNr twoOrbitalFile = 1 := by decide
  exact (loader_hands_over_first_record fracOps (envOf ['i'] twoOrbitalFile ⟨9, 1⟩ 7)
    twoOrbitalFile [String.toList "1\n"] twoOrbitalFirst twoOrbitalRest (by decide)
    (by rw [e1]; norm_num) (by decide)
    (by
      rw [e1]
      symm
      rw [Int.ceil_eq_iff]
      constructor <;> norm_num)).1

/-! ## Every cell is written -/

set_option maxRecDepth 100000 in
/-- C16, as stated, fails.  On the file of the standard layout with one orbital and 15
R vectors, whose body has exactly 15 runs, starts with the pair (1,1) and has the one
orbital pair in every run, the degeneracy loop tokenises the first record as well (two
lines for `nrvecs = 15`), stores 22 integers into the 15 cells of `degeneracy_facts`, and
the run has no defined exit status: the arrays are not filled.  It also fails where an
`int` product of the size computations overflows.  With
`num_wann = 1` and `nrvecs = 1431655766` the product `nrvecs * 3` wraps to 2: `rvecs` has
two cells, not `3 * nrvecs`, and whatever the body is the first data entry stores outside
it, so the pass does not fill the arrays.  With `num_wann = 65537` and `nrvecs = 1` the
product `num_wann * num_wann * nrvecs` wraps and `reH` has 131073 cells, not
`65537 * 65537 * 1 = 4295098369`. -/
theorem full_population_fails :
    (headerNw fifteenRunsFile = 1 ∧ headerNr fifteenRunsFile = 15 ∧
      linesAfterHeader fifteenRunsFile =
        String.toList "1 1 1 1 1 1 1 1 1 1 1 1 1 1 1\n" :: fifteenRecords ∧
      runCount fracOps (fifteenRecords.headD []) fifteenRecords.tail = 15 ∧
      (∀ l ∈ fifteenRecords, (tokens l).length = 7 ∧ alphaOf fracOps l = 1 ∧
        betaOf fracOps l = 1) ∧
      (loaderLoop (num_lines_degeneracy_facts 15) (linesAfterHeader fifteenRunsFile)
        ⟨[], 0, []⟩).1.counter = 22 ∧
      (main fracOps (envOf ['i'] fifteenRunsFile ⟨9, 1⟩ 7) [['p'], ['i'], ['o']]).exit = none) ∧
    rvecsBytes 1431655766 / 8 = 2 ∧
    (¬ ∃ body, (builder fracOps 1 1431655766 ⟨degBytes 1431655766 / 4, fun _ => 1⟩ smallFirst
        body (junkBuf (rvecsBytes 1431655766 / 8)) (junkBuf (n_bytes_ham 1 1431655766 / 8))
        (junkBuf (n_bytes_ham 1 1431655766 / 8)) (junkBuf 7)).isSome = true) ∧
    n_bytes_ham 65537 1 / 8 = 131073 ∧ (65537 * 65537 * 1 : Int) = 4295098369 := by
  refine ⟨⟨by decide, by decide, by decide, by decide, by decide, by decide, by decide⟩,
    by decide, ?_, by decide, by decide⟩
  rintro ⟨body, h⟩
  have hf : (firstEntry fracOps ⟨degBytes 1431655766 / 4, fun _ => 1⟩ smallFirst
      (junkBuf (rvecsBytes 1431655766 / 8)) (junkBuf (n_bytes_ham 1 1431655766 / 8))
      (junkBuf (n_bytes_ham 1 1431655766 / 8)) (junkBuf 7)).isNone = true := by decide
  rw [Option.isNone_iff_eq_none] at hf
  unfold builder at h
  rw [hf] at h
  simp at h

/-- The builder on its own, from any degeneracy table and any first record and body: for
`num_wann > 0`, `nrvecs > 0` with `num_wann * num_wann * nrvecs ≤ 2^31 - 1` and
`3 * nrvecs ≤ 2^31 - 1`, the blocks obtained for these
sizes, and a body of seven-field records with orbital fields in `[1, num_wann]` that has
exactly `nrvecs` runs, starts with the record for the pair (1,1) and has a record for every
orbital pair of every run, the builder finishes; `rvecs` has `3 * nrvecs` cells and they are
the triples of the records that start the runs, in order; `reH` and `imH` have
`num_wann * num_wann * nrvecs` cells, and every one of them holds the amplitude, over the
degeneracy factor of its run, of a record whose derived index the cell is.  No cell keeps
what it held before. -/
theorem builder_fills_every_cell {F : Type} (ops : DoubleOps F) (num_wann nrvecs : Int)
    (deg : Buf Int) (first : List Char) (body : List (List Char)) (rvecs reH imH vals : Buf F)
    (hnw : 0 < num_wann) (hnr : 0 < nrvecs)
    (hham : num_wann * num_wann * nrvecs ≤ 2147483647) (hrv3 : 3 * nrvecs ≤ 2147483647)
    (hdeg : deg.size = degBytes nrvecs / 4) (hrvecs : rvecs.size = rvecsBytes nrvecs / 8)
    (hre : reH.size = n_bytes_ham num_wann nrvecs / 8)
    (him : imH.size = n_bytes_ham num_wann nrvecs / 8) (hvals : vals.size = 7)
    (h7 : ∀ l ∈ first :: body, (tokens l).length = 7)
    (hfirst : alphaOf ops first = 1 ∧ betaOf ops first = 1)
    (hrange : ∀ l ∈ first :: body, 1 ≤ alphaOf ops l ∧ alphaOf ops l ≤ num_wann ∧
      1 ≤ betaOf ops l ∧ betaOf ops l ≤ num_wann)
    (hruns : (runCount ops first body : Int) = nrvecs)
    (hcov : Covers ops num_wann nrvecs first body) :
    ∃ st, builder ops num_wann nrvecs deg first body rvecs reH imH vals = some st ∧
      st.rvecs.size = (3 * nrvecs).toNat ∧
      st.rvecs.toList = (first :: runHeads ops first body).flatMap (tripleCells ops) ∧
      st.reH.size = (num_wann * num_wann * nrvecs).toNat ∧
      st.imH.size = (num_wann * num_wann * nrvecs).toNat ∧
      (∀ s, s < (num_wann * num_wann * nrvecs).toNat →
        ∃ i, i < (first :: body).length ∧
          (hamIndex num_wann nrvecs ((runIndices ops first body).getD i 0)
            (alphaOf ops ((first :: body).getD i []) - 1)
            (betaOf ops ((first :: body).getD i []) - 1)).toNat = s ∧
          st.reH.read s = some (ops.div (field ops ((first :: body).getD i []) 5)
            (ops.ofInt (deg.cell ((runIndices ops first body).getD i 0))))) ∧
      (∀ s, s < (num_wann * num_wann * nrvecs).toNat →
        ∃ i, i < (first :: body).length ∧
          (hamIndex num_wann nrvecs ((runIndices ops first body).getD i 0)
            (alphaOf ops ((first :: body).getD i []) - 1)
            (betaOf ops ((first :: body).getD i []) - 1)).toNat = s ∧
          st.imH.read s = some (ops.div (field ops ((first :: body).getD i []) 6)
            (ops.ofInt (deg.cell ((runIndices ops first body).getD i 0))))) := by
  have hle : (runCount ops first body : Int) ≤ nrvecs := le_of_eq hruns
  obtain ⟨st, hst, s1, s2, s3, c1, c2, c3⟩ := builder_run ops num_wann nrvecs deg first body
    rvecs reH imH vals hnw hnr hham hrv3 hdeg hrvecs hre him hvals h7 hrange hle
  have hlen : ((first :: runHeads ops first body).flatMap (tripleCells ops)).length =
      (3 * nrvecs).toNat := by
    rw [flatMap_tripleCells_length]
    simp only [runCount, Nat.cast_add, Nat.cast_one] at hruns
    simp only [List.length_cons]
    omega
  refine ⟨st, hst, s1, ?_, s2, s3, ?_, ?_⟩
  · apply List.ext_getElem
    · rw [hlen, ← s1]
      simp [Buf.toList]
    · intro j h1 h2
      rw [Buf.toList_getElem, c1 j, List.getD_eq_getElem _ _ h2]
  · intro s hs
    obtain ⟨i, hi, hidx, hval⟩ := cell_written ops num_wann nrvecs deg first body 5 hnw hnr
      hham hfirst hrange hle hcov s hs (reH.cell s)
    exact ⟨i, hi, hidx, by rw [Buf.read_of_lt _ _ (by rw [s2]; exact hs), c2 s, hval]⟩
  · intro s hs
    obtain ⟨i, hi, hidx, hval⟩ := cell_written ops num_wann nrvecs deg first body 6 hnw hnr
      hham hfirst hrange hle hcov s hs (imH.cell s)
    exact ⟨i, hi, hidx, by rw [Buf.read_of_lt _ _ (by rw [s3]; exact hs), c3 s, hval]⟩

/-- The builder on the four records of the two-orbital scenario: it finishes and `rvecs` is
the triple (0,0,0), whatever the three cells held before. -/
theorem builder_fills_every_cell_witness :
    ∃ st, builder fracOps 2 1 ⟨1, fun _ => 1⟩ twoOrbitalFirst twoOrbitalRest (junkBuf 3)
        (junkBuf 4) (junkBuf 4) (junkBuf 7) = some st ∧
      st.rvecs.toList = [⟨0, 1⟩, ⟨0, 1⟩, ⟨0, 1⟩] := by
  obtain ⟨st, h1, _, h3, _⟩ := builder_fills_every_cell fracOps 2 1 ⟨1, fun _ => 1⟩
    twoOrbitalFirst twoOrbitalRest (junkBuf 3) (junkBuf 4) (junkBuf 4) (junkBuf 7) (by decide)
    (by decide) (by decide) (by decide) (by decide) (by decide) (by decide) (by decide)
    (by decide) (by decide) (by decide) (by decide) (by decide) twoOrbital_covers
  have e : (twoOrbitalFirst :: runHeads fracOps twoOrbitalFirst twoOrbitalRest).flatMap
      (tripleCells fracOps) = [⟨0, 1⟩, ⟨0, 1⟩, ⟨0, 1⟩] := by decide
  rw [e] at h3
  exact ⟨st, h1, h3⟩

/-! ## Every access stays inside its array -/

/-- C17, as stated, fails where an `int` product of the size computations overflows.  With
`num_wann = 65537` and `nrvecs = 1` the product `num_wann * num_wann * nrvecs` wraps and
`reH` gets 131073 cells; the body (1,1), (32768,1) has seven-field records with orbital
fields in `[1, 65537]` and one run, yet the second record goes to the index
`0 + 65537*1*32767 + 1*0 = 2147450879`, outside `reH`: the builder takes the out-of-range
branch.  With `num_wann = 1` and `nrvecs = 1431655766` the block `rvecs` gets two cells and
the first data entry stores outside it. -/
theorem access_out_of_range_on_overflow :
    ((tokens midRecord).length = 7 ∧ alphaOf fracOps midRecord = 32768 ∧
      betaOf fracOps midRecord = 1 ∧ runCount fracOps smallFirst [midRecord] = 1 ∧
      n_bytes_ham 65537 1 / 8 = 131073 ∧ hamSlot 65537 1 0 32767 0 = 2147450879 ∧
      (builder fracOps 65537 1 ⟨degBytes 1 / 4, fun _ => 1⟩ smallFirst [midRecord]
          (junkBuf (rvecsBytes 1 / 8)) (junkBuf (n_bytes_ham 65537 1 / 8))
          (junkBuf (n_bytes_ham 65537 1 / 8)) (junkBuf 7)).isNone = true) ∧
    (rvecsBytes 1431655766 / 8 = 2 ∧ runCount fracOps smallFirst [] = 1 ∧
      (firstEntry fracOps ⟨degBytes 1431655766 / 4, fun _ => 1⟩ smallFirst
          (junkBuf (rvecsBytes 1431655766 / 8)) (junkBuf (n_bytes_ham 1 1431655766 / 8))
          (junkBuf (n_bytes_ham 1 1431655766 / 8)) (junkBuf 7)).isNone = true) := by
  decide

/-- C17, amended by the bounds `num_wann * num_wann * nrvecs ≤ 2^31 - 1` and
`3 * nrvecs ≤ 2^31 - 1`: for `num_wann > 0`, `nrvecs > 0`, the blocks obtained for these
sizes, and a body of seven-field records with orbital fields in `[1, num_wann]` and at most
`nrvecs` runs, the builder never takes an out-of-range branch (it returns a state); the
blocks have `3 * nrvecs`, `nrvecs` and `num_wann * num_wann * nrvecs` cells, and for every
record, with `r` its run index, the cells `3r .. 3r+2` of `rvecs`, the cell `r` of
`degeneracy_facts` and the cell of `reH` and `imH` that the machine computes for it lie
inside these blocks. -/
theorem builder_stays_in_bounds {F : Type} (ops : DoubleOps F) (num_wann nrvecs : Int)
    (deg : Buf Int) (first : List Char) (body : List (List Char)) (rvecs reH imH vals : Buf F)
    (hnw : 0 < num_wann) (hnr : 0 < nrvecs)
    (hham : num_wann * num_wann * nrvecs ≤ 2147483647) (hrv3 : 3 * nrvecs ≤ 2147483647)
    (hdeg : deg.size = degBytes nrvecs / 4) (hrvecs : rvecs.size = rvecsBytes nrvecs / 8)
    (hre : reH.size = n_bytes_ham num_wann nrvecs / 8)
    (him : imH.size = n_bytes_ham num_wann nrvecs / 8) (hvals : vals.size = 7)
    (h7 : ∀ l ∈ first :: body, (tokens l).length = 7)
    (hrange : ∀ l ∈ first :: body, 1 ≤ alphaOf ops l ∧ alphaOf ops l ≤ num_wann ∧
      1 ≤ betaOf ops l ∧ betaOf ops l ≤ num_wann)
    (hruns : (runCount ops first body : Int) ≤ nrvecs) :
    (∃ st, builder ops num_wann nrvecs deg first body rvecs reH imH vals = some st) ∧
    (rvecs.size : Int) = 3 * nrvecs ∧ (deg.size : Int) = nrvecs ∧
    (reH.size : Int) = num_wann * num_wann * nrvecs ∧
    (imH.size : Int) = num_wann * num_wann * nrvecs ∧
    ∀ i, i < (first :: body).length →
      3 * (runIndices ops first body).getD i 0 + 2 < rvecs.size ∧
      (runIndices ops first body).getD i 0 < deg.size ∧
      slotAt ops num_wann nrvecs ((runIndices ops first body).getD i 0)
        ((first :: body).getD i []) < reH.size ∧
      slotAt ops num_wann nrvecs ((runIndices ops first body).getD i 0)
        ((first :: body).getD i []) < imH.size := by
  have hP : 0 < num_wann * num_wann * nrvecs := mul_pos (mul_pos hnw hnw) hnr
  have hint : nrvecs ≤ 2147483647 := by omega
  have hdegS : deg.size = nrvecs.toNat := by
    rw [hdeg, deg_cells_exact nrvecs (le_of_lt hnr) hint]
  have hrvS : rvecs.size = (3 * nrvecs).toNat := by
    rw [hrvecs, rvecs_cells_exact nrvecs (le_of_lt hnr) hrv3]
  have hreS : reH.size = (num_wann * num_wann * nrvecs).toNat := by
    rw [hre, (ham_cells_exact num_wann nrvecs hnw hnr hham).2]
  have himS : imH.size = (num_wann * num_wann * nrvecs).toNat := by
    rw [him, (ham_cells_exact num_wann nrvecs hnw hnr hham).2]
  obtain ⟨st, hst, _⟩ := builder_run ops num_wann nrvecs deg first body rvecs reH imH vals hnw
    hnr hham hrv3 hdeg hrvecs hre him hvals h7 hrange hruns
  refine ⟨⟨st, hst⟩, by omega, by omega, by omega, by omega, ?_⟩
  intro i hi
  obtain ⟨hr, hslot, hlt⟩ := record_index_lt ops num_wann nrvecs first body hham hrange hruns
    i hi
  rw [hslot, hreS, himS]
  exact ⟨by omega, by omega, hlt, hlt⟩

/-- C17, amended, on the small body of three records and two runs: the builder returns a
state. -/
theorem builder_stays_in_bounds_witness :
    ∃ st, builder fracOps 1 2 smallDeg smallFirst smallBody (junkBuf 6) (junkBuf 2) (junkBuf 2)
        (junkBuf 7) = some st :=
  (builder_stays_in_bounds fracOps 1 2 smallDeg smallFirst smallBody (junkBuf 6) (junkBuf 2)
    (junkBuf 2) (junkBuf 7) (by decide) (by decide) (by decide) (by decide) (by decide)
    (by decide) (by decide) (by decide) (by decide) (by decide) (by decide) (by decide)).1

/-! ## No wraparound for sizes that fit -/

/-- C18: for `num_wann > 0`, `nrvecs > 0` with `num_wann * num_wann * nrvecs ≤ 2^31 - 1`, the
product `num_wann * num_wann * nrvecs` computed in `int` is the exact product, and so is
`n_doubles_ham` after the conversion to `unsigned long`; and for every `0 ≤ r < nrvecs` and
`0 ≤ alpha, beta < num_wann` the index `rvecs_counter + num_wann * nrvecs * alpha +
nrvecs * beta` as the machine evaluates it (`int` products, sums modulo `2^32`) is the exact
integer `r + num_wann*nrvecs*alpha + nrvecs*beta`, none of its `int` products wrapping. -/
theorem no_wraparound_when_sizes_fit (num_wann nrvecs : Int) (hnw : 0 < num_wann)
    (hnr : 0 < nrvecs) (hham : num_wann * num_wann * nrvecs ≤ 2147483647) :
    wrapInt32 (wrapInt32 (num_wann * num_wann) * nrvecs) = num_wann * num_wann * nrvecs ∧
    (n_doubles_ham num_wann nrvecs : Int) = num_wann * num_wann * nrvecs ∧
    ∀ (r : Nat) (alpha beta : Int), (r : Int) < nrvecs → 0 ≤ alpha → alpha < num_wann →
      0 ≤ beta → beta < num_wann →
      wrapInt32 (wrapInt32 (num_wann * nrvecs) * alpha) = num_wann * nrvecs * alpha ∧
      wrapInt32 (nrvecs * beta) = nrvecs * beta ∧
      (hamSlot num_wann nrvecs r alpha beta : Int) = hamIndex num_wann nrvecs r alpha beta := by
  have hP : 0 < num_wann * num_wann * nrvecs := mul_pos (mul_pos hnw hnw) hnr
  have hsq : num_wann * num_wann ≤ num_wann * num_wann * nrvecs := by
    nlinarith [mul_pos hnw hnw]
  have hsq0 : 0 < num_wann * num_wann := mul_pos hnw hnw
  have hnn : num_wann * nrvecs ≤ num_wann * num_wann * nrvecs := by
    nlinarith [mul_pos hnw hnr]
  have hnn0 : 0 < num_wann * nrvecs := mul_pos hnw hnr
  refine ⟨?_, ?_, ?_⟩
  · rw [wrapInt32_of_range (num_wann * num_wann) (by omega) (by omega),
      wrapInt32_of_range _ (by omega) (by omega)]
  · rw [(ham_cells_exact num_wann nrvecs hnw hnr hham).1, Int.toNat_of_nonneg (le_of_lt hP)]
  · intro r alpha beta hr ha0 hal hb0 hbl
    have h1 := hamIndex_range num_wann nrvecs 0 alpha 0 (by simpa using hnr) ha0 hal
      (le_refl 0) hnw
    have h2 := hamIndex_range num_wann nrvecs 0 0 beta (by simpa using hnr) (le_refl 0) hnw
      hb0 hbl
    have h3 := hamIndex_range num_wann nrvecs r alpha beta hr ha0 hal hb0 hbl
    simp only [hamIndex, Nat.cast_zero, zero_add, mul_zero, add_zero] at h1 h2
    refine ⟨?_, ?_, ?_⟩
    · rw [wrapInt32_of_range (num_wann * nrvecs) (by omega) (by omega),
        wrapInt32_of_range _ (by omega) (by omega)]
    · rw [wrapInt32_of_range _ (by omega) (by omega)]
    · rw [hamSlot_eq, wrapUInt32_of_range _ h3.1 (by omega), Int.toNat_of_nonneg h3.1]

/-- C18, for two orbitals and three R vectors: 12 cells, and the triple `(1, 1, 0)` has the
index 7. -/
theorem no_wraparound_when_sizes_fit_witness :
    (n_doubles_ham 2 3 : Int) = 2 * 2 * 3 ∧ (hamSlot 2 3 1 1 0 : Int) = hamIndex 2 3 1 1 0 :=
  ⟨(no_wraparound_when_sizes_fit 2 3 (by decide) (by decide) (by decide)).2.1,
   ((no_wraparound_when_sizes_fit 2 3 (by decide) (by decide) (by decide)).2.2 1 1 0
      (by decide) (by decide) (by decide) (by decide) (by decide)).2.2⟩

/-! ## The fields a line leaves in `vals` -/

/-- The block that appends a triple to `rvecs` leaves `vals` as it is. -/
theorem appendRvec_vals {F : Type} (st st1 : Builder F) (h : appendRvec st = some st1) :
    st1.vals = st.vals := by
  unfold appendRvec at h
  split at h
  · simp at h
  · split at h
    · simp at h
    · split at h
      · simp at h
      · simp only [Option.some.injEq] at h
        rw [← h]

/-- The update of the R vectors leaves `vals` as it is. -/
theorem updateRvecs_vals {F : Type} (ops : DoubleOps F) (st st1 : Builder F)
    (h : updateRvecs ops st = some st1) : st1.vals = st.vals := by
  unfold updateRvecs at h
  split at h
  · simp at h
  · exact appendRvec_vals st st1 h
  · simp only [Option.some.injEq] at h
    rw [← h]

/-- The two stores to `reH` and `imH` leave `vals` as it is. -/
theorem scatter_vals {F : Type} (ops : DoubleOps F) (num_wann nrvecs : Int) (deg : Buf Int)
    (st st1 : Builder F) (h : scatter ops num_wann nrvecs deg st = some st1) :
    st1.vals = st.vals := by
  rw [scatter_eval] at h
  split_ifs at h
  simp only [Option.some.injEq] at h
  rw [← h]
  rfl

/-- After a turn of the builder loop `vals` is what `strtod_arr` made of it on the line
read: the turn has no other assignment to `vals`. -/
theorem builderStep_vals {F : Type} (ops : DoubleOps F) (num_wann nrvecs : Int) (deg : Buf Int)
    (st st1 : Builder F) (l : List Char)
    (h : builderStep ops num_wann nrvecs deg st l = some st1) :
    strtod_arr ops l st.vals = some st1.vals := by
  unfold builderStep at h
  cases hv : strtod_arr ops l st.vals with
  | none => rw [hv] at h; simp at h
  | some v =>
    rw [hv] at h
    simp only at h
    cases hu : updateRvecs ops ⟨st.rvecs, st.reH, st.imH, v, st.rvecs_counter3,
        st.rvecs_counter⟩ with
    | none => rw [hu] at h; simp at h
    | some st2 =>
      rw [hu] at h
      simp only at h
      rw [scatter_vals ops num_wann nrvecs deg st2 st1 h, updateRvecs_vals ops _ st2 hu]

/-- C19: on a line with `k ≤ 7` tokens `strtod_arr` sets `vals[0..k-1]` to the converted
tokens in order and leaves `vals[k..6]` as they were; a turn of the builder loop on that
line continues with exactly this `vals`, so a short record works with the trailing fields of
the record before it.  A line that is only a newline has the one token `"\n"` (the first
split is on the space alone): `vals[0]` becomes what `strtod` makes of it, which is 0 as no
number starts it, and `vals[1..6]` stay. -/
theorem strtod_arr_frame {F : Type} (ops : DoubleOps F) (l : List Char) (vals : Buf F)
    (hv : vals.size = 7) (hk : (tokens l).length ≤ 7) :
    (∃ v, strtod_arr ops l vals = some v ∧ v.size = 7 ∧
      (∀ j, j < (tokens l).length → v.cell j = ops.strtod ((tokens l).getD j [])) ∧
      (∀ j, (tokens l).length ≤ j → v.cell j = vals.cell j) ∧
      ∀ (num_wann nrvecs : Int) (deg : Buf Int) (st st1 : Builder F), st.vals = vals →
        builderStep ops num_wann nrvecs deg st l = some st1 → st1.vals = v) ∧
    tokens ['\n'] = [['\n']] ∧
    (∃ v, strtod_arr ops ['\n'] vals = some v ∧ v.cell 0 = ops.strtod ['\n'] ∧
      ∀ j, 1 ≤ j → v.cell j = vals.cell j) ∧
    fracOps.strtod ['\n'] = ⟨0, 1⟩ := by
  have hframe : ∀ l1 : List Char, (tokens l1).length ≤ 7 →
      ∃ v, strtod_arr ops l1 vals = some v ∧ v.size = 7 ∧
        (∀ j, j < (tokens l1).length → v.cell j = ops.strtod ((tokens l1).getD j [])) ∧
        (∀ j, (tokens l1).length ≤ j → v.cell j = vals.cell j) := by
    intro l1 h1
    obtain ⟨v, e1, e2, e3⟩ := (Buf.writeList_spec ((tokens l1).map ops.strtod) vals 0).1
      (by rw [List.length_map, hv]; omega)
    refine ⟨v, e1, by rw [e2, hv], fun j hj => ?_, fun j hj => ?_⟩
    · rw [e3 j, if_pos ⟨Nat.zero_le j, by rw [List.length_map]; omega⟩]
      simp [hj, List.getD_eq_getElem?_getD, List.getElem?_map]
    · rw [e3 j, if_neg (by rw [List.length_map]; omega)]
  have htok : tokens ['\n'] = [['\n']] := by decide
  refine ⟨?_, htok, ?_, by decide⟩
  · obtain ⟨v, e1, e2, e3, e4⟩ := hframe l hk
    refine ⟨v, e1, e2, e3, e4, ?_⟩
    intro num_wann nrvecs deg st st1 hst hstep
    have := builderStep_vals ops num_wann nrvecs deg st st1 l hstep
    rw [hst, e1] at this
    exact (Option.some.inj this).symm
  · obtain ⟨v, e1, _, e3, e4⟩ := hframe ['\n'] (by rw [htok]; decide)
    refine ⟨v, e1, ?_, fun j hj => e4 j (by rw [htok]; exact hj)⟩
    have := e3 0 (by rw [htok]; decide)
    rw [htok] at this
    exact this

/-- C19, on the line `7 8` and a `vals` that held 9 everywhere: cells 0 and 1 are 7 and 8,
cell 2 is still 9. -/
theorem strtod_arr_frame_witness :
    ∃ v, strtod_arr fracOps (String.toList "7 8\n") (junkBuf 7) = some v ∧
      v.cell 0 = ⟨7, 1⟩ ∧ v.cell 1 = ⟨8, 1⟩ ∧ v.cell 2 = ⟨9, 1⟩ := by
  obtain ⟨⟨v, h1, _, h3, h4, _⟩, _⟩ := strtod_arr_frame fracOps (String.toList "7 8\n")
    (junkBuf 7) (by decide) (by decide)
  have hl : (tokens (String.toList "7 8\n")).length = 2 := by decide
  refine ⟨v, h1, ?_, ?_, ?_⟩
  · rw [h3 0 (by rw [hl]; decide)]
    decide
  · rw [h3 1 (by rw [hl]; decide)]
    decide
  · rw [h4 2 (by rw [hl])]
    rfl

/-! ## The index the machine computes -/

/-- C3, as stated, fails on the index the builder computes, where the `int` products wrap.
With `num_wann = 65537` and `nrvecs = 1` the two in-range triples `(0, 0, 65535)` and
`(0, 65535, 65536)` both get the cell 65535 (the product `65537 * 1 * 65535` wraps to -1),
so the map is not injective; and `reH` has 131073 cells, not `65537 * 65537 * 1`. -/
theorem slot_collides_on_overflow :
    ((0 : Int) ≤ 65535 ∧ (65535 : Int) < 65537 ∧ (65536 : Int) < 65537) ∧
    hamSlot 65537 1 0 0 65535 = 65535 ∧ hamSlot 65537 1 0 65535 65536 = 65535 ∧
    wrapInt32 (wrapInt32 (65537 * 1) * 65535) = -1 ∧
    n_bytes_ham 65537 1 / 8 = 131073 ∧ (65537 * 65537 * 1 : Int) = 4295098369 := by
  decide

/-- C3, amended by the bound `num_wann * num_wann * nrvecs ≤ 2^31 - 1`: for `num_wann > 0`
and `nrvecs > 0` within that bound, the index the builder computes
(`rvecs_counter + num_wann * nrvecs * alpha + nrvecs * beta` with `int` products and sums
modulo `2^32`), restricted to `0 ≤ r < nrvecs` and `0 ≤ alpha, beta < num_wann`, is
injective, its image is exactly `[0, num_wann * num_wann * nrvecs)`, and that is the number
of cells of `reH` and `imH`. -/
theorem hamSlot_bijection (num_wann nrvecs : Int) (hnw : 0 < num_wann) (hnr : 0 < nrvecs)
    (hham : num_wann * num_wann * nrvecs ≤ 2147483647) :
    (∀ (r r1 : Nat) (alpha beta alpha1 beta1 : Int),
      (r : Int) < nrvecs → 0 ≤ alpha → alpha < num_wann → 0 ≤ beta → beta < num_wann →
      (r1 : Int) < nrvecs → 0 ≤ alpha1 → alpha1 < num_wann → 0 ≤ beta1 → beta1 < num_wann →
      hamSlot num_wann nrvecs r alpha beta = hamSlot num_wann nrvecs r1 alpha1 beta1 →
      r = r1 ∧ alpha = alpha1 ∧ beta = beta1) ∧
    (∀ n : Nat,
      (n : Int) < num_wann * num_wann * nrvecs ↔
      ∃ (r : Nat) (alpha beta : Int),
        (r : Int) < nrvecs ∧ 0 ≤ alpha ∧ alpha < num_wann ∧ 0 ≤ beta ∧ beta < num_wann ∧
        hamSlot num_wann nrvecs r alpha beta = n) ∧
    ((n_bytes_ham num_wann nrvecs / 8 : Nat) : Int) = num_wann * num_wann * nrvecs := by
  have hP : 0 < num_wann * num_wann * nrvecs := mul_pos (mul_pos hnw hnw) hnr
  have hslot : ∀ (r : Nat) (alpha beta : Int), (r : Int) < nrvecs → 0 ≤ alpha →
      alpha < num_wann → 0 ≤ beta → beta < num_wann →
      (hamSlot num_wann nrvecs r alpha beta : Int) = hamIndex num_wann nrvecs r alpha beta := by
    intro r alpha beta hr ha0 hal hb0 hbl
    have h3 := hamIndex_range num_wann nrvecs r alpha beta hr ha0 hal hb0 hbl
    rw [hamSlot_eq, wrapUInt32_of_range _ h3.1 (by omega), Int.toNat_of_nonneg h3.1]
  refine ⟨?_, ?_, ?_⟩
  · intro r r1 alpha beta alpha1 beta1 hr ha0 hal hb0 hbl hr1 ha10 ha1l hb10 hb1l h
    have e : hamIndex num_wann nrvecs r alpha beta = hamIndex num_wann nrvecs r1 alpha1 beta1 := by
      rw [← hslot r alpha beta hr ha0 hal hb0 hbl, ← hslot r1 alpha1 beta1 hr1 ha10 ha1l hb10 hb1l,
        h]
    exact hamIndex_injective num_wann nrvecs r r1 alpha beta alpha1 beta1 hr hb0 hbl hr1 hb10
      hb1l e
  · intro n
    constructor
    · intro hn
      obtain ⟨r, alpha, beta, hr, ha0, hal, hb0, hbl, e⟩ :=
        hamIndex_onto num_wann nrvecs hnw hnr (n : Int) (Int.ofNat_nonneg n) hn
      refine ⟨r, alpha, beta, hr, ha0, hal, hb0, hbl, ?_⟩
      have := hslot r alpha beta hr ha0 hal hb0 hbl
      rw [e] at this
      exact_mod_cast this
    · rintro ⟨r, alpha, beta, hr, ha0, hal, hb0, hbl, e⟩
      have h3 := hamIndex_range num_wann nrvecs r alpha beta hr ha0 hal hb0 hbl
      have := hslot r alpha beta hr ha0 hal hb0 hbl
      rw [e] at this
      rw [this]
      exact h3.2
  · rw [(ham_cells_exact num_wann nrvecs hnw hnr hham).2, Int.toNat_of_nonneg (le_of_lt hP)]

/-- C3, amended, for two orbitals and three R vectors: cell 7 is the image of
`(r, alpha, beta) = (1, 1, 0)`, and the blocks have 12 cells. -/
theorem hamSlot_bijection_witness :
    (∃ (r : Nat) (alpha beta : Int),
      (r : Int) < 3 ∧ 0 ≤ alpha ∧ alpha < 2 ∧ 0 ≤ beta ∧ beta < 2 ∧ hamSlot 2 3 r alpha beta = 7) ∧
    ((n_bytes_ham 2 3 / 8 : Nat) : Int) = 2 * 2 * 3 :=
  ⟨((hamSlot_bijection 2 3 (by decide) (by decide) (by decide)).2.1 7).1 (by decide),
   (hamSlot_bijection 2 3 (by decide) (by decide) (by decide)).2.2⟩

/-- C4: dimensions and an in-range triple exist for which the index the builder computes
differs from the row-major index `(alpha * num_wann + beta) * nrvecs + r`: with
`num_wann = 65537`, `nrvecs = 1` and the triple `(0, 65536, 65536)` the builder computes
131072 (its `int` products wrap) and the row-major index is 4295098368.  The difference
comes from the reduction to 32 bits alone: wherever
`num_wann * num_wann * nrvecs ≤ 2^31 - 1` the two agree on every in-range triple. -/
theorem layout_differs_under_wraparound :
    (∃ (num_wann nrvecs : Int) (r : Nat) (alpha beta : Int),
      0 < num_wann ∧ 0 < nrvecs ∧ (r : Int) < nrvecs ∧ 0 ≤ alpha ∧ alpha < num_wann ∧
      0 ≤ beta ∧ beta < num_wann ∧
      (hamSlot num_wann nrvecs r alpha beta : Int) ≠ rowMajorIndex num_wann nrvecs r alpha beta) ∧
    hamSlot 65537 1 0 65536 65536 = 131072 ∧ rowMajorIndex 65537 1 0 65536 65536 = 4295098368 ∧
    ∀ (num_wann nrvecs : Int), 0 < num_wann → 0 < nrvecs →
      num_wann * num_wann * nrvecs ≤ 2147483647 →
      ∀ (r : Nat) (alpha beta : Int), (r : Int) < nrvecs → 0 ≤ alpha → alpha < num_wann →
        0 ≤ beta → beta < num_wann →
        (hamSlot num_wann nrvecs r alpha beta : Int) =
          rowMajorIndex num_wann nrvecs r alpha beta := by
  refine ⟨⟨65537, 1, 0, 65536, 65536, by decide, by decide, by decide, by decide, by decide,
    by decide, by decide, by decide⟩, by decide, by decide, ?_⟩
  intro num_wann nrvecs hnw hnr hham r alpha beta hr ha0 hal hb0 hbl
  have h3 := hamIndex_range num_wann nrvecs r alpha beta hr ha0 hal hb0 hbl
  rw [hamSlot_eq, wrapUInt32_of_range _ h3.1 (by omega), Int.toNat_of_nonneg h3.1]
  unfold hamIndex rowMajorIndex
  ring

/-- C4, at the triple named and at two orbitals and three R vectors: the builder's index of
`(0, 65536, 65536)` for `num_wann = 65537`, `nrvecs = 1` is 131072, and for the sizes 2 and
3 the triple `(1, 1, 0)` has the row-major index. -/
theorem layout_differs_under_wraparound_witness :
    hamSlot 65537 1 0 65536 65536 = 131072 ∧
    (hamSlot 2 3 1 1 0 : Int) = rowMajorIndex 2 3 1 1 0 :=
  ⟨layout_differs_under_wraparound.2.1,
   layout_differs_under_wraparound.2.2.2 2 3 (by decide) (by decide) (by decide) 1 1 0
     (by decide) (by decide) (by decide) (by decide) (by decide)⟩

/-! ## Every cell is written by the pass -/

/-- C16, amended: for every HR file of the standard layout (`num_wann > 0`; `nrvecs > 0` and
not a multiple of 15; `num_wann * num_wann * nrvecs ≤ 2^31 - 1` and `3 * nrvecs ≤ 2^31 - 1`;
a degeneracy block of `ceil(nrvecs / 15)` lines holding `nrvecs` integers in all; seven-field
records with orbital fields in `[1, num_wann]`) whose body has exactly `nrvecs` runs, starts
with the record for the pair (1,1) and has a record for every orbital pair of every run, and
with the allocations granted, the parse pass ends normally; `rvecs` has `3 * nrvecs` cells
and they are the triples of the records that start the runs, in order; `reH` and `imH` have
`num_wann * num_wann * nrvecs` cells, and every one of them holds the amplitude, over the
degeneracy factor of its run, of a record whose derived index the cell is.  No cell keeps
what it held before the pass. -/
theorem pass_fills_every_cell {F : Type} (ops : DoubleOps F) (env : Env F) (f : List Char)
    (degLines : List (List Char)) (first : List Char) (body : List (List Char))
    (hmalloc : ∀ n, env.mallocOk n = true)
    (hwf : WellFormedInput ops f degLines first body)
    (hfirst : alphaOf ops first = 1 ∧ betaOf ops first = 1)
    (hruns : (runCount ops first body : Int) = headerNr f)
    (hcov : Covers ops (headerNw f) (headerNr f) first body) :
    ∃ st, (parsePass ops env f).result = Parsed.done (headerNw f) (headerNr f) st ∧
      st.rvecs.size = (3 * headerNr f).toNat ∧
      st.rvecs.toList = (first :: runHeads ops first body).flatMap (tripleCells ops) ∧
      st.reH.size = (headerNw f * headerNw f * headerNr f).toNat ∧
      st.imH.size = (headerNw f * headerNw f * headerNr f).toNat ∧
      (∀ s, s < (headerNw f * headerNw f * headerNr f).toNat →
        ∃ i, i < (first :: body).length ∧
          (hamIndex (headerNw f) (headerNr f) ((runIndices ops first body).getD i 0)
            (alphaOf ops ((first :: body).getD i []) - 1)
            (betaOf ops ((first :: body).getD i []) - 1)).toNat = s ∧
          st.reH.read s = some (ops.div (field ops ((first :: body).getD i []) 5)
            (ops.ofInt ((blockIntegers degLines).getD
              ((runIndices ops first body).getD i 0) 0)))) ∧
      (∀ s, s < (headerNw f * headerNw f * headerNr f).toNat →
        ∃ i, i < (first :: body).length ∧
          (hamIndex (headerNw f) (headerNr f) ((runIndices ops first body).getD i 0)
            (alphaOf ops ((first :: body).getD i []) - 1)
            (betaOf ops ((first :: body).getD i []) - 1)).toNat = s ∧
          st.imH.read s = some (ops.div (field ops ((first :: body).getD i []) 6)
            (ops.ofInt ((blockIntegers degLines).getD
              ((runIndices ops first body).getD i 0) 0)))) := by
  have hin := handedOver_of_input ops f degLines first body hwf
  have hle : (runCount ops first body : Int) ≤ headerNr f := le_of_eq hruns
  obtain ⟨st, hpass, s1, s2, s3, c1, c2, c3⟩ := pass_run ops env f (blockIntegers degLines)
    first body hmalloc hin hle
  have hlen : ((first :: runHeads ops first body).flatMap (tripleCells ops)).length =
      (3 * headerNr f).toNat := by
    rw [flatMap_tripleCells_length]
    simp only [runCount, Nat.cast_add, Nat.cast_one] at hruns
    simp only [List.length_cons]
    omega
  refine ⟨st, by rw [hpass], s1, ?_, s2, s3, ?_, ?_⟩
  · apply List.ext_getElem
    · rw [hlen, ← s1]
      simp [Buf.toList]
    · intro j h1 h2
      rw [Buf.toList_getElem, c1 j, List.getD_eq_getElem _ _ h2]
  · intro s hs
    obtain ⟨i, hi, hidx, hval⟩ := cell_written ops (headerNw f) (headerNr f)
      (tableOf (blockIntegers degLines)) first body 5 hin.nw_pos hin.nr_pos hin.ham_fits hfirst
      hin.orbitals hle hcov s hs (env.freshRe s)
    exact ⟨i, hi, hidx, by rw [Buf.read_of_lt _ _ (by rw [s2]; exact hs), c2 s, hval]; rfl⟩
  · intro s hs
    obtain ⟨i, hi, hidx, hval⟩ := cell_written ops (headerNw f) (headerNr f)
      (tableOf (blockIntegers degLines)) first body 6 hin.nw_pos hin.nr_pos hin.ham_fits hfirst
      hin.orbitals hle hcov s hs (env.freshIm s)
    exact ⟨i, hi, hidx, by rw [Buf.read_of_lt _ _ (by rw [s3]; exact hs), c3 s, hval]; rfl⟩

/-- C16, amended, on the file of the two-orbital scenario with storage that held 9 before:
the pass ends normally and `rvecs` is the triple (0,0,0). -/
theorem pass_fills_every_cell_witness :
    ∃ st, (parsePass fracOps (envOf ['i'] twoOrbitalFile ⟨9, 1⟩ 7) twoOrbitalFile).result =
        Parsed.done 2 1 st ∧
      st.rvecs.toList = [⟨0, 1⟩, ⟨0, 1⟩, ⟨0, 1⟩] := by
  have e0 : headerNw twoOrbitalFile = 2 := by decide
  have e1 : headerNr twoOrbitalFile = 1 := by decide
  have hwf : WellFormedInput fracOps twoOrbitalFile [String.toList "1\n"] twoOrbitalFirst
      twoOrbitalRest :=
    ⟨by decide, by decide, by decide, by decide, by decide, by decide,
      by rw [e1]; exact (ceil_fifteenth_small 1 (by decide) (by decide)).symm,
      by decide, by decide, by decide⟩
  obtain ⟨st, h1, _, h3, _⟩ := pass_fills_every_cell fracOps
    (envOf ['i'] twoOrbitalFile ⟨9, 1⟩ 7) twoOrbitalFile [String.toList "1\n"] twoOrbitalFirst
    twoOrbitalRest (fun _ => rfl) hwf (by decide) (by decide)
    (by rw [e0, e1]; exact twoOrbital_covers)
  have e : (twoOrbitalFirst :: runHeads fracOps twoOrbitalFirst twoOrbitalRest).flatMap
      (tripleCells fracOps) = [⟨0, 1⟩, ⟨0, 1⟩, ⟨0, 1⟩] := by decide
  rw [e0, e1] at h1
  rw [e] at h3
  exact ⟨st, h1, h3⟩
